import Mathlib

/-!
# php2wasm: the execution core

A shallow embedding of `src/php/php_engine.c`, `src/php/php_variables.c`,
`src/php/php_parser.c` and `src/php/php_memory.c`.

Conventions of the embedding.

* A C `char` is a `Char`; the NUL terminator is `NUL`.
* A `char*` buffer is the `List Char` of the bytes it holds. The C string it denotes is
  the part before the first `NUL` (or the whole list when it holds none): every
  function below that walks a buffer stops at `NUL` or at the end of the list, as the C
  code stops at the terminator.
* A pointer that may be `NULL` is an `Option`.
* A scan position `const char* pos` is the suffix of the buffer that starts at `pos`;
  `*pos` is `cur pos`, `pos++` is `pos.tail`, `pos += n` is `pos.drop n`.
* The output sink is the list of bytes handed to `write` on standard output, oldest
  first.
* Allocation (`malloc`, `calloc`, `realloc`, `strdup`) succeeds. A store to a slot that
  lies outside the block it indexes has no defined result (`none`), and neither has
  `strcmp` on a null pointer or a call through one.
* A value is held by content: tag, union member and reference count. What
  `php_value_destroy` does to a value that a table gives up is not part of the table;
  where it matters, the table holds addresses and the values stand in a store
  (`value_store`, `Store.php_variable_set`).
* The libc formatting of a `double` by `snprintf("%.6g")` is a parameter, `fmt_g`, of
  the functions that reach it. A `double` is its IEEE-754 bit pattern.
* A file is what `fopen` finds: nothing, or its bytes. The `int` counters of the syntax
  check are integers, taken to stay in the range of `int`.
* A `php_value_t*` handed to the reference counting functions is a null pointer, a
  pointer to a live value, or a pointer to released storage; the count is a `uint32_t`.
* The scan state of the lexer keeps the source and the index `position`; the bytes the
  lexer reads are those from `position` up to the terminator. The libc character
  classes are those of the C locale. Loops whose end is not plain from their shape
  carry a bound on their passes and return `none` when it is used up.
* The arithmetic of `size_t` in the allocation accounting is taken modulo `2 ^ bits`,
  with `bits` a parameter; `malloc` and `realloc` return the address they are given.
-/

namespace Php2Wasm

/-! ## C strings -/

/-- The terminator of a C string. -/
abbrev NUL : Char := Char.ofNat 0

/-- The double-quote character. -/
abbrev DQUOTE : Char := Char.ofNat 34

/-- The single-quote character. -/
abbrev SQUOTE : Char := Char.ofNat 39

/-- The byte under a scan position: `*pos`. Past the last byte of the buffer stands the
terminator. -/
def cur (pos : List Char) : Char := pos.headD NUL

/-- The C string a buffer denotes: its bytes before the first `NUL`. This is also what
`strdup` copies. -/
def cstr : List Char → List Char
  | [] => []
  | c :: cs => if c == NUL then [] else c :: cstr cs

/-- The libc `strlen`: the number of bytes before the first `NUL`. -/
def strlen : List Char → Nat
  | [] => 0
  | c :: cs => if c == NUL then 0 else strlen cs + 1

/-- The test `strcmp(a, b) == 0`: both buffers denote the same C string. -/
def strcmp_eq (a b : List Char) : Bool := cstr a == cstr b

/-- The test `strncmp(a, b, n) == 0`: the first `n` bytes agree, the comparison stopping
early at a common terminator. -/
def strncmp_eq : List Char → List Char → Nat → Bool
  | _, _, 0 => true
  | a, b, n + 1 =>
    if cur a != cur b then false
    else if cur a == NUL then true
    else strncmp_eq a.tail b.tail n

/-! ## Values (`php_engine.h`) -/

/-- The states of the engine, `php_engine_state_t`. -/
inductive php_engine_state_t
  | PHP_ENGINE_UNINITIALIZED
  | PHP_ENGINE_INITIALIZED
  | PHP_ENGINE_RUNNING
  | PHP_ENGINE_ERROR
  deriving DecidableEq, Repr

/-- The type tag of a value together with the member of the union that the tag selects.
A `double` is carried as its IEEE-754 bit pattern; a string as the bytes of its buffer
before the final terminator. -/
inductive php_payload
  | PHP_TYPE_NULL
  | PHP_TYPE_BOOL (bool_val : Bool)
  | PHP_TYPE_INT (int_val : Int)
  | PHP_TYPE_FLOAT (float_val : Nat)
  | PHP_TYPE_STRING (string_val : List Char)
  | PHP_TYPE_ARRAY
  | PHP_TYPE_OBJECT
  | PHP_TYPE_RESOURCE
  deriving DecidableEq, Repr

/-- A runtime value, `php_value_t`: tag, union member and reference count. -/
structure php_value_t where
  payload : php_payload
  refcount : Nat
  deriving DecidableEq, Repr

/-- Source: `php_value_create_null`. -/
def php_value_create_null : php_value_t :=
  { payload := .PHP_TYPE_NULL, refcount := 1 }

/-- Source: `php_value_create_bool`. -/
def php_value_create_bool (val : Bool) : php_value_t :=
  { payload := .PHP_TYPE_BOOL val, refcount := 1 }

/-- Source: `php_value_create_int`. -/
def php_value_create_int (val : Int) : php_value_t :=
  { payload := .PHP_TYPE_INT val, refcount := 1 }

/-- Source: `php_value_create_float`. -/
def php_value_create_float (val : Nat) : php_value_t :=
  { payload := .PHP_TYPE_FLOAT val, refcount := 1 }

/-- Source: `php_value_create_string`: a null input gives the null value, any other
input a string value holding `strdup(val)`. -/
def php_value_create_string (val : Option (List Char)) : php_value_t :=
  match val with
  | none => php_value_create_null
  | some s => { payload := .PHP_TYPE_STRING (cstr s), refcount := 1 }

/-- Source: `php_value_create_string_len`: copies exactly `length` bytes of `val`, a
buffer that holds at least that many. -/
def php_value_create_string_len (val : Option (List Char)) (length : Nat) : php_value_t :=
  match val with
  | none => php_value_create_null
  | some s => { payload := .PHP_TYPE_STRING (s.take length), refcount := 1 }

/-! ## The output sink -/

/-- Source: `php_engine_output_len`: hands `length` bytes of `str` to `write` on standard
output. -/
def php_engine_output_len (out : List Char) (str : Option (List Char)) (length : Nat) :
    List Char :=
  match str with
  | none => out
  | some s => out ++ s.take length

/-- Source: `php_engine_output`: writes the C string `str`, that is `strlen(str)` bytes. -/
def php_engine_output (out : List Char) (str : Option (List Char)) : List Char :=
  match str with
  | none => out
  | some s => php_engine_output_len out (some s) (strlen s)

/-! ## The statement scan of `php_engine_execute_string` -/

/-- The inner loop `while (*pos && (*pos == ' ' || *pos == '\t' || *pos == '\n' ||
*pos == '\r')) pos++`. -/
def skip_whitespace : List Char → List Char
  | [] => []
  | c :: cs =>
    if c != NUL && (c == ' ' || c == '\t' || c == '\n' || c == '\r') then skip_whitespace cs
    else c :: cs

/-- The inner loop `while (*pos && (*pos == ' ' || *pos == '\t')) pos++` that follows
the keyword `echo` or `print`. -/
def skip_blanks : List Char → List Char
  | [] => []
  | c :: cs => if c != NUL && (c == ' ' || c == '\t') then skip_blanks cs else c :: cs

/-- The inner loop `while (*pos && *pos != quote) pos++`, started at `start`: the bytes
it steps over (`start .. pos`) and the position where it stops. -/
def scan_quoted (quote : Char) : List Char → List Char × List Char
  | [] => ([], [])
  | c :: cs =>
    if c != NUL && c != quote then ((c :: (scan_quoted quote cs).1), (scan_quoted quote cs).2)
    else ([], c :: cs)

/-- The inner loop `while (*pos && *pos != ';' && *pos != '\n') pos++` that skips an
unrecognised statement. -/
def skip_statement : List Char → List Char
  | [] => []
  | c :: cs => if c != NUL && c != ';' && c != '\n' then skip_statement cs else c :: cs

/-- The body shared, word for word, by the `echo` and the `print` branch once the
keyword is stepped over: skip blanks; on a quote character scan to the matching quote
and, when it is there, write the bytes between the quotes and step over the closing
quote. Returns the new position and the new sink. -/
def quoted_literal (pos : List Char) (out : List Char) : List Char × List Char :=
  let pos := skip_blanks pos
  if cur pos == DQUOTE || cur pos == SQUOTE then
    let quote := cur pos
    let start := pos.tail
    let str := (scan_quoted quote start).1
    let pos := (scan_quoted quote start).2
    if cur pos == quote then
      -- `str` is the copy of the `pos - start` bytes scanned, closed by a terminator
      (pos.tail, php_engine_output out (some str))
    else (pos, out)
  else (pos, out)

/-- One pass through the body of the outer loop `while (*pos)`, entered with
`*pos != 0`. A `break` leaves `pos` on the terminator, where the loop test ends the
loop as well. Returns the new position and the new sink. -/
def execute_iteration (pos : List Char) (out : List Char) : List Char × List Char :=
  let pos := skip_whitespace pos
  if cur pos == NUL then (pos, out)
  else if strncmp_eq pos "<?php".toList 5 then (pos.drop 5, out)
  else if strncmp_eq pos "<?".toList 2 then (pos.drop 2, out)
  else if strncmp_eq pos "?>".toList 2 then (pos.drop 2, out)
  else if strncmp_eq pos "echo".toList 4 then quoted_literal (pos.drop 4) out
  else if strncmp_eq pos "print".toList 5 then quoted_literal (pos.drop 5) out
  else
    let pos := skip_statement pos
    if cur pos == ';' then (pos.tail, out) else (pos, out)

/-- The outer loop `while (*pos) { ... }`, with a bound on the number of passes;
`none` when the bound is used up before the loop ends. -/
def execute_loop : Nat → List Char → List Char → Option (List Char)
  | 0, _, _ => none
  | fuel + 1, pos, out =>
    if cur pos == NUL then some out
    else execute_loop fuel (execute_iteration pos out).1 (execute_iteration pos out).2

/-! ## The function registry and the builtins -/

/-- A native callback, `php_function_callback_t`: it receives `argc` and `argv` (an
array of at least `argc` pointers) and returns a pointer to a value; what it writes
goes to the output sink, which is passed through it. -/
abbrev php_function_callback_t :=
  Int → List (Option php_value_t) → List Char → Option php_value_t × List Char

/-- A function registration, `php_function_t`. -/
structure php_function_t where
  name : Option (List Char)
  callback : Option php_function_callback_t
  min_args : Int
  max_args : Int

/-- The global state of `php_engine.c`. An array with its count is the list of its
slots in use (`global_variables` with `global_vars_count`, `registered_functions` with
`functions_count`); `stdout` is the output sink. -/
structure Engine where
  engine_state : php_engine_state_t
  global_variables : List (Option php_value_t)
  global_vars_capacity : Nat
  registered_functions : List php_function_t
  functions_capacity : Nat
  stdout : List Char

/-- The state at program start: the static initialisers of `php_engine.c`. -/
def Engine.start : Engine :=
  { engine_state := .PHP_ENGINE_UNINITIALIZED
    global_variables := []
    global_vars_capacity := 0
    registered_functions := []
    functions_capacity := 0
    stdout := [] }

/-- Source: `php_engine_output_int`: `snprintf` with `%lld`, then `php_engine_output`. -/
def php_engine_output_int (out : List Char) (value : Int) : List Char :=
  php_engine_output out (some (toString value).toList)

/-- Source: `php_engine_output_float`: `snprintf` with `%.6g`, then
`php_engine_output`. The libc formatting of a `double` is the parameter `fmt_g`. -/
def php_engine_output_float (fmt_g : Nat → List Char) (out : List Char) (value : Nat) :
    List Char :=
  php_engine_output out (some (fmt_g value))

/-- Source: `php_engine_output_bool`. -/
def php_engine_output_bool (out : List Char) (value : Bool) : List Char :=
  php_engine_output out (some (if value then "1".toList else "".toList))

/-- The `switch` of `php_function_echo` on one non-null argument. -/
def echo_value (fmt_g : Nat → List Char) (out : List Char) (v : php_value_t) : List Char :=
  match v.payload with
  | .PHP_TYPE_STRING s => php_engine_output out (some s)
  | .PHP_TYPE_INT i => php_engine_output_int out i
  | .PHP_TYPE_FLOAT f => php_engine_output_float fmt_g out f
  | .PHP_TYPE_BOOL b => php_engine_output_bool out b
  | _ => php_engine_output out (some "NULL".toList)

/-- The `for` loop of `php_function_echo` over `argv[0 .. argc-1]`. -/
def echo_loop (fmt_g : Nat → List Char) : List (Option php_value_t) → List Char → List Char
  | [], out => out
  | none :: rest, out => echo_loop fmt_g rest out
  | some v :: rest, out => echo_loop fmt_g rest (echo_value fmt_g out v)

/-- Source: `php_function_echo`. -/
def php_function_echo (fmt_g : Nat → List Char) : php_function_callback_t :=
  fun argc argv out => (some php_value_create_null, echo_loop fmt_g (argv.take argc.toNat) out)

/-- Source: `php_function_print`. -/
def php_function_print (fmt_g : Nat → List Char) : php_function_callback_t :=
  fun argc argv out =>
    if argc > 0 && (argv.headD none).isSome then
      (some (php_value_create_int 1), (php_function_echo fmt_g 1 argv out).2)
    else (some (php_value_create_int 1), out)

/-- Source: `php_function_strlen`. The length of a string that lies in memory is within
the range of `int64_t`, so the conversion of the `size_t` keeps it. -/
def php_function_strlen : php_function_callback_t :=
  fun argc argv out =>
    if argc < 1 then (some (php_value_create_int 0), out)
    else
      match argv.headD none with
      | none => (some (php_value_create_int 0), out)
      | some v =>
        match v.payload with
        | .PHP_TYPE_STRING s => (some (php_value_create_int (strlen s)), out)
        | _ => (some (php_value_create_int 0), out)

/-- Source: `php_engine_register_function`. When the array is full the capacity is
doubled and the array reallocated; the registration is then stored in slot
`functions_count`, which has to lie inside the array. -/
def php_engine_register_function (e : Engine) (func : Option php_function_t) :
    Option (Bool × Engine) :=
  match func with
  | none => some (false, e)
  | some f =>
    match f.name, f.callback with
    | some n, some cb =>
      let capacity :=
        if e.registered_functions.length ≥ e.functions_capacity then e.functions_capacity * 2
        else e.functions_capacity
      if e.registered_functions.length < capacity then
        some (true, { e with
          functions_capacity := capacity
          registered_functions := e.registered_functions ++
            [{ name := some (cstr n), callback := some cb,
               min_args := f.min_args, max_args := f.max_args }] })
      else none
    | _, _ => some (false, e)

/-- The table `functions[]` of `register_builtin_functions`, without its terminating
all-null row. -/
def builtin_functions (fmt_g : Nat → List Char) : List php_function_t :=
  [ { name := some "echo".toList, callback := some (php_function_echo fmt_g),
      min_args := 1, max_args := -1 },
    { name := some "print".toList, callback := some (php_function_print fmt_g),
      min_args := 1, max_args := 1 },
    { name := some "strlen".toList, callback := some php_function_strlen,
      min_args := 1, max_args := 1 } ]

/-- The loop of `register_builtin_functions` over the rows of its table; the result of
each registration is dropped, as in the source. -/
def register_all : List php_function_t → Engine → Option Engine
  | [], e => some e
  | f :: rest, e =>
    match php_engine_register_function e (some f) with
    | none => none
    | some r => register_all rest r.2

/-- Source: `register_builtin_functions`. -/
def register_builtin_functions (fmt_g : Nat → List Char) (e : Engine) : Option Engine :=
  register_all (builtin_functions fmt_g) e

/-- Source: `php_engine_init`. Both arrays are allocated with `calloc`, so every slot
is zeroed; the two counts are not touched. -/
def php_engine_init (fmt_g : Nat → List Char) (e : Engine) : Option (Bool × Engine) :=
  if e.engine_state ≠ .PHP_ENGINE_UNINITIALIZED then some (true, e)
  else
    let e1 : Engine := { e with
      global_vars_capacity := 64
      global_variables := e.global_variables.map (fun _ => none)
      functions_capacity := 32
      registered_functions := e.registered_functions.map
        (fun _ => { name := none, callback := none, min_args := 0, max_args := 0 }) }
    match register_builtin_functions fmt_g e1 with
    | none => none
    | some e2 => some (true, { e2 with engine_state := .PHP_ENGINE_INITIALIZED })

/-- Source: `php_engine_cleanup`. -/
def php_engine_cleanup (e : Engine) : Engine :=
  if e.engine_state = .PHP_ENGINE_UNINITIALIZED then e
  else { e with
    global_variables := []
    registered_functions := []
    global_vars_capacity := 0
    functions_capacity := 0
    engine_state := .PHP_ENGINE_UNINITIALIZED }

/-- The `for` loop of `php_engine_call_function` over the slots in use. `strcmp` on a
null name and a call through a null callback have no defined result. -/
def call_scan (name : List Char) (argc : Int) (argv : List (Option php_value_t))
    (out : List Char) : List php_function_t → Option (Option php_value_t × List Char)
  | [] => some (none, out)
  | f :: rest =>
    match f.name with
    | none => none
    | some n =>
      if strcmp_eq n name then
        if argc < f.min_args || (f.max_args > 0 && argc > f.max_args) then some (none, out)
        else
          match f.callback with
          | none => none
          | some cb => some (cb argc argv out)
      else call_scan name argc argv out rest

/-- Source: `php_engine_call_function`. The result is the returned pointer and the
engine, whose output sink holds what the callback wrote. -/
def php_engine_call_function (e : Engine) (name : Option (List Char)) (argc : Int)
    (argv : List (Option php_value_t)) : Option (Option php_value_t × Engine) :=
  match name with
  | none => some (none, e)
  | some n =>
    match call_scan n argc argv e.stdout e.registered_functions with
    | none => none
    | some r => some (r.1, { e with stdout := r.2 })

/-- Source: `php_engine_execute_string`. The scan gets `strlen`-many passes and one
more, as many as there are bytes to step over. -/
def php_engine_execute_string (e : Engine) (code : List Char) : Option (Bool × Engine) :=
  if e.engine_state ≠ .PHP_ENGINE_INITIALIZED then some (false, e)
  else
    let e1 : Engine := { e with engine_state := .PHP_ENGINE_RUNNING }
    match execute_loop (code.length + 1) code e1.stdout with
    | none => none
    | some out => some (true, { e1 with engine_state := .PHP_ENGINE_INITIALIZED, stdout := out })

/-! ## The variable table (`php_variables.c`) -/

/-- The scope tag of an entry, `variable_scope_t`. -/
inductive variable_scope_t
  | SCOPE_GLOBAL
  | SCOPE_LOCAL
  | SCOPE_FUNCTION
  deriving DecidableEq, Repr

/-- An entry of the table, `variable_entry_t`. Its `next` pointer is never read or
written and is left out. -/
structure variable_entry_t where
  name : Option (List Char)
  value : Option php_value_t
  scope : variable_scope_t
  deriving DecidableEq, Repr

/-- The table `*current_scope`, a `variable_table_t`: `entries` lists the slots in use,
`entries[0 .. count-1]`, so `count` is its length. -/
structure variable_table_t where
  entries : List variable_entry_t
  capacity : Nat
  deriving DecidableEq, Repr

/-- The entry count of a table. -/
def variable_table_t.count (t : variable_table_t) : Nat := t.entries.length

/-- The test of the three scans: `entries[i].name && strcmp(entries[i].name, name) == 0`. -/
def entry_named (name : List Char) (e : variable_entry_t) : Bool :=
  match e.name with
  | none => false
  | some n => strcmp_eq n name

/-- The scan `for (i = 0; i < count; i++)` of `php_variable_unset`: the first index
whose entry passes the test, if there is one. -/
def find_entry (name : List Char) : List variable_entry_t → Option Nat
  | [] => none
  | e :: rest => if entry_named name e then some 0 else (find_entry name rest).map (· + 1)

/-- Source: `php_variables_init`: the array is allocated with `calloc`; the count is
not touched. -/
def php_variables_init (t : variable_table_t) : Bool × variable_table_t :=
  (true, { entries := t.entries.map
             (fun _ => { name := none, value := none, scope := .SCOPE_GLOBAL }),
           capacity := 64 })

/-- The scan of `php_variable_set` for an existing entry: the first entry that passes
the test gets the new value; `none` when no entry passes. -/
def set_existing (name : List Char) (value : php_value_t) :
    List variable_entry_t → Option (List variable_entry_t)
  | [] => none
  | e :: rest =>
    if entry_named name e then some ({ e with value := some value } :: rest)
    else (set_existing name value rest).map (fun es => e :: es)

/-- Source: `php_variable_set`, as the table sees it: names, slots and the values
handed over. Overwriting hands the old value to `php_value_destroy`; that value is no
longer in the table, and what the call does to it in memory is the subject of
`Store.php_variable_set` below, which keeps pointers in the table and the values in a
store. The two agree where no value is shared, that is, where no two entries hold the
same pointer and the new pointer is held by none (`store_set_by_content`). When the
array is full the capacity is doubled and the array reallocated; the new entry is then
stored in slot `count`, which has to lie inside the array. -/
def php_variable_set (t : variable_table_t) (name : Option (List Char))
    (value : Option php_value_t) : Option (Bool × variable_table_t) :=
  match name, value with
  | some n, some v =>
    match set_existing n v t.entries with
    | some es => some (true, { t with entries := es })
    | none =>
      let capacity := if t.entries.length ≥ t.capacity then t.capacity * 2 else t.capacity
      if t.entries.length < capacity then
        some (true, { entries := t.entries ++
                        [{ name := some (cstr n), value := some v, scope := .SCOPE_GLOBAL }],
                      capacity := capacity })
      else none
  | _, _ => some (false, t)

/-- The scan of `php_variable_get`: the value pointer of the first entry that passes
the test. -/
def get_scan (name : List Char) : List variable_entry_t → Option php_value_t
  | [] => none
  | e :: rest => if entry_named name e then e.value else get_scan name rest

/-- Source: `php_variable_get`. -/
def php_variable_get (t : variable_table_t) (name : Option (List Char)) :
    Option php_value_t :=
  match name with
  | none => none
  | some n => get_scan n t.entries

/-- Source: `php_variable_unset`: the last entry is moved into the freed slot unless
the freed slot is the last one, and the count drops by one. -/
def php_variable_unset (t : variable_table_t) (name : Option (List Char)) :
    Bool × variable_table_t :=
  match name with
  | none => (false, t)
  | some n =>
    match find_entry n t.entries with
    | some i =>
      let moved :=
        if i < t.entries.length - 1 then
          match t.entries[t.entries.length - 1]? with
          | some last => t.entries.set i last
          | none => t.entries
        else t.entries
      (true, { t with entries := moved.take (t.entries.length - 1) })
    | none => (false, t)

/-- Source: `php_variable_isset`. -/
def php_variable_isset (t : variable_table_t) (name : Option (List Char)) : Bool :=
  (php_variable_get t name).isSome

/-- The engine that `php_engine_init` builds from the state at program start: the three
builtins registered in an array of 32 slots, no variables in an array of 64. -/
def Engine.initialized (fmt_g : Nat → List Char) : Engine :=
  { engine_state := .PHP_ENGINE_INITIALIZED
    global_variables := []
    global_vars_capacity := 64
    registered_functions := builtin_functions fmt_g
    functions_capacity := 32
    stdout := [] }

/-- The statement text `j` begins with `lit` once the bytes that the scan skips before
a statement (space, tab, line feed, carriage return) are taken off its front. -/
def begins_with (lit : String) (j : List Char) : Bool :=
  lit.toList.isPrefixOf (skip_whitespace j)

/-- The test of the registry scan on one slot: its name is there and
`strcmp(slot.name, name) == 0`. -/
def function_named (name : List Char) (f : php_function_t) : Bool :=
  match f.name with
  | none => false
  | some n => strcmp_eq n name

/-- A callback for test registrations: it writes `called` and returns `Int(argc)`. -/
def probe_callback : php_function_callback_t :=
  fun argc _ out => (some (php_value_create_int argc), out ++ "called".toList)

/-- A registration of `probe_callback` under the name `probe` with the given bounds. -/
def probe_function (min_args max_args : Int) : php_function_t :=
  { name := some "probe".toList, callback := some probe_callback,
    min_args := min_args, max_args := max_args }

/-- Two name pointers carry the same name: both are there and `strcmp` finds them
equal. -/
def same_name (a b : Option (List Char)) : Bool :=
  match a, b with
  | some x, some y => strcmp_eq x y
  | _, _ => false

/-- No two entries of the table carry the same name. -/
def names_unique (t : variable_table_t) : Prop :=
  (t.entries.map (fun e => e.name)).Pairwise (fun a b => same_name a b = false)

/-- The tables that `php_variable_set` and `php_variable_unset` build from a table
without entries. -/
inductive Reachable : variable_table_t → Prop
  | empty (capacity : Nat) : Reachable { entries := [], capacity := capacity }
  | set (t t2 : variable_table_t) (name : Option (List Char)) (value : Option php_value_t)
      (ok : Bool) : Reachable t → php_variable_set t name value = some (ok, t2) → Reachable t2
  | unset (t : variable_table_t) (name : Option (List Char)) :
      Reachable t → Reachable (php_variable_unset t name).2

/-- A table that holds the one variable `x`, set to `Int(1)`, in an array of 64 slots. -/
def table_x : variable_table_t :=
  { entries := [{ name := some "x".toList, value := some (php_value_create_int 1),
                  scope := .SCOPE_GLOBAL }],
    capacity := 64 }

/-! ## Emptiness of a variable, rendering of a value, reachable engine states -/

/-- The comparison `x == 0.0` on a `double` given by its IEEE-754 bit pattern: it holds
for the two zeros, `+0.0` (all bits clear) and `-0.0` (only the sign bit set). -/
def double_is_zero (bits : Nat) : Bool := bits == 0 || bits == 2 ^ 63

/-- Source: `php_variable_empty`. -/
def php_variable_empty (t : variable_table_t) (name : Option (List Char)) : Bool :=
  match php_variable_get t name with
  | none => true
  | some value =>
    match value.payload with
    | .PHP_TYPE_NULL => true
    | .PHP_TYPE_BOOL b => !b
    | .PHP_TYPE_INT i => i == 0
    | .PHP_TYPE_FLOAT f => double_is_zero f
    | .PHP_TYPE_STRING s => strlen s == 0
    | .PHP_TYPE_ARRAY => true
    | _ => false

/-- The rendering of one value, in the words of the builtin catalogue: a String as its
text (the C string it holds), an Int as its signed decimal numeral, a Float as `%.6g`
formats it, `true` as `1`, `false` as nothing, anything else as `NULL`. -/
def render (fmt_g : Nat → List Char) (v : php_value_t) : List Char :=
  match v.payload with
  | .PHP_TYPE_STRING s => cstr s
  | .PHP_TYPE_INT i => (toString i).toList
  | .PHP_TYPE_FLOAT f => cstr (fmt_g f)
  | .PHP_TYPE_BOOL true => "1".toList
  | .PHP_TYPE_BOOL false => []
  | _ => "NULL".toList

/-- A table that holds the variables `x` and `y`, set in that order. -/
def table_xy : variable_table_t :=
  { entries := [{ name := some "x".toList, value := some (php_value_create_int 1),
                  scope := .SCOPE_GLOBAL },
                { name := some "y".toList, value := some (php_value_create_string (some [])),
                  scope := .SCOPE_GLOBAL }],
    capacity := 64 }

/-- The states of the engine that calls of its functions lead to from the state at
program start. -/
inductive EngineReachable : Engine → Prop
  | start : EngineReachable Engine.start
  | init (fmt_g : Nat → List Char) (e e2 : Engine) (ok : Bool) :
      EngineReachable e → php_engine_init fmt_g e = some (ok, e2) → EngineReachable e2
  | cleanup (e : Engine) : EngineReachable e → EngineReachable (php_engine_cleanup e)
  | execute (e e2 : Engine) (code : List Char) (ok : Bool) :
      EngineReachable e → php_engine_execute_string e code = some (ok, e2) →
      EngineReachable e2
  | register (e e2 : Engine) (func : Option php_function_t) (ok : Bool) :
      EngineReachable e → php_engine_register_function e func = some (ok, e2) →
      EngineReachable e2
  | call (e e2 : Engine) (name : Option (List Char)) (argc : Int)
      (argv : List (Option php_value_t)) (r : Option php_value_t) :
      EngineReachable e → php_engine_call_function e name argc argv = some (r, e2) →
      EngineReachable e2

/-! ## The syntax check of `php_engine_syntax_check` -/

/-- The character `{`. -/
abbrev LBRACE : Char := Char.ofNat 123

/-- The character `}`. -/
abbrev RBRACE : Char := Char.ofNat 125

/-- The loop `while (fgets(line, sizeof(line), file))` as the list of the buffers it
sees: `fgets` stores bytes up to and including a line feed, at most `room` of them
(the size of the buffer less the terminator), and fails at the end of the file when it
has stored none. `line` holds the bytes stored so far. -/
def fgets_all (room : Nat) : List Char → List Char → List (List Char)
  | [], line => if line.isEmpty then [] else [line]
  | c :: rest, line =>
    if c == '\n' || line.length + 1 == room then (line ++ [c]) :: fgets_all room rest []
    else fgets_all room rest (line ++ [c])

/-- The needle occurs in the text. -/
def has_infix (needle : List Char) : List Char → Bool
  | [] => needle.isEmpty
  | c :: cs => needle.isPrefixOf (c :: cs) || has_infix needle cs

/-- The test `strstr(hay, needle) != NULL` for a needle without terminator: the needle
occurs in the C string that `hay` holds. -/
def strstr_found (hay needle : List Char) : Bool := has_infix needle (cstr hay)

/-- The loop `while (*pos)` of the syntax check over one line: it steps the brace
counter and the parenthesis counter. The counters are C `int`s; they are taken to stay
in range. -/
def count_line : List Char → Int × Int → Int × Int
  | [], counts => counts
  | c :: rest, counts =>
    if c == NUL then counts
    else if c == LBRACE then count_line rest (counts.1 + 1, counts.2)
    else if c == RBRACE then count_line rest (counts.1 - 1, counts.2)
    else if c == '(' then count_line rest (counts.1, counts.2 + 1)
    else if c == ')' then count_line rest (counts.1, counts.2 - 1)
    else count_line rest counts

/-- The local variables of `php_engine_syntax_check` that live across lines. -/
structure syntax_check_state where
  in_php : Bool
  brace_count : Int
  paren_count : Int
  deriving DecidableEq, Repr

/-- The body of the `fgets` loop for one line. -/
def syntax_check_line (st : syntax_check_state) (line : List Char) : syntax_check_state :=
  let in_php :=
    if strstr_found line "<?php".toList || strstr_found line "<?=".toList then true
    else st.in_php
  let in_php := if strstr_found line "?>".toList then false else in_php
  if in_php then
    { in_php := in_php
      brace_count := (count_line line (st.brace_count, st.paren_count)).1
      paren_count := (count_line line (st.brace_count, st.paren_count)).2 }
  else { st with in_php := in_php }

/-- Source: `php_engine_syntax_check`. The file is given by what `fopen` finds: nothing
(`fopen` fails) or its bytes. -/
def php_engine_syntax_check (file : Option (List Char)) : Bool :=
  match file with
  | none => false
  | some content =>
    let st := (fgets_all 1023 content []).foldl syntax_check_line
      { in_php := false, brace_count := 0, paren_count := 0 }
    st.brace_count == 0 && st.paren_count == 0

/-- The lines of a file that the amended claim C20 counts, as C strings: a line that
holds `?>` is not counted and ends the region; any other line is counted when it holds
`<?php` or `<?=` or when the line before it left the region open. `inside` tells
whether the region is open. -/
def counted_lines : Bool → List (List Char) → List (List Char)
  | _, [] => []
  | inside, l :: ls =>
    if strstr_found l "?>".toList then counted_lines false ls
    else if strstr_found l "<?php".toList || strstr_found l "<?=".toList || inside then
      cstr l :: counted_lines true ls
    else counted_lines false ls

/-! ## Reference counting of values (`php_engine.c`) -/

/-- What a `php_value_t*` argument stands for: a null pointer, a pointer to a live
value, or a pointer to storage that `free` has released. -/
inductive value_ptr
  | null
  | live (v : php_value_t)
  | released
  deriving DecidableEq, Repr

/-- Source: `php_value_destroy`. The reference count is a `uint32_t`, so `--refcount`
is taken modulo `2^32`. When the count reaches 0 the text of a string and the value
itself are freed. A read through a pointer to released storage has no defined result. -/
def php_value_destroy : value_ptr → Option value_ptr
  | .null => some .null
  | .released => none
  | .live v =>
    let refcount := (v.refcount + (2 ^ 32 - 1)) % 2 ^ 32
    if refcount == 0 then some .released
    else some (.live { v with refcount := refcount })

/-- Source: `php_value_ref`: `refcount++` on a `uint32_t`. -/
def php_value_ref : value_ptr → Option value_ptr
  | .null => some .null
  | .released => none
  | .live v => some (.live { v with refcount := (v.refcount + 1) % 2 ^ 32 })

/-- Source: `php_value_unref`. -/
def php_value_unref (value : value_ptr) : Option value_ptr := php_value_destroy value

/-- The call `php_value_unref(value)` made `n` times in a row. -/
def unref_times : Nat → value_ptr → Option value_ptr
  | 0, value => some value
  | n + 1, value => (php_value_unref value).bind (unref_times n)

/-! ## Shapes of a scan -/

/-- A source text cut into gaps and quoted bodies: each pair is a gap followed by a
body, and `tail` is what follows the last body. -/
def interleave (segs : List (List Char × List Char)) (tail : List Char) : List Char :=
  (segs.map (fun s => s.1 ++ s.2)).flatten ++ tail

/-- The bodies of a cut, in order. -/
def bodies (segs : List (List Char × List Char)) : List Char :=
  (segs.map (fun s => s.2)).flatten

/-! ## Tables for the compaction and ordering laws -/

/-- The entry of a variable `name` set to `Int(i)`. -/
def int_entry (name : String) (i : Int) : variable_entry_t :=
  { name := some name.toList, value := some (php_value_create_int i), scope := .SCOPE_GLOBAL }

/-- A table that holds the variables `x`, `y` and `z`, set in that order. -/
def table_xyz : variable_table_t :=
  { entries := [int_entry "x" 1, int_entry "y" 2, int_entry "z" 3], capacity := 64 }

/-! ## The variable interface of the engine (`php_engine.c`) -/

/-- The test `global_variables[i] && strcmp(global_variables[i]->value.string_val,
name) == 0` of the two scans below. It reads the union member `string_val` of the
stored value whatever its tag; for a value that is no string the member is no pointer
to text and the comparison has no defined result (`none`). -/
def slot_matches (name : List Char) : Option php_value_t → Option Bool
  | none => some false
  | some g =>
    match g.payload with
    | .PHP_TYPE_STRING s => some (strcmp_eq s name)
    | _ => none

/-- The scan `for (i = 0; i < global_vars_count; i++)`: the first index whose slot
passes the test, if there is one. -/
def find_variable (name : List Char) : List (Option php_value_t) → Option (Option Nat)
  | [] => some none
  | g :: rest =>
    match slot_matches name g with
    | none => none
    | some true => some (some 0)
    | some false => (find_variable name rest).map (fun r => r.map (· + 1))

/-- Source: `php_engine_set_variable`. A slot that passes the test gets the new value
(the old one goes to `php_value_destroy`); otherwise the value is stored in slot
`global_vars_count`, after the capacity is doubled when the array is full. -/
def php_engine_set_variable (e : Engine) (name : Option (List Char))
    (value : Option php_value_t) : Option (Bool × Engine) :=
  match name, value with
  | some n, some v =>
    match find_variable n e.global_variables with
    | none => none
    | some (some i) =>
      some (true, { e with global_variables := e.global_variables.set i (some v) })
    | some none =>
      let capacity :=
        if e.global_variables.length ≥ e.global_vars_capacity then e.global_vars_capacity * 2
        else e.global_vars_capacity
      if e.global_variables.length < capacity then
        some (true, { e with
          global_vars_capacity := capacity
          global_variables := e.global_variables ++ [some v] })
      else none
  | _, _ => some (false, e)

/-- Source: `php_engine_get_variable`: the value in the first slot that passes the
test, or the null pointer. -/
def php_engine_get_variable (e : Engine) (name : Option (List Char)) :
    Option (Option php_value_t) :=
  match name with
  | none => some none
  | some n =>
    match find_variable n e.global_variables with
    | none => none
    | some none => some none
    | some (some i) => some (e.global_variables[i]?).join

/-! ## Allocation accounting (`php_memory.c`) -/

/-- A node of the list `memory_pool`, without its link. A pointer is an address, the
null pointer is 0. -/
structure memory_block_t where
  ptr : Nat
  size : Nat
  in_use : Bool
  deriving DecidableEq, Repr

/-- The static variables of `php_memory.c`; the list is kept head first. -/
structure memory_state where
  memory_pool : List memory_block_t
  total_allocated : Nat
  peak_allocated : Nat
  deriving DecidableEq, Repr

/-- Source: `php_memory_init`. -/
def php_memory_init (_m : memory_state) : Bool × memory_state :=
  (true, { memory_pool := [], total_allocated := 0, peak_allocated := 0 })

/-- Source: `php_memory_alloc`, for a `size_t` of `bits` bits. `fresh` is the address
that `malloc(size)` returns. Returns that address and the new state. -/
def php_memory_alloc (bits : Nat) (m : memory_state) (size fresh : Nat) :
    Nat × memory_state :=
  let total := (m.total_allocated + size) % 2 ^ bits
  (fresh,
    { memory_pool := { ptr := fresh, size := size, in_use := true } :: m.memory_pool
      total_allocated := total
      peak_allocated := if total > m.peak_allocated then total else m.peak_allocated })

/-- The walk of `php_memory_realloc` along the list: the first block that records `ptr`
takes the address `moved` and the size `new_size`; `none` when no block records `ptr`. -/
def realloc_block (ptr new_size moved : Nat) : List memory_block_t →
    Option (List memory_block_t)
  | [] => none
  | b :: rest =>
    if b.ptr == ptr then some ({ b with ptr := moved, size := new_size } :: rest)
    else (realloc_block ptr new_size moved rest).map (fun bs => b :: bs)

/-- Source: `php_memory_realloc`. `moved` is the address that `realloc(ptr, new_size)`
(or `malloc`, for a null `ptr`) returns. -/
def php_memory_realloc (bits : Nat) (m : memory_state) (ptr new_size moved : Nat) :
    Nat × memory_state :=
  if ptr == 0 then php_memory_alloc bits m new_size moved
  else
    match realloc_block ptr new_size moved m.memory_pool with
    | some pool => (moved, { m with memory_pool := pool })
    | none => (0, m)

/-- The walk of `php_memory_free` along the list: the size of the first block that
records `ptr` and the list without that block; `none` when no block records `ptr`. -/
def free_block (ptr : Nat) : List memory_block_t → Option (Nat × List memory_block_t)
  | [] => none
  | b :: rest =>
    if b.ptr == ptr then some (b.size, rest)
    else (free_block ptr rest).map (fun r => (r.1, b :: r.2))

/-- Source: `php_memory_free`, for a `size_t` of `bits` bits. -/
def php_memory_free (bits : Nat) (m : memory_state) (ptr : Nat) : memory_state :=
  if ptr == 0 then m
  else
    match free_block ptr m.memory_pool with
    | some r =>
      { m with
        memory_pool := r.2
        total_allocated := (m.total_allocated + (2 ^ bits - r.1 % 2 ^ bits)) % 2 ^ bits }
    | none => m

/-- Source: `php_memory_get_usage`. -/
def php_memory_get_usage (m : memory_state) : Nat := m.total_allocated

/-- Source: `php_memory_get_peak_usage`. -/
def php_memory_get_peak_usage (m : memory_state) : Nat := m.peak_allocated

/-- The sum of the sizes recorded in the blocks of the list. -/
def recorded_sizes (m : memory_state) : Nat := (m.memory_pool.map (fun b => b.size)).sum

/-! ## The lexer (`php_parser.c`) -/

/-- The kinds of token, `token_type_t`. -/
inductive token_type_t
  | TOKEN_EOF
  | TOKEN_IDENTIFIER
  | TOKEN_STRING
  | TOKEN_NUMBER
  | TOKEN_OPERATOR
  | TOKEN_KEYWORD
  | TOKEN_SYMBOL
  deriving DecidableEq, Repr

/-- A token, `token_t`: `value` is the owned text, a null pointer in the token that
`token_t token = {0}` leaves untouched. The `int` fields are natural numbers, taken to
stay in the range of `int`. -/
structure token_t where
  type : token_type_t
  value : Option (List Char)
  length : Nat
  line : Nat
  column : Nat
  deriving DecidableEq, Repr

/-- The scan state of `parser_state_t`. The field `current_token` is left out: it holds
the token that `next_token` returned last, which is carried beside the state. -/
structure parser_state_t where
  source : List Char
  position : Nat
  line : Nat
  column : Nat
  deriving DecidableEq, Repr

/-- The bytes `source[position]`, `source[position + 1]`, ... up to the terminator:
what the tests `position < strlen(source)` and the reads of `source[position]` see. -/
def parser_state_t.rest (parser : parser_state_t) : List Char :=
  (cstr parser.source).drop parser.position

/-- The libc `isspace` in the C locale: space, `\t`, `\n`, `\v`, `\f`, `\r`. -/
def isspace (c : Char) : Bool :=
  c == ' ' || c == '\t' || c == '\n' || c == Char.ofNat 11 || c == Char.ofNat 12 || c == '\r'

/-- The libc `isdigit`: `0` to `9`. -/
def isdigit (c : Char) : Bool := "0123456789".toList.contains c

/-- The libc `isalpha` in the C locale: the ASCII letters. -/
def isalpha (c : Char) : Bool :=
  "abcdefghijklmnopqrstuvwxyzABCDEFGHIJKLMNOPQRSTUVWXYZ".toList.contains c

/-- The libc `isalnum` in the C locale: the ASCII letters and digits. -/
def isalnum (c : Char) : Bool := isalpha c || isdigit c

/-- The step `position++` with the bookkeeping of line and column that the loops over
whitespace, block comments and string literals share: a line feed starts a new line. -/
def step_counted (current : Char) (parser : parser_state_t) : parser_state_t :=
  if current == '\n' then
    { parser with position := parser.position + 1, line := parser.line + 1, column := 1 }
  else { parser with position := parser.position + 1, column := parser.column + 1 }

/-- The loop of a line comment, `while (position < strlen(source) && source[position]
!= '\n') position++`, entered with the bytes from `position` on as first argument. The
column is not touched. -/
def line_comment_loop : List Char → parser_state_t → parser_state_t
  | [], parser => parser
  | c :: cs, parser =>
    if c != '\n' then line_comment_loop cs { parser with position := parser.position + 1 }
    else parser

/-- The loop of a block comment, `while (position + 1 < strlen(source))`, entered
behind the opening `/*` with the bytes from `position` on as first argument. -/
def block_comment_loop : List Char → parser_state_t → parser_state_t
  | c :: d :: cs, parser =>
    if c == '*' && d == '/' then
      { parser with position := parser.position + 2, column := parser.column + 2 }
    else block_comment_loop (d :: cs) (step_counted c parser)
  | _, parser => parser

/-- The outer loop of `skip_whitespace` (`php_parser.c`), with a bound on the number of
passes; `none` when the bound is used up before the loop ends. -/
def Lexer.skip_whitespace_loop : Nat → parser_state_t → Option parser_state_t
  | 0, _ => none
  | fuel + 1, parser =>
    match parser.rest with
    | [] => some parser
    | current :: after =>
      if isspace current then Lexer.skip_whitespace_loop fuel (step_counted current parser)
      else if current == '/' && after.head? == some '/' then
        Lexer.skip_whitespace_loop fuel (line_comment_loop (current :: after) parser)
      else if current == '/' && after.head? == some '*' then
        Lexer.skip_whitespace_loop fuel
          (block_comment_loop after.tail
            { parser with position := parser.position + 2, column := parser.column + 2 })
      else some parser

/-- Source: `skip_whitespace` (`php_parser.c`). The loop gets as many passes as there
are bytes left, and one more. -/
def Lexer.skip_whitespace (parser : parser_state_t) : Option parser_state_t :=
  Lexer.skip_whitespace_loop (parser.rest.length + 1) parser

/-- The loop of a string literal, `while (position < strlen(source) &&
source[position] != quote)`, with the bytes from `position` on as first argument.
Returns the state and `length`. -/
def string_loop (quote : Char) : List Char → parser_state_t → Nat → parser_state_t × Nat
  | [], parser, length => (parser, length)
  | c :: cs, parser, length =>
    if c != quote then string_loop quote cs (step_counted c parser) (length + 1)
    else (parser, length)

/-- The loop of a number, over digits and `.`. -/
def number_loop : List Char → parser_state_t → Nat → parser_state_t × Nat
  | [], parser, length => (parser, length)
  | c :: cs, parser, length =>
    if isdigit c || c == '.' then
      number_loop cs
        { parser with position := parser.position + 1, column := parser.column + 1 }
        (length + 1)
    else (parser, length)

/-- The loop of an identifier, over letters, digits and `_`. -/
def identifier_loop : List Char → parser_state_t → Nat → parser_state_t × Nat
  | [], parser, length => (parser, length)
  | c :: cs, parser, length =>
    if isalnum c || c == '_' then
      identifier_loop cs
        { parser with position := parser.position + 1, column := parser.column + 1 }
        (length + 1)
    else (parser, length)

/-- The array `keywords[]` of `is_keyword`. -/
def keywords : List String :=
  ["echo", "print", "if", "else", "elseif", "while", "for", "foreach",
   "function", "class", "interface", "trait", "namespace", "use",
   "return", "break", "continue", "switch", "case", "default",
   "try", "catch", "finally", "throw", "new", "clone", "instanceof",
   "public", "private", "protected", "static", "abstract", "final",
   "const", "var", "global", "static", "unset", "isset", "empty",
   "include", "require", "include_once", "require_once",
   "and", "or", "xor", "not", "true", "false", "null",
   "array", "object", "string", "int", "float", "bool", "mixed",
   "void", "self", "parent", "this"]

/-- Source: `is_keyword`: `strcmp` against each entry of the array. -/
def is_keyword (word : List Char) : Bool := keywords.any (fun k => strcmp_eq word k.toList)

/-- Source: `next_token`. Returns the token and the state it leaves. -/
def next_token (parser : parser_state_t) : Option (token_t × parser_state_t) :=
  match Lexer.skip_whitespace parser with
  | none => none
  | some parser =>
    match parser.rest with
    | [] =>
      some ({ type := .TOKEN_EOF, value := none, length := 0, line := 0, column := 0 }, parser)
    | current :: after =>
      if current == DQUOTE || current == SQUOTE then
        let quote := current
        let start := after
        let r := string_loop quote after
          { parser with position := parser.position + 1, column := parser.column + 1 } 0
        let closed : parser_state_t :=
          if r.1.position < strlen r.1.source then
            { r.1 with position := r.1.position + 1, column := r.1.column + 1 }
          else r.1
        some ({ type := .TOKEN_STRING, value := some (start.take r.2), length := r.2,
                line := parser.line, column := parser.column }, closed)
      else if isdigit current then
        let start := current :: after
        let r := number_loop (current :: after) parser 0
        some ({ type := .TOKEN_NUMBER, value := some (start.take r.2), length := r.2,
                line := parser.line, column := parser.column }, r.1)
      else if isalpha current || current == '_' then
        let start := current :: after
        let r := identifier_loop (current :: after) parser 0
        some ({ type := if is_keyword (start.take r.2) then .TOKEN_KEYWORD
                        else .TOKEN_IDENTIFIER,
                value := some (start.take r.2), length := r.2,
                line := parser.line, column := parser.column }, r.1)
      else
        some ({ type := .TOKEN_OPERATOR, value := some [current], length := 1,
                line := parser.line, column := parser.column },
              { parser with position := parser.position + 1, column := parser.column + 1 })

/-- Source: `parser_init`: the state at the start of the source, and the first token
beside it. -/
def parser_init (source : List Char) : Option (token_t × parser_state_t) :=
  next_token { source := source, position := 0, line := 1, column := 1 }

/-- The loop `while (parser->current_token.type != TOKEN_EOF)` of `parse_php_code`,
with a bound on the number of passes. -/
def parse_loop : Nat → token_t → parser_state_t → Option parser_state_t
  | 0, _, _ => none
  | fuel + 1, current_token, parser =>
    if current_token.type != .TOKEN_EOF then
      match next_token parser with
      | none => none
      | some r => parse_loop fuel r.1 r.2
    else some parser

/-- Source: `parse_php_code`. The loop gets as many passes as the source has bytes, and
one more. -/
def parse_php_code (code : List Char) : Option Bool :=
  match parser_init code with
  | none => none
  | some r => (parse_loop (strlen code + 1) r.1 r.2).map (fun _ => true)

/-- The tokens that repeated calls of `next_token` return, up to and including the
first `TOKEN_EOF`; `none` when `fuel` calls do not reach it. -/
def tokens : Nat → parser_state_t → Option (List token_t)
  | 0, _ => none
  | fuel + 1, parser =>
    match next_token parser with
    | none => none
    | some r =>
      if r.1.type == .TOKEN_EOF then some [r.1]
      else (tokens fuel r.2).map (fun ts => r.1 :: ts)

/-- The token stream of a source as kinds and texts: the tokens lexed from its start up
to the first `TOKEN_EOF`. -/
def lex (source : List Char) : Option (List (token_type_t × Option (List Char))) :=
  (tokens (strlen source + 1) { source := source, position := 0, line := 1, column := 1 }).map
    (fun ts => ts.map (fun t => (t.type, t.value)))

/-- The line number after the bytes `chunk` are stepped over from line `line`. -/
def line_after (line : Nat) (chunk : List Char) : Nat := line + chunk.count '\n'

/-- The column after the bytes `chunk` are stepped over from column `column`: a line
feed resets it to 1, any other byte adds one. -/
def column_after (column : Nat) (chunk : List Char) : Nat :=
  chunk.foldl (fun col ch => if ch == '\n' then 1 else col + 1) column

/-- The state after the bytes `chunk` are stepped over with exact bookkeeping. -/
def advance (chunk : List Char) (parser : parser_state_t) : parser_state_t :=
  { parser with
    position := parser.position + chunk.length
    line := line_after parser.line chunk
    column := column_after parser.column chunk }

/-- The number of bytes that the loop of a block comment steps over, entered behind the
opening `/*` on the bytes given: up to and including the first `*/`, or all but the
last byte when there is no `*/`. -/
def block_comment_length : List Char → Nat
  | c :: d :: cs =>
    if c == '*' && d == '/' then 2 else block_comment_length (d :: cs) + 1
  | _ => 0

/-- The line of the byte that follows the text `before` in a source: 1 plus the number
of line feeds in `before`. -/
def line_of (before : List Char) : Nat := 1 + before.count '\n'

/-- The column of the byte that follows the text `before` in a source: 1 plus the
number of bytes of `before` behind its last line feed (or all of them when it holds
none). -/
def column_of (before : List Char) : Nat :=
  1 + (before.reverse.takeWhile (fun ch => ch != '\n')).length





/-! ## Sources for the lexer -/

/-- The state that `parser_init` sets up before it reads the first token. -/
def lexer_start (source : List Char) : parser_state_t :=
  { source := source, position := 0, line := 1, column := 1 }

/-- The reserved words as byte strings. -/
def reserved_words : List (List Char) := keywords.map (fun k => k.toList)

/-- The states that calls of `next_token` lead to from the start of a source. -/
inductive LexReachable (source : List Char) : parser_state_t → Prop
  | start : LexReachable source (lexer_start source)
  | step (p q : parser_state_t) (tok : token_t) :
      LexReachable source p → next_token p = some (tok, q) → LexReachable source q







/-! ## Quoted literals in a source text -/

/-- A quoted literal behind a keyword, as it stands in a source text: the text `before`
the keyword, the keyword, the blanks behind it, the opening quote and the body. The
closing quote is the opening one. -/
structure echo_piece where
  before : List Char
  keyword : List Char
  blanks : List Char
  quote : Char
  body : List Char
  deriving DecidableEq, Repr

/-- The source text of a piece, from `before` to the closing quote. -/
def echo_piece.text (pc : echo_piece) : List Char :=
  pc.before ++ pc.keyword ++ pc.blanks ++ pc.quote :: pc.body ++ [pc.quote]

/-- The piece is a quoted literal that follows `echo` or `print`: the keyword is one of
the two, the blanks are spaces and tabs, the quote is `"` or `'`, and the body holds
neither the quote nor the terminator. -/
def echo_piece.is_literal (pc : echo_piece) : Prop :=
  (pc.keyword = "echo".toList ∨ pc.keyword = "print".toList) ∧
  (∀ b ∈ pc.blanks, b = ' ' ∨ b = '\t') ∧
  (pc.quote = DQUOTE ∨ pc.quote = SQUOTE) ∧
  pc.quote ∉ pc.body ∧ NUL ∉ pc.body

/-- The source text of a row of pieces followed by `tail`. -/
def pieces_text (pieces : List echo_piece) (tail : List Char) : List Char :=
  (pieces.map (fun pc => pc.text)).flatten ++ tail

/-- The bodies of a row of pieces, in order. -/
def pieces_bodies (pieces : List echo_piece) : List Char :=
  (pieces.map (fun pc => pc.body)).flatten

/-! ## The variable table over a store of values (`php_variables.c`) -/

/-- The values in memory: the live value at each address, `none` where no live value
stands (storage never handed out, or released). Address 0 is the null pointer. -/
abbrev value_store := Nat → Option php_value_t

/-- What a pointer points at in a store. -/
def deref (store : value_store) (value : Nat) : value_ptr :=
  if value = 0 then .null
  else
    match store value with
    | some v => .live v
    | none => .released

/-- The call `php_value_destroy(value)` on a store: `php_value_destroy` on what the
pointer points at, written back to its address. -/
def destroy_at (store : value_store) (value : Nat) : Option value_store :=
  match php_value_destroy (deref store value) with
  | none => none
  | some .null => some store
  | some (.live v) => some (fun a => if a = value then some v else store a)
  | some .released => some (fun a => if a = value then none else store a)

/-- An entry of the table, `variable_entry_t`, with its value as the pointer it is. -/
structure stored_entry_t where
  name : Option (List Char)
  value : Nat
  scope : variable_scope_t
  deriving DecidableEq, Repr

/-- The table `variable_table_t` with pointers as values: the entries in use, in slot
order, and the capacity of the array. -/
structure stored_table_t where
  entries : List stored_entry_t
  capacity : Nat
  deriving DecidableEq, Repr

/-- The test of the scans: `entries[i].name && strcmp(entries[i].name, name) == 0`. -/
def stored_named (name : List Char) (e : stored_entry_t) : Bool :=
  match e.name with
  | none => false
  | some n => strcmp_eq n name

/-- The scan of `php_variable_set` for an existing entry: the first entry that passes
the test gets the new pointer; the result is the pointer it held and the new array,
`none` when no entry passes. -/
def Store.set_existing (name : List Char) (value : Nat) :
    List stored_entry_t → Option (Nat × List stored_entry_t)
  | [] => none
  | e :: rest =>
    if stored_named name e then some (e.value, { e with value := value } :: rest)
    else (Store.set_existing name value rest).map (fun r => (r.1, e :: r.2))

/-- Source: `php_variable_set`, on a store. An existing entry has its old value handed
to `php_value_destroy` and then holds the new pointer; otherwise an entry is appended,
after the capacity is doubled when the array is full. -/
def Store.php_variable_set (store : value_store) (t : stored_table_t)
    (name : Option (List Char)) (value : Nat) :
    Option (Bool × value_store × stored_table_t) :=
  match name with
  | none => some (false, store, t)
  | some n =>
    if value = 0 then some (false, store, t)
    else
      match Store.set_existing n value t.entries with
      | some r =>
        match destroy_at store r.1 with
        | none => none
        | some store2 => some (true, store2, { t with entries := r.2 })
      | none =>
        let capacity := if t.entries.length ≥ t.capacity then t.capacity * 2 else t.capacity
        if t.entries.length < capacity then
          some (true, store,
            { entries := t.entries ++
                [{ name := some (cstr n), value := value, scope := .SCOPE_GLOBAL }],
              capacity := capacity })
        else none

/-- The scan of `php_variable_get`: the pointer of the first entry that passes the test,
the null pointer when none does. -/
def Store.get_scan (name : List Char) : List stored_entry_t → Nat
  | [] => 0
  | e :: rest => if stored_named name e then e.value else Store.get_scan name rest

/-- Source: `php_variable_get`, on a table of pointers. -/
def Store.php_variable_get (t : stored_table_t) (name : Option (List Char)) : Nat :=
  match name with
  | none => 0
  | some n => Store.get_scan n t.entries

/-- The index of the first entry that passes the test, if there is one. -/
def Store.find_entry (name : List Char) : List stored_entry_t → Option Nat
  | [] => none
  | e :: rest =>
    if stored_named name e then some 0 else (Store.find_entry name rest).map (· + 1)

/-- No two entries of the table carry the same name. -/
def stored_names_unique (t : stored_table_t) : Prop :=
  (t.entries.map (fun e => e.name)).Pairwise (fun a b => same_name a b = false)

/-- A store with `Int(1)` at address 1, held with the reference count `refcount`, and
`Int(2)` at address 2. -/
def store_two (refcount : Nat) : value_store :=
  fun a =>
    if a = 1 then some { payload := .PHP_TYPE_INT 1, refcount := refcount }
    else if a = 2 then some (php_value_create_int 2)
    else none

/-- The entry of a variable `name` that points at `value`. -/
def pointer_entry (name : String) (value : Nat) : stored_entry_t :=
  { name := some name.toList, value := value, scope := .SCOPE_GLOBAL }

/-- A table of pointers that holds the variable `x`, pointing at address 1. -/
def pointers_x : stored_table_t := { entries := [pointer_entry "x" 1], capacity := 64 }

/-- A table of pointers that holds the variables `a` and `b`, both pointing at
address 1. -/
def pointers_ab : stored_table_t :=
  { entries := [pointer_entry "a" 1, pointer_entry "b" 1], capacity := 64 }

/-- A table of pointers without entries, in an array of 64 slots. -/
def pointers_none : stored_table_t := { entries := [], capacity := 64 }

/-- An entry of a table of pointers seen by content: the pointer replaced by the value
that stands at it in the store, `none` for the null pointer and for a pointer at which
no live value stands. -/
def content_entry (store : value_store) (e : stored_entry_t) : variable_entry_t :=
  { name := e.name, value := if e.value = 0 then none else store e.value, scope := e.scope }

/-- A table of pointers seen by content. -/
def by_content (store : value_store) (t : stored_table_t) : variable_table_t :=
  { entries := t.entries.map (content_entry store), capacity := t.capacity }

/-- No value is shared: the non-null pointers among `value` and the pointers that the
entries hold are pairwise different. -/
def unshared (value : Nat) (t : stored_table_t) : Prop :=
  ((value :: t.entries.map (fun e => e.value)).filter (fun a => a != 0)).Nodup

/-! ## The scan: lengths and termination -/

theorem skip_whitespace_length_le (p : List Char) :
    (skip_whitespace p).length ≤ p.length := by
  induction p with
  | nil => simp [skip_whitespace]
  | cons c cs ih =>
    unfold skip_whitespace
    split
    · exact Nat.le_succ_of_le ih
    · exact Nat.le_refl _

theorem skip_blanks_length_le (p : List Char) : (skip_blanks p).length ≤ p.length := by
  induction p with
  | nil => simp [skip_blanks]
  | cons c cs ih =>
    unfold skip_blanks
    split
    · exact Nat.le_succ_of_le ih
    · exact Nat.le_refl _

theorem skip_statement_length_le (p : List Char) :
    (skip_statement p).length ≤ p.length := by
  induction p with
  | nil => simp [skip_statement]
  | cons c cs ih =>
    unfold skip_statement
    split
    · exact Nat.le_succ_of_le ih
    · exact Nat.le_refl _

theorem scan_quoted_length_le (q : Char) (p : List Char) :
    (scan_quoted q p).2.length ≤ p.length := by
  induction p with
  | nil => simp [scan_quoted]
  | cons c cs ih =>
    unfold scan_quoted
    split
    · exact Nat.le_succ_of_le ih
    · exact Nat.le_refl _

theorem tail_length_le (p : List Char) : p.tail.length ≤ p.length := by
  cases p <;> simp

theorem quoted_literal_length_le (p out : List Char) :
    (quoted_literal p out).1.length ≤ p.length := by
  have h1 := skip_blanks_length_le p
  unfold quoted_literal
  simp only
  split
  · have h2 := scan_quoted_length_le (cur (skip_blanks p)) (skip_blanks p).tail
    have h3 := tail_length_le (skip_blanks p)
    split
    · have h4 := tail_length_le (scan_quoted (cur (skip_blanks p)) (skip_blanks p).tail).2
      simp only
      omega
    · simp only
      omega
  · exact h1

/-- After the whitespace skip the byte under the position is no line feed. -/
theorem cur_skip_whitespace_ne_newline (p : List Char) :
    cur (skip_whitespace p) ≠ '\n' := by
  induction p with
  | nil => simp [skip_whitespace, cur]; decide
  | cons c cs ih =>
    unfold skip_whitespace
    split
    · exact ih
    · rename_i h
      intro hc
      simp [cur] at hc
      subst hc
      exact h (by decide)

theorem skip_whitespace_eq_or_lt (p : List Char) :
    skip_whitespace p = p ∨ (skip_whitespace p).length < p.length := by
  cases p with
  | nil => left; rfl
  | cons c cs =>
    unfold skip_whitespace
    split
    · right
      have := skip_whitespace_length_le cs
      simp
      omega
    · left; rfl

theorem strncmp_eq_length (n : Nat) : ∀ (p lit : List Char),
    (∀ c ∈ lit, c ≠ NUL) → n ≤ lit.length → strncmp_eq p lit n = true → n ≤ p.length := by
  induction n with
  | zero => intros; exact Nat.zero_le _
  | succ n ih =>
    intro p lit hl hn h
    cases lit with
    | nil => simp at hn
    | cons b bs =>
      cases p with
      | nil =>
        have hb : b ≠ NUL := hl b (by simp)
        simp [strncmp_eq, cur] at h
        exact absurd h.symm hb
      | cons a as =>
        have hb : b ≠ NUL := hl b (by simp)
        simp only [strncmp_eq, cur, List.headD_cons, List.tail_cons] at h
        split at h
        · simp at h
        · split at h
          · rename_i h1 h2
            simp at h1 h2
            exact absurd (h1 ▸ h2) hb
          · have := ih as bs (fun c hc => hl c (by simp [hc])) (by simpa using hn) h
            simp
            omega


theorem drop_length_lt (n : Nat) (p : List Char) (h0 : 0 < n) (h : n ≤ p.length) :
    (p.drop n).length < p.length := by
  simp
  omega

theorem lit_no_nul_php : ∀ c ∈ "<?php".toList, c ≠ NUL := by decide
theorem lit_no_nul_open : ∀ c ∈ "<?".toList, c ≠ NUL := by decide
theorem lit_no_nul_close : ∀ c ∈ "?>".toList, c ≠ NUL := by decide
theorem lit_no_nul_echo : ∀ c ∈ "echo".toList, c ≠ NUL := by decide
theorem lit_no_nul_print : ∀ c ∈ "print".toList, c ≠ NUL := by decide

/-- The last branch of the loop body steps over at least one byte when it starts on a
byte that is neither the terminator nor a line feed. -/
theorem skip_statement_progress (p : List Char) (h0 : cur p ≠ NUL) (h1 : cur p ≠ '\n') :
    (if cur (skip_statement p) == ';' then (skip_statement p).tail
      else skip_statement p).length < p.length := by
  cases p with
  | nil => simp [cur] at h0
  | cons c cs =>
    simp only [cur, List.headD_cons] at h0 h1
    have hle := skip_statement_length_le cs
    unfold skip_statement
    by_cases hs : c = ';'
    · subst hs
      simp [cur]
    · have hc : (c != NUL && c != ';' && c != '\n') = true := by simp [h0, h1, hs]
      rw [if_pos hc]
      have ht := tail_length_le (skip_statement cs)
      split <;> simp <;> omega

/-- Every pass through the loop body that starts off the terminator moves the scan
position forward. -/
theorem execute_iteration_progress (p out : List Char) (h : cur p ≠ NUL) :
    (execute_iteration p out).1.length < p.length := by
  have hle := skip_whitespace_length_le p
  unfold execute_iteration
  simp only
  split
  · rename_i h1
    rcases skip_whitespace_eq_or_lt p with he | hl
    · rw [he] at h1
      simp at h1
      exact absurd h1 h
    · exact hl
  · rename_i hnz
    have hnz2 : cur (skip_whitespace p) ≠ NUL := by simpa using hnz
    split
    · rename_i h1
      have := strncmp_eq_length 5 _ _ lit_no_nul_php (by decide) h1
      have := drop_length_lt 5 (skip_whitespace p) (by decide) this
      simp only
      omega
    · split
      · rename_i h1
        have := strncmp_eq_length 2 _ _ lit_no_nul_open (by decide) h1
        have := drop_length_lt 2 (skip_whitespace p) (by decide) this
        simp only
        omega
      · split
        · rename_i h1
          have := strncmp_eq_length 2 _ _ lit_no_nul_close (by decide) h1
          have := drop_length_lt 2 (skip_whitespace p) (by decide) this
          simp only
          omega
        · split
          · rename_i h1
            have h4 := strncmp_eq_length 4 _ _ lit_no_nul_echo (by decide) h1
            have := drop_length_lt 4 (skip_whitespace p) (by decide) h4
            have := quoted_literal_length_le ((skip_whitespace p).drop 4) out
            omega
          · split
            · rename_i h1
              have h5 := strncmp_eq_length 5 _ _ lit_no_nul_print (by decide) h1
              have := drop_length_lt 5 (skip_whitespace p) (by decide) h5
              have := quoted_literal_length_le ((skip_whitespace p).drop 5) out
              omega
            · have := skip_statement_progress (skip_whitespace p) hnz2
                (cur_skip_whitespace_ne_newline p)
              split
              · rename_i h6
                rw [if_pos h6] at this
                simp only
                omega
              · rename_i h6
                rw [if_neg h6] at this
                simp only
                omega

/-- The scan ends: with more passes allowed than bytes left, the loop returns. -/
theorem execute_loop_total (fuel : Nat) : ∀ (p out : List Char), p.length < fuel →
    ∃ r, execute_loop fuel p out = some r := by
  induction fuel with
  | zero => intro p out h; omega
  | succ n ih =>
    intro p out h
    unfold execute_loop
    split
    · exact ⟨out, rfl⟩
    · rename_i hc
      have hc2 : cur p ≠ NUL := by simpa using hc
      have := execute_iteration_progress p out hc2
      exact ih _ _ (by omega)

/-- More passes allowed do not change a result already reached. -/
theorem execute_loop_mono (fuel : Nat) : ∀ (k : Nat) (p out r : List Char),
    execute_loop fuel p out = some r → execute_loop (fuel + k) p out = some r := by
  induction fuel with
  | zero => intro k p out r h; simp [execute_loop] at h
  | succ n ih =>
    intro k p out r h
    have e : n + 1 + k = (n + k) + 1 := by omega
    rw [e]
    unfold execute_loop at h ⊢
    split
    · rename_i hc
      rw [if_pos hc] at h
      exact h
    · rename_i hc
      rw [if_neg hc] at h
      exact ih k _ _ r h

/-! ## The scan: single passes -/

theorem execute_loop_mono_le (f f2 : Nat) (p out r : List Char)
    (h : execute_loop f p out = some r) (hle : f ≤ f2) : execute_loop f2 p out = some r := by
  have := execute_loop_mono f (f2 - f) p out r h
  rwa [Nat.add_sub_cancel' hle] at this

theorem strlen_eq_length (s : List Char) (hn : NUL ∉ s) : strlen s = s.length := by
  induction s with
  | nil => rfl
  | cons c cs ih =>
    have hc : c ≠ NUL := fun h => hn (by simp [h])
    have hcs : NUL ∉ cs := fun h => hn (by simp [h])
    simp [strlen, hc, ih hcs]

theorem php_engine_output_no_nul (out s : List Char) (hn : NUL ∉ s) :
    php_engine_output out (some s) = out ++ s := by
  simp [php_engine_output, php_engine_output_len, strlen_eq_length s hn]

/-- The quote scan over a body free of the quote and of the terminator stops on the
quote that follows the body. -/
theorem scan_quoted_body (q : Char) (s rest : List Char) (hq : q ∉ s) (hn : NUL ∉ s) :
    scan_quoted q (s ++ q :: rest) = (s, q :: rest) := by
  induction s with
  | nil => simp [scan_quoted]
  | cons c cs ih =>
    have hc : c ≠ NUL := fun h => hn (by simp [h])
    have hcq : c ≠ q := fun h => hq (by simp [h])
    have hcs : NUL ∉ cs := fun h => hn (by simp [h])
    have hqs : q ∉ cs := fun h => hq (by simp [h])
    simp [scan_quoted, hc, hcq, ih hqs hcs]

theorem execute_loop_step (f : Nat) (p out : List Char) (h : cur p ≠ NUL) :
    execute_loop (f + 1) p out =
      execute_loop f (execute_iteration p out).1 (execute_iteration p out).2 := by
  simp [execute_loop, h]

theorem toList_php : "<?php".toList = ['<', '?', 'p', 'h', 'p'] := by decide
theorem toList_open : "<?".toList = ['<', '?'] := by decide
theorem toList_close : "?>".toList = ['?', '>'] := by decide
theorem toList_echo : "echo".toList = ['e', 'c', 'h', 'o'] := by decide
theorem toList_print : "print".toList = ['p', 'r', 'i', 'n', 't'] := by decide

theorem strncmp_eq_isPrefixOf (lit : List Char) (hl : ∀ c ∈ lit, c ≠ NUL) :
    ∀ p : List Char, strncmp_eq p lit lit.length = lit.isPrefixOf p := by
  induction lit with
  | nil => intro p; simp [strncmp_eq]
  | cons b bs ih =>
    intro p
    have hb : b ≠ NUL := hl b (by simp)
    have ih2 := ih (fun c hc => hl c (by simp [hc]))
    cases p with
    | nil => simp [strncmp_eq, cur, Ne.symm hb]
    | cons a as =>
      simp only [List.length_cons, strncmp_eq, cur, List.headD_cons, List.tail_cons,
        List.isPrefixOf, ih2 as]
      by_cases hab : a = b
      · subst hab
        simp [hb]
      · have hba : ¬ b = a := fun h => hab h.symm
        simp [hab, hba]

theorem isPrefixOf_append_semicolon (lit : List Char) (hl : ∀ c ∈ lit, c ≠ ';') :
    ∀ a rest : List Char, lit.isPrefixOf (a ++ ';' :: rest) = lit.isPrefixOf a := by
  induction lit with
  | nil => intro a rest; simp
  | cons b bs ih =>
    intro a rest
    have hb : b ≠ ';' := hl b (by simp)
    cases a with
    | nil => simp [List.isPrefixOf, hb]
    | cons c cs =>
      have ih2 := ih (fun c hc => hl c (by simp [hc])) cs rest
      simp [List.isPrefixOf, ih2]

theorem skip_whitespace_append_semicolon (j rest : List Char) :
    skip_whitespace (j ++ ';' :: rest) = skip_whitespace j ++ ';' :: rest := by
  induction j with
  | nil => simp [skip_whitespace]
  | cons c cs ih =>
    simp only [List.cons_append, skip_whitespace]
    split
    · exact ih
    · rfl

theorem mem_of_mem_skip_whitespace (j : List Char) :
    ∀ c ∈ skip_whitespace j, c ∈ j := by
  induction j with
  | nil => simp [skip_whitespace]
  | cons d ds ih =>
    intro c hc
    unfold skip_whitespace at hc
    split at hc
    · exact List.mem_cons_of_mem _ (ih c hc)
    · exact hc

theorem skip_statement_append_semicolon (a rest : List Char)
    (ha : ∀ c ∈ a, c ≠ NUL ∧ c ≠ ';' ∧ c ≠ '\n') :
    skip_statement (a ++ ';' :: rest) = ';' :: rest := by
  induction a with
  | nil => simp [skip_statement]
  | cons c cs ih =>
    have hc := ha c (by simp)
    simp only [List.cons_append, skip_statement]
    have : (c != NUL && c != ';' && c != '\n') = true := by simp [hc.1, hc.2.1, hc.2.2]
    rw [if_pos this]
    exact ih (fun d hd => ha d (by simp [hd]))

theorem iter_open_php (rest out : List Char) :
    execute_iteration ('<' :: '?' :: 'p' :: 'h' :: 'p' :: rest) out = (rest, out) := by
  simp [execute_iteration, skip_whitespace, strncmp_eq, cur, toList_php, NUL]

theorem iter_space (p out : List Char) :
    execute_iteration (' ' :: p) out = execute_iteration p out := by
  have : skip_whitespace (' ' :: p) = skip_whitespace p := by simp [skip_whitespace, NUL]
  simp only [execute_iteration, this]

theorem iter_echo (rest out : List Char) :
    execute_iteration ('e' :: 'c' :: 'h' :: 'o' :: rest) out = quoted_literal rest out := by
  simp [execute_iteration, skip_whitespace, strncmp_eq, cur, toList_php, toList_open,
    toList_close, toList_echo, NUL]

theorem iter_semicolon (rest out : List Char) :
    execute_iteration (';' :: rest) out = (rest, out) := by
  simp [execute_iteration, skip_whitespace, strncmp_eq, cur, toList_php, toList_open,
    toList_close, toList_echo, toList_print, NUL, skip_statement]

theorem iter_close (rest out : List Char) :
    execute_iteration ('?' :: '>' :: rest) out = (rest, out) := by
  simp [execute_iteration, skip_whitespace, strncmp_eq, cur, toList_php, toList_open,
    toList_close, NUL]

/-- The literal branch on a quoted body that holds neither its quote nor the
terminator: the body is written and the scan goes on behind the closing quote. -/
theorem quoted_literal_body (q : Char) (hq : q = DQUOTE ∨ q = SQUOTE) (s rest out : List Char)
    (hs : q ∉ s) (hn : NUL ∉ s) :
    quoted_literal (' ' :: q :: (s ++ q :: rest)) out = (rest, out ++ s) := by
  have hsc := scan_quoted_body q s rest hs hn
  have ho := php_engine_output_no_nul out s hn
  rcases hq with rfl | rfl
  · simp [quoted_literal, skip_blanks, cur, hsc, ho, NUL, DQUOTE]
  · simp [quoted_literal, skip_blanks, cur, hsc, ho, NUL, SQUOTE]

/-- A statement text that holds no `;`, no line feed and no terminator and that does
not begin, behind the whitespace the scan skips, with a tag or with `echo` or `print`,
is stepped over together with its `;` and writes nothing. -/
theorem iter_unrecognised (j rest out : List Char)
    (h1 : ';' ∉ j) (h2 : '\n' ∉ j) (h3 : NUL ∉ j)
    (hopen : "<?".toList.isPrefixOf (skip_whitespace j) = false)
    (hclose : "?>".toList.isPrefixOf (skip_whitespace j) = false)
    (hecho : "echo".toList.isPrefixOf (skip_whitespace j) = false)
    (hprint : "print".toList.isPrefixOf (skip_whitespace j) = false) :
    execute_iteration (j ++ ';' :: rest) out = (rest, out) := by
  have hmem : ∀ c ∈ skip_whitespace j, c ≠ NUL ∧ c ≠ ';' ∧ c ≠ '\n' := by
    intro c hc
    have := mem_of_mem_skip_whitespace j c hc
    exact ⟨fun h => h3 (h ▸ this), fun h => h1 (h ▸ this), fun h => h2 (h ▸ this)⟩
  have hcur : (cur (skip_whitespace j ++ ';' :: rest) == NUL) = false := by
    cases hj : skip_whitespace j with
    | nil => simp [cur, NUL]
    | cons c cs =>
      have := (hmem c (by simp [hj])).1
      simp [cur, this]
  have hphp : "<?php".toList.isPrefixOf (skip_whitespace j) = false := by
    cases hj : skip_whitespace j with
    | nil => decide
    | cons a as =>
      rw [hj] at hopen
      cases as with
      | nil => simp [toList_php, List.isPrefixOf] 
      | cons b bs =>
        simp only [toList_open, List.isPrefixOf, Bool.and_true] at hopen
        simp only [toList_php, List.isPrefixOf]
        rw [← Bool.and_assoc, hopen, Bool.false_and]
  have e1 := strncmp_eq_isPrefixOf "<?php".toList lit_no_nul_php
  have e2 := strncmp_eq_isPrefixOf "<?".toList lit_no_nul_open
  have e3 := strncmp_eq_isPrefixOf "?>".toList lit_no_nul_close
  have e4 := strncmp_eq_isPrefixOf "echo".toList lit_no_nul_echo
  have e5 := strncmp_eq_isPrefixOf "print".toList lit_no_nul_print
  have l1 : "<?php".toList.length = 5 := by decide
  have l2 : "<?".toList.length = 2 := by decide
  have l3 : "?>".toList.length = 2 := by decide
  have l4 : "echo".toList.length = 4 := by decide
  have l5 : "print".toList.length = 5 := by decide
  rw [l1] at e1; rw [l2] at e2; rw [l3] at e3; rw [l4] at e4; rw [l5] at e5
  have p1 := isPrefixOf_append_semicolon "<?php".toList (by decide) (skip_whitespace j) rest
  have p2 := isPrefixOf_append_semicolon "<?".toList (by decide) (skip_whitespace j) rest
  have p3 := isPrefixOf_append_semicolon "?>".toList (by decide) (skip_whitespace j) rest
  have p4 := isPrefixOf_append_semicolon "echo".toList (by decide) (skip_whitespace j) rest
  have p5 := isPrefixOf_append_semicolon "print".toList (by decide) (skip_whitespace j) rest
  have hst := skip_statement_append_semicolon (skip_whitespace j) rest hmem
  simp only [execute_iteration, skip_whitespace_append_semicolon, hcur, e1, e2, e3, e4, e5,
    p1, p2, p3, p4, p5, hphp, hopen, hclose, hecho, hprint, hst]
  simp [cur]

/-! ## Execution of a source text -/

theorem php_engine_init_start (fmt_g : Nat → List Char) :
    php_engine_init fmt_g Engine.start = some (true, Engine.initialized fmt_g) := by
  rfl

/-- Claim C3. For every source text and every engine state `php_engine_execute_string`
returns, and it returns success exactly when the state is Initialized. When the state
is not Initialized it fails and leaves the whole engine, output sink and state included,
as it was; when the state is Initialized the state is Initialized again on return. -/
theorem execute_string_success_iff_initialized (e : Engine) (code : List Char) :
    (php_engine_execute_string e code).map (fun r => r.1) =
        some (decide (e.engine_state = .PHP_ENGINE_INITIALIZED)) ∧
      (e.engine_state ≠ .PHP_ENGINE_INITIALIZED →
        php_engine_execute_string e code = some (false, e)) ∧
      (e.engine_state = .PHP_ENGINE_INITIALIZED →
        (php_engine_execute_string e code).map (fun r => r.2.engine_state) =
          some .PHP_ENGINE_INITIALIZED) := by
  obtain ⟨r, hr⟩ := execute_loop_total (code.length + 1) code e.stdout (Nat.lt_succ_self _)
  by_cases h : e.engine_state = .PHP_ENGINE_INITIALIZED
  · simp [php_engine_execute_string, h, hr]
  · simp [php_engine_execute_string, h]

theorem execute_string_of_loop (e : Engine) (code r : List Char) (f : Nat)
    (hinit : e.engine_state = .PHP_ENGINE_INITIALIZED)
    (h : execute_loop f code e.stdout = some r) (hf : f ≤ code.length + 1) :
    (php_engine_execute_string e code).map (fun r => (r.1, r.2.stdout)) = some (true, r) := by
  have := execute_loop_mono_le f (code.length + 1) code e.stdout r h hf
  simp [php_engine_execute_string, hinit, this]

theorem echo_hello_loop (s out : List Char) (hq : DQUOTE ∉ s) (hn : NUL ∉ s) :
    execute_loop 5 ("<?php echo \"".toList ++ s ++ "\"; ?>".toList) out = some (out ++ s) := by
  have hpre : "<?php echo \"".toList =
      ['<', '?', 'p', 'h', 'p', ' ', 'e', 'c', 'h', 'o', ' ', DQUOTE] := by decide
  have hpost : "\"; ?>".toList = [DQUOTE, ';', ' ', '?', '>'] := by decide
  rw [hpre, hpost]
  simp only [List.cons_append, List.nil_append, List.append_assoc]
  rw [execute_loop_step 4 _ _ (by simp [cur, NUL]), iter_open_php]
  rw [execute_loop_step 3 _ _ (by simp [cur, NUL]), iter_space, iter_echo,
    quoted_literal_body DQUOTE (Or.inl rfl) s _ out hq hn]
  rw [execute_loop_step 2 _ _ (by simp [cur, NUL]), iter_semicolon]
  rw [execute_loop_step 1 _ _ (by simp [cur, NUL]), iter_space, iter_close]
  simp [execute_loop, cur]

/-- Claim C1. On an Initialized engine, for every string `s` that holds no double quote
and no NUL, executing `<?php echo "` ++ `s` ++ `"; ?>` succeeds and appends exactly the
bytes of `s` to the output sink, nothing before or behind them. -/
theorem execute_string_echo_double_quoted (e : Engine) (s : List Char)
    (hinit : e.engine_state = .PHP_ENGINE_INITIALIZED) (hq : DQUOTE ∉ s) (hn : NUL ∉ s) :
    (php_engine_execute_string e ("<?php echo \"".toList ++ s ++ "\"; ?>".toList)).map
        (fun r => (r.1, r.2.stdout)) = some (true, e.stdout ++ s) := by
  apply execute_string_of_loop e _ _ 5 hinit (echo_hello_loop s e.stdout hq hn)
  simp

theorem execute_string_echo_double_quoted_witness :
    (Engine.initialized (fun _ => [])).engine_state = .PHP_ENGINE_INITIALIZED ∧
      DQUOTE ∉ "Hello".toList ∧ NUL ∉ "Hello".toList ∧
      (php_engine_execute_string (Engine.initialized (fun _ => []))
          "<?php echo \"Hello\"; ?>".toList).map (fun r => (r.1, r.2.stdout)) =
        some (true, "Hello".toList) :=
  ⟨rfl, by decide, by decide,
    execute_string_echo_double_quoted (Engine.initialized (fun _ => [])) "Hello".toList rfl
      (by decide) (by decide)⟩


theorem skip_junk_loop (j out : List Char)
    (h1 : ';' ∉ j) (h2 : '\n' ∉ j) (h3 : NUL ∉ j)
    (hopen : begins_with "<?" j = false) (hclose : begins_with "?>" j = false)
    (hecho : begins_with "echo" j = false) (hprint : begins_with "print" j = false) :
    execute_loop 8 ("<?php echo 'A'; ".toList ++ j ++ "; echo 'B'; ?>".toList) out =
      some (out ++ "AB".toList) := by
  have hpre : "<?php echo 'A'; ".toList =
      ['<', '?', 'p', 'h', 'p', ' ', 'e', 'c', 'h', 'o', ' ', SQUOTE, 'A', SQUOTE, ';', ' '] := by
    decide
  have hpost : "; echo 'B'; ?>".toList =
      [';', ' ', 'e', 'c', 'h', 'o', ' ', SQUOTE, 'B', SQUOTE, ';', ' ', '?', '>'] := by decide
  have hAB : "AB".toList = ['A', 'B'] := by decide
  have hA := quoted_literal_body SQUOTE (Or.inr rfl) ['A']
  have hB := quoted_literal_body SQUOTE (Or.inr rfl) ['B']
  simp only [List.cons_append, List.nil_append] at hA hB
  rw [hpre, hpost, hAB]
  simp only [List.cons_append, List.nil_append, List.append_assoc]
  rw [execute_loop_step 7 _ _ (by simp [cur, NUL]), iter_open_php]
  rw [execute_loop_step 6 _ _ (by simp [cur, NUL]), iter_space, iter_echo,
    hA _ out (by decide) (by decide)]
  rw [execute_loop_step 5 _ _ (by simp [cur, NUL]), iter_semicolon]
  rw [execute_loop_step 4 _ _ (by simp [cur, NUL]), iter_space,
    iter_unrecognised j _ _ h1 h2 h3 hopen hclose hecho hprint]
  rw [execute_loop_step 3 _ _ (by simp [cur, NUL]), iter_space, iter_echo,
    hB _ _ (by decide) (by decide)]
  rw [execute_loop_step 2 _ _ (by simp [cur, NUL]), iter_semicolon]
  rw [execute_loop_step 1 _ _ (by simp [cur, NUL]), iter_space, iter_close]
  simp [execute_loop, cur]

/-- Claim C2. On an Initialized engine, for every statement text `j` that holds no `;`,
no line feed and no NUL and that, behind its leading blanks (the bytes the scan skips
before a statement), does not begin with `echo`, `print`, `<?` or `?>`, executing
`<?php echo 'A'; ` ++ `j` ++ `; echo 'B'; ?>` succeeds and appends exactly `AB` to the
output sink: the statement is skipped up to its `;`, writes nothing and does not stop
the scan. -/
theorem execute_string_skips_unrecognised (e : Engine) (j : List Char)
    (hinit : e.engine_state = .PHP_ENGINE_INITIALIZED)
    (h1 : ';' ∉ j) (h2 : '\n' ∉ j) (h3 : NUL ∉ j)
    (hopen : begins_with "<?" j = false) (hclose : begins_with "?>" j = false)
    (hecho : begins_with "echo" j = false) (hprint : begins_with "print" j = false) :
    (php_engine_execute_string e
        ("<?php echo 'A'; ".toList ++ j ++ "; echo 'B'; ?>".toList)).map
      (fun r => (r.1, r.2.stdout)) = some (true, e.stdout ++ "AB".toList) := by
  apply execute_string_of_loop e _ _ 8 hinit
    (skip_junk_loop j e.stdout h1 h2 h3 hopen hclose hecho hprint)
  simp

theorem execute_string_skips_unrecognised_witness :
    (Engine.initialized (fun _ => [])).engine_state = .PHP_ENGINE_INITIALIZED ∧
      ';' ∉ "junkStatement()".toList ∧ '\n' ∉ "junkStatement()".toList ∧
      NUL ∉ "junkStatement()".toList ∧
      begins_with "<?" "junkStatement()".toList = false ∧
      begins_with "?>" "junkStatement()".toList = false ∧
      begins_with "echo" "junkStatement()".toList = false ∧
      begins_with "print" "junkStatement()".toList = false ∧
      (php_engine_execute_string (Engine.initialized (fun _ => []))
          "<?php echo 'A'; junkStatement(); echo 'B'; ?>".toList).map
        (fun r => (r.1, r.2.stdout)) = some (true, "AB".toList) :=
  ⟨rfl, by decide, by decide, by decide, by decide, by decide, by decide, by decide,
    execute_string_skips_unrecognised (Engine.initialized (fun _ => []))
      "junkStatement()".toList rfl (by decide) (by decide) (by decide) (by decide) (by decide)
      (by decide) (by decide)⟩

/-! ## Function dispatch -/

theorem call_scan_first (name : List Char) (argc : Int) (argv : List (Option php_value_t))
    (out : List Char) (f : php_function_t) (cb : php_function_callback_t)
    (post : List php_function_t) (hf : function_named name f = true)
    (hcb : f.callback = some cb) :
    ∀ pre : List php_function_t,
      (∀ g ∈ pre, g.name.isSome = true ∧ function_named name g = false) →
      call_scan name argc argv out (pre ++ f :: post) =
        if f.min_args ≤ argc ∧ (f.max_args ≤ 0 ∨ argc ≤ f.max_args) then some (cb argc argv out)
        else some (none, out) := by
  intro pre
  induction pre with
  | nil =>
    intro _
    cases hn : f.name with
    | none => simp [function_named, hn] at hf
    | some n =>
      simp only [function_named, hn] at hf
      simp only [List.nil_append, call_scan, hn, hf, if_true, hcb]
      by_cases h1 : argc < f.min_args
      · have : ¬ f.min_args ≤ argc := by omega
        simp [h1, this]
      · have h1' : f.min_args ≤ argc := by omega
        by_cases h2 : f.max_args > 0 ∧ argc > f.max_args
        · have : ¬ (f.max_args ≤ 0 ∨ argc ≤ f.max_args) := by omega
          simp [h1, h2, this, h1']
        · have : f.max_args ≤ 0 ∨ argc ≤ f.max_args := by omega
          have h3 : ¬ (0 < f.max_args ∧ f.max_args < argc) := by omega
          simp [h1, this, h1', h3]
  | cons g gs ih =>
    intro hpre
    have hg := hpre g (by simp)
    cases hn : g.name with
    | none => simp [hn] at hg
    | some n =>
      have : strcmp_eq n name = false := by simpa [function_named, hn] using hg.2
      simp only [List.cons_append, call_scan, hn, this]
      exact ih (fun x hx => hpre x (by simp [hx]))

theorem call_scan_none (name : List Char) (argc : Int) (argv : List (Option php_value_t))
    (out : List Char) :
    ∀ reg : List php_function_t,
      (∀ g ∈ reg, g.name.isSome = true ∧ function_named name g = false) →
      call_scan name argc argv out reg = some (none, out) := by
  intro reg
  induction reg with
  | nil => intro _; rfl
  | cons g gs ih =>
    intro hpre
    have hg := hpre g (by simp)
    cases hn : g.name with
    | none => simp [hn] at hg
    | some n =>
      have : strcmp_eq n name = false := by simpa [function_named, hn] using hg.2
      simp only [call_scan, hn, this]
      exact ih (fun x hx => hpre x (by simp [hx]))


/-- Claim C4, amended. For every registry whose slots have a name and a callback, every
name and every argument list: when `f` is the first slot whose name equals `name`, the
call returns what `f`'s callback returns (and the sink as the callback leaves it) if
`argv.length >= min_args` and (`max_args <= 0` or `argv.length <= max_args`), and
otherwise the absent result with the engine untouched; when no slot has the name it
returns the absent result with the engine untouched. So a slot registered with
`max_args = 0` accepts any number of arguments from `min_args` on. -/
theorem call_function_dispatch (e : Engine) (name : List Char)
    (argv : List (Option php_value_t))
    (hreg : ∀ g ∈ e.registered_functions, g.name.isSome = true ∧ g.callback.isSome = true) :
    (∀ pre f post cb, e.registered_functions = pre ++ f :: post →
        (∀ g ∈ pre, function_named name g = false) → function_named name f = true →
        f.callback = some cb →
        php_engine_call_function e (some name) argv.length argv =
          if f.min_args ≤ argv.length ∧ (f.max_args ≤ 0 ∨ (argv.length : Int) ≤ f.max_args) then
            some ((cb argv.length argv e.stdout).1,
              { e with stdout := (cb argv.length argv e.stdout).2 })
          else some (none, e)) ∧
      ((∀ g ∈ e.registered_functions, function_named name g = false) →
        php_engine_call_function e (some name) argv.length argv = some (none, e)) := by
  constructor
  · intro pre f post cb hsplit hpre hf hcb
    have hpre2 : ∀ g ∈ pre, g.name.isSome = true ∧ function_named name g = false := by
      intro g hg
      exact ⟨(hreg g (by simp [hsplit, hg])).1, hpre g hg⟩
    have := call_scan_first name argv.length argv e.stdout f cb post hf hcb pre hpre2
    rw [← hsplit] at this
    simp only [php_engine_call_function, this]
    by_cases hc : f.min_args ≤ argv.length ∧ (f.max_args ≤ 0 ∨ (argv.length : Int) ≤ f.max_args)
    · simp only [if_pos hc]
    · simp only [if_neg hc]
  · intro hnone
    have := call_scan_none name argv.length argv e.stdout e.registered_functions
      (fun g hg => ⟨(hreg g hg).1, hnone g hg⟩)
    simp only [php_engine_call_function, this]

theorem call_function_dispatch_witness :
    (∀ g ∈ (Engine.initialized (fun _ => [])).registered_functions,
        g.name.isSome = true ∧ g.callback.isSome = true) ∧
      ((∀ pre f post cb,
          (Engine.initialized (fun _ => [])).registered_functions = pre ++ f :: post →
          (∀ g ∈ pre, function_named "print".toList g = false) →
          function_named "print".toList f = true →
          f.callback = some cb →
          php_engine_call_function (Engine.initialized (fun _ => [])) (some "print".toList)
              [some php_value_create_null].length [some php_value_create_null] =
            if f.min_args ≤ [some php_value_create_null].length ∧
                (f.max_args ≤ 0 ∨ ([some php_value_create_null].length : Int) ≤
                  f.max_args) then
              some ((cb [some php_value_create_null].length [some php_value_create_null] (Engine.initialized (fun _ => [])).stdout).1,
                { Engine.initialized (fun _ => []) with
                  stdout := (cb [some php_value_create_null].length [some php_value_create_null]
                    (Engine.initialized (fun _ => [])).stdout).2 })
            else some (none, Engine.initialized (fun _ => []))) ∧
        ((∀ g ∈ (Engine.initialized (fun _ => [])).registered_functions,
            function_named "print".toList g = false) →
          php_engine_call_function (Engine.initialized (fun _ => [])) (some "print".toList)
              [some php_value_create_null].length [some php_value_create_null] =
            some (none, Engine.initialized (fun _ => [])))) :=
  ⟨by simp [Engine.initialized, builtin_functions],
    call_function_dispatch (Engine.initialized (fun _ => [])) "print".toList [some php_value_create_null]
      (by simp [Engine.initialized, builtin_functions])⟩

/-- Claim C4, counterexample. A function registered with `min_args = 0` and
`max_args = 0` and called with one argument is not rejected: its callback runs (it
writes `called`) and its result `Int(1)` is returned. -/
theorem call_function_max_args_zero_accepts :
    (probe_function 0 0).max_args = 0 ∧
      ((php_engine_register_function (Engine.initialized (fun _ => []))
            (some (probe_function 0 0))).bind
          (fun r => php_engine_call_function r.2 (some "probe".toList) 1
            [some php_value_create_null])).map (fun r => (r.1, r.2.stdout)) =
        some (some (php_value_create_int 1), "called".toList) := by
  constructor
  · rfl
  · decide


/-- What `php_engine_init` does in the uninitialised state with no function registered:
the state in which the program starts and in which `php_engine_cleanup` leaves it. -/
theorem php_engine_init_fresh (fmt_g : Nat → List Char) (e0 : Engine)
    (hs : e0.engine_state = .PHP_ENGINE_UNINITIALIZED) (hr : e0.registered_functions = []) :
    php_engine_init fmt_g e0 = some (true,
      { engine_state := .PHP_ENGINE_INITIALIZED
        global_variables := e0.global_variables.map (fun _ => none)
        global_vars_capacity := 64
        registered_functions := builtin_functions fmt_g
        functions_capacity := 32
        stdout := e0.stdout }) := by
  have h1 : cstr "echo".toList = "echo".toList := by decide
  have h2 : cstr "print".toList = "print".toList := by decide
  have h3 : cstr "strlen".toList = "strlen".toList := by decide
  simp only [php_engine_init, hs, hr, register_builtin_functions, register_all,
    builtin_functions, php_engine_register_function, h1, h2, h3]
  simp

theorem call_scan_builtin_print (fmt_g : Nat → List Char) (argc : Int)
    (argv : List (Option php_value_t)) (out : List Char) :
    call_scan "print".toList argc argv out (builtin_functions fmt_g) =
      if argc < 1 || (decide ((1 : Int) > 0) && decide (argc > 1)) then some (none, out)
      else some (php_function_print fmt_g argc argv out) := by
  have h1 : strcmp_eq "echo".toList "print".toList = false := by decide
  have h2 : strcmp_eq "print".toList "print".toList = true := by decide
  simp only [call_scan, builtin_functions, h1, h2]
  simp

theorem call_scan_builtin_strlen (fmt_g : Nat → List Char) (argc : Int)
    (argv : List (Option php_value_t)) (out : List Char) :
    call_scan "strlen".toList argc argv out (builtin_functions fmt_g) =
      if argc < 1 || (decide ((1 : Int) > 0) && decide (argc > 1)) then some (none, out)
      else some (php_function_strlen argc argv out) := by
  have h1 : strcmp_eq "echo".toList "strlen".toList = false := by decide
  have h2 : strcmp_eq "print".toList "strlen".toList = false := by decide
  have h3 : strcmp_eq "strlen".toList "strlen".toList = true := by decide
  simp only [call_scan, builtin_functions, h1, h2, h3]
  simp

/-- Claim C5. After `php_engine_init` (from the uninitialised state with no function
registered), for every string value whose text `s` holds no NUL, the call of `strlen`
with that one argument returns `Int(s.length)` with reference count 1 and writes
nothing. -/
theorem call_strlen_returns_length (fmt_g : Nat → List Char) (e0 : Engine) (v : php_value_t)
    (s : List Char) (hs : e0.engine_state = .PHP_ENGINE_UNINITIALIZED)
    (hr : e0.registered_functions = []) (hv : v.payload = .PHP_TYPE_STRING s) (hn : NUL ∉ s) :
    ((php_engine_init fmt_g e0).bind
        (fun r => php_engine_call_function r.2 (some "strlen".toList) 1 [some v])).map
      (fun r => (r.1, r.2.stdout)) = some (some (php_value_create_int s.length), e0.stdout) := by
  rw [php_engine_init_fresh fmt_g e0 hs hr]
  simp only [Option.some_bind, php_engine_call_function, call_scan_builtin_strlen]
  simp [php_function_strlen, hv, strlen_eq_length s hn]

theorem call_strlen_returns_length_witness :
    Engine.start.engine_state = .PHP_ENGINE_UNINITIALIZED ∧
      Engine.start.registered_functions = [] ∧
      (php_value_create_string (some "abc".toList)).payload = .PHP_TYPE_STRING "abc".toList ∧
      NUL ∉ "abc".toList ∧
      ((php_engine_init (fun _ => []) Engine.start).bind
          (fun r => php_engine_call_function r.2 (some "strlen".toList) 1
            [some (php_value_create_string (some "abc".toList))])).map
        (fun r => (r.1, r.2.stdout)) = some (some (php_value_create_int 3), []) :=
  ⟨rfl, rfl, by decide, by decide,
    call_strlen_returns_length (fun _ => []) Engine.start
      (php_value_create_string (some "abc".toList)) "abc".toList rfl rfl (by decide)
      (by decide)⟩

/-- Claim C6, counterexample. After `php_engine_init`, the call of `strlen` with an empty
argument list returns the absent result, not `Int(0)`. -/
theorem call_strlen_no_args_absent :
    ((php_engine_init (fun _ => []) Engine.start).bind
        (fun r => php_engine_call_function r.2 (some "strlen".toList) 0 [])).map
      (fun r => r.1) = some none ∧
    ((php_engine_init (fun _ => []) Engine.start).bind
        (fun r => php_engine_call_function r.2 (some "strlen".toList) 0 [])).map
      (fun r => r.1) ≠ some (some (php_value_create_int 0)) := by
  constructor
  · decide
  · decide

/-- Claim C6, amended. After `php_engine_init`, the call of `strlen` through
`php_engine_call_function` with an empty argument list fails the arity check
(`min_args = 1`): it returns the absent result and writes nothing. It is
`php_function_strlen` itself that, given `argc = 0`, returns `Int(0)`. -/
theorem call_strlen_no_args (fmt_g : Nat → List Char) (e0 : Engine)
    (hs : e0.engine_state = .PHP_ENGINE_UNINITIALIZED) (hr : e0.registered_functions = []) :
    ((php_engine_init fmt_g e0).bind
        (fun r => php_engine_call_function r.2 (some "strlen".toList) 0 [])).map
      (fun r => (r.1, r.2.stdout)) = some (none, e0.stdout) ∧
    (∀ out, php_function_strlen 0 [] out = (some (php_value_create_int 0), out)) := by
  rw [php_engine_init_fresh fmt_g e0 hs hr]
  constructor
  · simp only [Option.some_bind, php_engine_call_function, call_scan_builtin_strlen]
    simp
  · intro out
    rfl

theorem call_strlen_no_args_witness :
    Engine.start.engine_state = .PHP_ENGINE_UNINITIALIZED ∧
      Engine.start.registered_functions = [] ∧
      (((php_engine_init (fun _ => []) Engine.start).bind
          (fun r => php_engine_call_function r.2 (some "strlen".toList) 0 [])).map
        (fun r => (r.1, r.2.stdout)) = some (none, Engine.start.stdout) ∧
      (∀ out, php_function_strlen 0 [] out = (some (php_value_create_int 0), out))) :=
  ⟨rfl, rfl, call_strlen_no_args (fun _ => []) Engine.start rfl rfl⟩

/-- Claim C7. After `php_engine_init` (from the uninitialised state with no function
registered), for every argument list of length two or more the call of `print` fails
the arity check: it returns the absent result and writes nothing to the output sink. -/
theorem call_print_two_args_rejected (fmt_g : Nat → List Char) (e0 : Engine)
    (argv : List (Option php_value_t)) (hs : e0.engine_state = .PHP_ENGINE_UNINITIALIZED)
    (hr : e0.registered_functions = []) (hlen : 2 ≤ argv.length) :
    ((php_engine_init fmt_g e0).bind
        (fun r => php_engine_call_function r.2 (some "print".toList) argv.length argv)).map
      (fun r => (r.1, r.2.stdout)) = some (none, e0.stdout) := by
  rw [php_engine_init_fresh fmt_g e0 hs hr]
  have : (1 : Int) < argv.length := by omega
  simp only [Option.some_bind, php_engine_call_function, call_scan_builtin_print]
  simp [this]

theorem call_print_two_args_rejected_witness :
    Engine.start.engine_state = .PHP_ENGINE_UNINITIALIZED ∧
      Engine.start.registered_functions = [] ∧
      2 ≤ [some (php_value_create_string (some "a".toList)),
            some (php_value_create_string (some "b".toList))].length ∧
      ((php_engine_init (fun _ => []) Engine.start).bind
          (fun r => php_engine_call_function r.2 (some "print".toList)
            [some (php_value_create_string (some "a".toList)),
              some (php_value_create_string (some "b".toList))].length
            [some (php_value_create_string (some "a".toList)),
              some (php_value_create_string (some "b".toList))])).map
        (fun r => (r.1, r.2.stdout)) = some (none, Engine.start.stdout) :=
  ⟨rfl, rfl, by decide,
    call_print_two_args_rejected (fun _ => []) Engine.start
      [some (php_value_create_string (some "a".toList)),
        some (php_value_create_string (some "b".toList))] rfl rfl (by decide)⟩

/-! ## The variable table -/

theorem cstr_idem (s : List Char) : cstr (cstr s) = cstr s := by
  induction s with
  | nil => rfl
  | cons c cs ih =>
    by_cases h : c = NUL
    · simp [cstr, h]
    · simp [cstr, h, ih]

theorem strcmp_eq_cstr_self (n : List Char) : strcmp_eq (cstr n) n = true := by
  simp [strcmp_eq, cstr_idem]

theorem strcmp_eq_iff (a b : List Char) : strcmp_eq a b = true ↔ cstr a = cstr b := by
  simp [strcmp_eq]

/-- The first entry that passes the test splits the array: no entry before it passes. -/
theorem find_entry_some (name : List Char) : ∀ (l : List variable_entry_t) (i : Nat),
    find_entry name l = some i →
    ∃ pre x post, l = pre ++ x :: post ∧ pre.length = i ∧ entry_named name x = true ∧
      ∀ g ∈ pre, entry_named name g = false := by
  intro l
  induction l with
  | nil => intro i h; simp [find_entry] at h
  | cons e rest ih =>
    intro i h
    unfold find_entry at h
    by_cases he : entry_named name e = true
    · rw [if_pos he] at h
      cases h
      exact ⟨[], e, rest, rfl, rfl, he, by simp⟩
    · rw [if_neg he] at h
      cases hr : find_entry name rest with
      | none => simp [hr] at h
      | some k =>
        simp [hr] at h
        obtain ⟨pre, x, post, hl, hlen, hx, hpre⟩ := ih k hr
        refine ⟨e :: pre, x, post, by simp [hl], by simp [hlen, h], hx, ?_⟩
        intro g hg
        rcases List.mem_cons.mp hg with rfl | hg
        · simpa using he
        · exact hpre g hg

theorem find_entry_none (name : List Char) : ∀ (l : List variable_entry_t),
    find_entry name l = none → ∀ g ∈ l, entry_named name g = false := by
  intro l
  induction l with
  | nil => intro _ g hg; simp at hg
  | cons e rest ih =>
    intro h g hg
    unfold find_entry at h
    by_cases he : entry_named name e = true
    · rw [if_pos he] at h; cases h
    · rw [if_neg he] at h
      have hr : find_entry name rest = none := by
        cases hr : find_entry name rest with
        | none => rfl
        | some k => simp [hr] at h
      rcases List.mem_cons.mp hg with rfl | hg
      · simpa using he
      · exact ih hr g hg

theorem find_entry_split (name : List Char) (x : variable_entry_t)
    (post : List variable_entry_t) (hx : entry_named name x = true) :
    ∀ pre : List variable_entry_t, (∀ g ∈ pre, entry_named name g = false) →
      find_entry name (pre ++ x :: post) = some pre.length := by
  intro pre
  induction pre with
  | nil => intro _; simp [find_entry, hx]
  | cons e rest ih =>
    intro h
    have he := h e (by simp)
    have := ih (fun g hg => h g (by simp [hg]))
    simp [find_entry, he, this]

theorem find_entry_all_false (name : List Char) : ∀ l : List variable_entry_t,
    (∀ g ∈ l, entry_named name g = false) → find_entry name l = none := by
  intro l
  induction l with
  | nil => intro _; rfl
  | cons e rest ih =>
    intro h
    have he := h e (by simp)
    have := ih (fun g hg => h g (by simp [hg]))
    simp [find_entry, he, this]

theorem set_existing_split (name : List Char) (v : php_value_t) (x : variable_entry_t)
    (post : List variable_entry_t) (hx : entry_named name x = true) :
    ∀ pre : List variable_entry_t, (∀ g ∈ pre, entry_named name g = false) →
      set_existing name v (pre ++ x :: post) = some (pre ++ { x with value := some v } :: post) := by
  intro pre
  induction pre with
  | nil => intro _; simp [set_existing, hx]
  | cons e rest ih =>
    intro h
    have he := h e (by simp)
    have := ih (fun g hg => h g (by simp [hg]))
    simp [set_existing, he, this]

theorem set_existing_all_false (name : List Char) (v : php_value_t) :
    ∀ l : List variable_entry_t,
      (∀ g ∈ l, entry_named name g = false) → set_existing name v l = none := by
  intro l
  induction l with
  | nil => intro _; rfl
  | cons e rest ih =>
    intro h
    have he := h e (by simp)
    have := ih (fun g hg => h g (by simp [hg]))
    simp [set_existing, he, this]

theorem get_scan_split (name : List Char) (x : variable_entry_t)
    (post : List variable_entry_t) (hx : entry_named name x = true) :
    ∀ pre : List variable_entry_t, (∀ g ∈ pre, entry_named name g = false) →
      get_scan name (pre ++ x :: post) = x.value := by
  intro pre
  induction pre with
  | nil => intro _; simp [get_scan, hx]
  | cons e rest ih =>
    intro h
    have he := h e (by simp)
    have := ih (fun g hg => h g (by simp [hg]))
    simp [get_scan, he, this]

theorem get_scan_all_false (name : List Char) : ∀ l : List variable_entry_t,
    (∀ g ∈ l, entry_named name g = false) → get_scan name l = none := by
  intro l
  induction l with
  | nil => intro _; rfl
  | cons e rest ih =>
    intro h
    have he := h e (by simp)
    have := ih (fun g hg => h g (by simp [hg]))
    simp [get_scan, he, this]

/-- Every array either holds no entry that passes the test or splits at the first one
that does. -/
theorem entries_split (name : List Char) (l : List variable_entry_t) :
    (∀ g ∈ l, entry_named name g = false) ∨
    ∃ pre x post, l = pre ++ x :: post ∧ entry_named name x = true ∧
      ∀ g ∈ pre, entry_named name g = false := by
  cases h : find_entry name l with
  | none => exact Or.inl (find_entry_none name l h)
  | some i =>
    obtain ⟨pre, x, post, hl, _, hx, hpre⟩ := find_entry_some name l i h
    exact Or.inr ⟨pre, x, post, hl, hx, hpre⟩

theorem table_x_reachable : Reachable table_x :=
  Reachable.set { entries := [], capacity := 64 } _ (some "x".toList)
    (some (php_value_create_int 1)) true (Reachable.empty 64) (by decide)

theorem swap_with_last {α : Type} (x last : α) (mid : List α) : ∀ pre : List α,
    ((pre ++ x :: (mid ++ [last])).set pre.length last).take (pre.length + mid.length + 1) =
      pre ++ last :: mid := by
  intro pre
  induction pre with
  | nil => simp
  | cons a as ih =>
    have : as.length + 1 + mid.length + 1 = (as.length + mid.length + 1) + 1 := by omega
    simp only [List.cons_append, List.length_cons, List.set_cons_succ, this, List.take_succ_cons,
      ih]

theorem last_of_split {α : Type} (x last : α) (mid : List α) : ∀ pre : List α,
    (pre ++ x :: (mid ++ [last]))[pre.length + mid.length + 1]? = some last := by
  intro pre
  induction pre with
  | nil => simp
  | cons a as ih =>
    have : as.length + 1 + mid.length + 1 = (as.length + mid.length + 1) + 1 := by omega
    simp only [List.cons_append, List.length_cons, this, List.getElem?_cons_succ, ih]

/-- What `php_variable_unset` does to an array split at the first entry that passes the
test: the entry goes, and the last entry, when there is one behind it, takes its slot. -/
theorem unset_split (t : variable_table_t) (name : List Char) (pre post : List variable_entry_t)
    (x : variable_entry_t) (hl : t.entries = pre ++ x :: post)
    (hx : entry_named name x = true) (hpre : ∀ g ∈ pre, entry_named name g = false) :
    php_variable_unset t (some name) =
      (true, { t with entries :=
        match post.getLast? with
        | none => pre
        | some last => pre ++ last :: post.dropLast }) := by
  have hf := find_entry_split name x post hx pre hpre
  rcases List.eq_nil_or_concat post with rfl | ⟨mid, last, hpost⟩
  · simp [php_variable_unset, hl, hf]
  · rw [List.concat_eq_append] at hpost
    subst hpost
    have hlen : (pre ++ x :: (mid ++ [last])).length - 1 = pre.length + mid.length + 1 := by
      simp
      omega
    have hlt : pre.length < pre.length + mid.length + 1 := by omega
    simp only [php_variable_unset, hl, hf, hlen, hlt, if_true, last_of_split, swap_with_last]
    simp


theorem same_name_symm (a b : Option (List Char)) (h : same_name a b = false) :
    same_name b a = false := by
  cases a with
  | none => cases b <;> rfl
  | some x =>
    cases b with
    | none => rfl
    | some y =>
      simp only [same_name, strcmp_eq, beq_eq_false_iff_ne, ne_eq] at h ⊢
      exact fun e => h e.symm

theorem same_name_of_named (name : List Char) (x g : variable_entry_t)
    (hx : entry_named name x = true) (hg : entry_named name g = true) :
    same_name x.name g.name = true := by
  cases hxn : x.name with
  | none => simp [entry_named, hxn] at hx
  | some a =>
    cases hgn : g.name with
    | none => simp [entry_named, hgn] at hg
    | some b =>
      simp only [entry_named, hxn, hgn, strcmp_eq_iff, same_name] at hx hg ⊢
      rw [hx, hg]

/-- In an array with unique names no entry behind one that passes the test passes it. -/
theorem unique_after_match (name : List Char) (pre post : List variable_entry_t)
    (x : variable_entry_t) (hx : entry_named name x = true)
    (hu : ((pre ++ x :: post).map (fun e => e.name)).Pairwise
      (fun a b => same_name a b = false)) :
    ∀ g ∈ post, entry_named name g = false := by
  intro g hg
  rw [List.map_append, List.pairwise_append] at hu
  have h2 := hu.2.1
  rw [List.map_cons, List.pairwise_cons] at h2
  have := h2.1 g.name (List.mem_map_of_mem _ hg)
  cases hgn : entry_named name g with
  | false => rfl
  | true => rw [same_name_of_named name x g hx hgn] at this; cases this

theorem names_unique_set (t t2 : variable_table_t) (name : Option (List Char))
    (value : Option php_value_t) (ok : Bool) (hu : names_unique t)
    (h : php_variable_set t name value = some (ok, t2)) : names_unique t2 := by
  cases name with
  | none => simp [php_variable_set] at h; rw [← h.2]; exact hu
  | some n =>
    cases value with
    | none => simp [php_variable_set] at h; rw [← h.2]; exact hu
    | some v =>
      rcases entries_split n t.entries with hnone | ⟨pre, x, post, hl, hx, hpre⟩
      · have hs := set_existing_all_false n v t.entries hnone
        simp only [php_variable_set, hs] at h
        by_cases hroom : t.entries.length <
            (if t.entries.length ≥ t.capacity then t.capacity * 2 else t.capacity)
        · rw [if_pos hroom] at h
          simp only [Option.some.injEq, Prod.mk.injEq] at h
          rw [← h.2]
          unfold names_unique at hu ⊢
          simp only [List.map_append, List.map_cons, List.map_nil]
          rw [List.pairwise_append]
          refine ⟨hu, List.pairwise_singleton _ _, ?_⟩
          intro a ha b hb
          simp only [List.mem_singleton] at hb
          subst hb
          obtain ⟨g, hg, rfl⟩ := List.mem_map.mp ha
          have hgf := hnone g hg
          cases hgn : g.name with
          | none => simp [same_name]
          | some y =>
            simp only [entry_named, hgn] at hgf
            simp only [same_name, strcmp_eq, cstr_idem]
            simpa [strcmp_eq] using hgf
        · rw [if_neg hroom] at h
          cases h
      · have hs := set_existing_split n v x post hx pre hpre
        simp only [php_variable_set, hl, hs, Option.some.injEq, Prod.mk.injEq] at h
        rw [← h.2]
        unfold names_unique at hu ⊢
        rw [hl] at hu
        simpa using hu

theorem names_unique_unset (t : variable_table_t) (name : Option (List Char))
    (hu : names_unique t) : names_unique (php_variable_unset t name).2 := by
  cases name with
  | none => exact hu
  | some n =>
    rcases entries_split n t.entries with hnone | ⟨pre, x, post, hl, hx, hpre⟩
    · have := find_entry_all_false n t.entries hnone
      simp only [php_variable_unset, this]
      exact hu
    · rw [unset_split t n pre post x hl hx hpre]
      unfold names_unique at hu ⊢
      rw [hl] at hu
      rcases List.eq_nil_or_concat post with rfl | ⟨mid, last, hpost⟩
      · simp only [List.getLast?_nil]
        rw [List.map_append, List.pairwise_append] at hu
        exact hu.1
      · rw [List.concat_eq_append] at hpost
        subst hpost
        have hsub : (pre ++ (mid ++ [last])).Sublist (pre ++ x :: (mid ++ [last])) :=
          (List.sublist_cons_self x _).append_left pre
        have h1 := hu.sublist (hsub.map (fun e => e.name))
        have hperm : (pre ++ last :: mid).Perm (pre ++ (mid ++ [last])) := by
          refine List.Perm.append_left pre ?_
          exact (List.perm_append_singleton last mid).symm
        have h2 := (List.Perm.pairwise_iff (fun {a b} h => same_name_symm a b h)
          (hperm.map (fun e => e.name))).mpr h1
        simpa using h2

/-- Every table built by set and unset from a table without entries has unique names. -/
theorem reachable_names_unique (t : variable_table_t) (h : Reachable t) : names_unique t := by
  induction h with
  | empty c => simp [names_unique]
  | set t t2 name value ok _ hset ih => exact names_unique_set t t2 name value ok ih hset
  | unset t name _ ih => exact names_unique_unset t name ih


theorem filter_named_split (name : List Char) (pre post : List variable_entry_t)
    (x : variable_entry_t) (hx : entry_named name x = true)
    (hpre : ∀ g ∈ pre, entry_named name g = false)
    (hpost : ∀ g ∈ post, entry_named name g = false) :
    (pre ++ x :: post).filter (entry_named name) = [x] := by
  have h1 : pre.filter (entry_named name) = [] := by
    rw [List.filter_eq_nil_iff]
    intro g hg
    simp [hpre g hg]
  have h2 : post.filter (entry_named name) = [] := by
    rw [List.filter_eq_nil_iff]
    intro g hg
    simp [hpost g hg]
  rw [List.filter_append, List.filter_cons, if_pos hx, h1, h2]
  rfl

/-- After a successful set the array splits at the entry of that name, which holds the
value set, and with unique names no other entry has the name. -/
theorem set_result_split (t t1 : variable_table_t) (name : List Char) (v : php_value_t)
    (hu : names_unique t) (h : php_variable_set t (some name) (some v) = some (true, t1)) :
    ∃ pre x post, t1.entries = pre ++ x :: post ∧ entry_named name x = true ∧
      (∀ g ∈ pre, entry_named name g = false) ∧ (∀ g ∈ post, entry_named name g = false) := by
  have hu1 := names_unique_set t t1 (some name) (some v) true hu h
  have key : ∃ pre x post, t1.entries = pre ++ x :: post ∧ entry_named name x = true ∧
      (∀ g ∈ pre, entry_named name g = false) := by
    rcases entries_split name t.entries with hnone | ⟨pre, x, post, hl, hx, hpre⟩
    · have hs := set_existing_all_false name v t.entries hnone
      simp only [php_variable_set, hs] at h
      by_cases hroom : t.entries.length <
          (if t.entries.length ≥ t.capacity then t.capacity * 2 else t.capacity)
      · rw [if_pos hroom] at h
        simp only [Option.some.injEq, Prod.mk.injEq, true_and] at h
        refine ⟨t.entries,
          { name := some (cstr name), value := some v, scope := .SCOPE_GLOBAL }, [], ?_, ?_,
          hnone⟩
        · rw [← h]
        · simp [entry_named, strcmp_eq_cstr_self]
      · rw [if_neg hroom] at h
        cases h
    · have hs := set_existing_split name v x post hx pre hpre
      simp only [php_variable_set, hl, hs, Option.some.injEq, Prod.mk.injEq, true_and] at h
      exact ⟨pre, { x with value := some v }, post, by rw [← h], hx, hpre⟩
  obtain ⟨pre, x, post, hl, hx, hpre⟩ := key
  refine ⟨pre, x, post, hl, hx, hpre, ?_⟩
  unfold names_unique at hu1
  rw [hl] at hu1
  exact unique_after_match name pre post x hx hu1

/-- Claim C10. For every table built by set and unset from a table without entries and
every name that an entry of it carries, `php_variable_unset(name)` returns true, lowers
the entry count by exactly one, and `php_variable_get(name)` on the table it leaves
finds nothing. -/
theorem variable_unset_present (t : variable_table_t) (name : List Char)
    (hr : Reachable t) (hp : t.entries.any (entry_named name) = true) :
    (php_variable_unset t (some name)).1 = true ∧
      (php_variable_unset t (some name)).2.count + 1 = t.count ∧
      php_variable_get (php_variable_unset t (some name)).2 (some name) = none := by
  have hu := reachable_names_unique t hr
  rcases entries_split name t.entries with hnone | ⟨pre, x, post, hl, hx, hpre⟩
  · rw [List.any_eq_true] at hp
    obtain ⟨g, hg, hgn⟩ := hp
    rw [hnone g hg] at hgn
    cases hgn
  · have hpost : ∀ g ∈ post, entry_named name g = false := by
      unfold names_unique at hu
      rw [hl] at hu
      exact unique_after_match name pre post x hx hu
    rw [unset_split t name pre post x hl hx hpre]
    rcases List.eq_nil_or_concat post with rfl | ⟨mid, last, hpost2⟩
    · refine ⟨rfl, ?_, ?_⟩
      · simp [variable_table_t.count, hl]
      · simp only [List.getLast?_nil, php_variable_get]
        exact get_scan_all_false name pre hpre
    · rw [List.concat_eq_append] at hpost2
      subst hpost2
      refine ⟨rfl, ?_, ?_⟩
      · simp [variable_table_t.count, hl]
        omega
      · simp only [php_variable_get]
        rw [show (mid ++ [last]).getLast? = some last by simp,
          show (mid ++ [last]).dropLast = mid by simp]
        apply get_scan_all_false
        intro g hg
        rcases List.mem_append.mp hg with hg | hg
        · exact hpre g hg
        · rcases List.mem_cons.mp hg with rfl | hg
          · exact hpost g (by simp)
          · exact hpost g (by simp [hg])

theorem variable_unset_present_witness :
    Reachable table_x ∧ table_x.entries.any (entry_named "x".toList) = true ∧
      ((php_variable_unset table_x (some "x".toList)).1 = true ∧
        (php_variable_unset table_x (some "x".toList)).2.count + 1 = table_x.count ∧
        php_variable_get (php_variable_unset table_x (some "x".toList)).2 (some "x".toList) =
          none) :=
  ⟨table_x_reachable, by decide,
    variable_unset_present table_x "x".toList table_x_reachable (by decide)⟩

/-! ## The variable table: absent names and the uniqueness invariant -/

/-- Claim C11. For every table and every name that no entry of it carries, the null
name included, `php_variable_unset(name)` returns false and leaves the table, its
entries in their order and its count, as it was. -/
theorem variable_unset_absent (t : variable_table_t) (name : Option (List Char))
    (h : ∀ n, name = some n → t.entries.any (entry_named n) = false) :
    php_variable_unset t name = (false, t) := by
  cases name with
  | none => rfl
  | some n =>
    have hn := h n rfl
    rw [List.any_eq_false] at hn
    have := find_entry_all_false n t.entries (fun g hg => by simpa using hn g hg)
    simp only [php_variable_unset, this]

theorem variable_unset_absent_witness :
    (∀ n, some "y".toList = some n → table_x.entries.any (entry_named n) = false) ∧
      php_variable_unset table_x (some "y".toList) = (false, table_x) :=
  ⟨fun n h => by cases h; decide,
    variable_unset_absent table_x (some "y".toList) (fun n h => by cases h; decide)⟩

/-- Every entry of a table built by set and unset from a table without entries has a
name. -/
theorem reachable_names_some (t : variable_table_t) (h : Reachable t) :
    ∀ e ∈ t.entries, e.name.isSome = true := by
  induction h with
  | empty c => intro e he; simp at he
  | set t t2 name value ok _ hset ih =>
    cases name with
    | none => simp [php_variable_set] at hset; rw [← hset.2]; exact ih
    | some n =>
      cases value with
      | none => simp [php_variable_set] at hset; rw [← hset.2]; exact ih
      | some v =>
        rcases entries_split n t.entries with hnone | ⟨pre, x, post, hl, hx, hpre⟩
        · have hs := set_existing_all_false n v t.entries hnone
          simp only [php_variable_set, hs] at hset
          by_cases hroom : t.entries.length <
              (if t.entries.length ≥ t.capacity then t.capacity * 2 else t.capacity)
          · rw [if_pos hroom] at hset
            simp only [Option.some.injEq, Prod.mk.injEq] at hset
            rw [← hset.2]
            intro e he
            rcases List.mem_append.mp he with he | he
            · exact ih e he
            · simp only [List.mem_singleton] at he
              subst he
              rfl
          · rw [if_neg hroom] at hset
            cases hset
        · have hs := set_existing_split n v x post hx pre hpre
          simp only [php_variable_set, hl, hs, Option.some.injEq, Prod.mk.injEq] at hset
          rw [← hset.2]
          intro e he
          have hmem : ∀ g ∈ pre ++ x :: post, g.name.isSome = true := by
            rw [← hl]; exact ih
          rcases List.mem_append.mp he with he | he
          · exact hmem e (by simp [he])
          · rcases List.mem_cons.mp he with rfl | he
            · exact hmem x (by simp)
            · exact hmem e (by simp [he])
  | unset t name _ ih =>
    cases name with
    | none => exact ih
    | some n =>
      rcases entries_split n t.entries with hnone | ⟨pre, x, post, hl, hx, hpre⟩
      · have := find_entry_all_false n t.entries hnone
        simp only [php_variable_unset, this]
        exact ih
      · rw [unset_split t n pre post x hl hx hpre]
        have hmem : ∀ g ∈ pre ++ x :: post, g.name.isSome = true := by
          rw [← hl]; exact ih
        rcases List.eq_nil_or_concat post with rfl | ⟨mid, last, hpost⟩
        · intro e he
          simp only [List.getLast?_nil] at he
          exact hmem e (by simp [he])
        · rw [List.concat_eq_append] at hpost
          subst hpost
          intro e he
          rw [show (mid ++ [last]).getLast? = some last by simp,
            show (mid ++ [last]).dropLast = mid by simp] at he
          rcases List.mem_append.mp he with he | he
          · exact hmem e (by simp [he])
          · rcases List.mem_cons.mp he with rfl | he
            · exact hmem e (by simp)
            · exact hmem e (by simp [he])

/-- Claim C12. In every table built from a table without entries by any finite
sequence of `php_variable_set` and `php_variable_unset` calls, every entry has a name
and no two entries, at different indices, carry the same name. -/
theorem variable_names_stay_unique (t : variable_table_t) (h : Reachable t) :
    (∀ e ∈ t.entries, e.name.isSome = true) ∧
      ∀ (i j : Nat) (ei ej : variable_entry_t), i < j →
        t.entries[i]? = some ei → t.entries[j]? = some ej →
        same_name ei.name ej.name = false := by
  refine ⟨reachable_names_some t h, ?_⟩
  have hu := reachable_names_unique t h
  unfold names_unique at hu
  rw [List.pairwise_map, List.pairwise_iff_getElem] at hu
  intro i j ei ej hij hi hj
  obtain ⟨hi1, hi2⟩ := List.getElem?_eq_some.mp hi
  obtain ⟨hj1, hj2⟩ := List.getElem?_eq_some.mp hj
  have := hu i j hi1 hj1 hij
  rw [hi2, hj2] at this
  exact this

theorem table_xy_reachable : Reachable table_xy :=
  Reachable.set table_x _ (some "y".toList) (some (php_value_create_string (some []))) true
    table_x_reachable (by decide)

theorem variable_names_stay_unique_witness :
    Reachable table_xy ∧
      ((∀ e ∈ table_xy.entries, e.name.isSome = true) ∧
        ∀ (i j : Nat) (ei ej : variable_entry_t), i < j →
          table_xy.entries[i]? = some ei → table_xy.entries[j]? = some ej →
          same_name ei.name ej.name = false) :=
  ⟨table_xy_reachable, variable_names_stay_unique table_xy table_xy_reachable⟩

/-- When every entry has a value, `php_variable_get` finds nothing exactly for the names
that no entry carries. -/
theorem get_none_iff_absent (t : variable_table_t) (n : List Char)
    (hv : ∀ e ∈ t.entries, e.value.isSome = true) :
    php_variable_get t (some n) = none ↔ t.entries.any (entry_named n) = false := by
  rcases entries_split n t.entries with hnone | ⟨pre, x, post, hl, hx, hpre⟩
  · have hg := get_scan_all_false n t.entries hnone
    simp only [php_variable_get, hg, true_iff]
    rw [List.any_eq_false]
    intro g hg2
    simp [hnone g hg2]
  · have hg := get_scan_split n x post hx pre hpre
    have hxv := hv x (by simp [hl])
    have hany : t.entries.any (entry_named n) = true := by
      rw [List.any_eq_true]
      exact ⟨x, by simp [hl], hx⟩
    simp only [php_variable_get, hl, hg]
    rw [hl] at hany
    rw [hany]
    cases hxval : x.value with
    | none => simp [hxval] at hxv
    | some v => simp

/-- Claim C13. For every table and name, `php_variable_empty(name)` is true exactly when
`php_variable_get(name)` finds nothing or finds a value that is Null, `Bool(false)`,
`Int(0)`, a Float equal to zero (`+0.0` or `-0.0`), a String of length zero (the length
of a String being the `strlen` of its text), or Array-typed; so it is false for every
other value found. In a table whose entries all have a value, as set builds it, get
finds nothing exactly when no entry carries the name. -/
theorem variable_empty_iff (t : variable_table_t) (name : Option (List Char)) :
    (php_variable_empty t name = true ↔
      (php_variable_get t name = none ∨
        ∃ v, php_variable_get t name = some v ∧
          (v.payload = .PHP_TYPE_NULL ∨ v.payload = .PHP_TYPE_BOOL false ∨
            v.payload = .PHP_TYPE_INT 0 ∨ v.payload = .PHP_TYPE_FLOAT 0 ∨
            v.payload = .PHP_TYPE_FLOAT (2 ^ 63) ∨
            (∃ s, v.payload = .PHP_TYPE_STRING s ∧ strlen s = 0) ∨
            v.payload = .PHP_TYPE_ARRAY))) ∧
      ((∀ e ∈ t.entries, e.value.isSome = true) → ∀ n, name = some n →
        (php_variable_get t name = none ↔ t.entries.any (entry_named n) = false)) := by
  constructor
  · unfold php_variable_empty
    cases hg : php_variable_get t name with
    | none => simp
    | some v =>
      simp only [false_or, Option.some.injEq, exists_eq_left']
      cases hp : v.payload with
      | PHP_TYPE_NULL => simp
      | PHP_TYPE_BOOL b => cases b <;> simp
      | PHP_TYPE_INT i => simp
      | PHP_TYPE_FLOAT f => simp [double_is_zero]
      | PHP_TYPE_STRING s => simp
      | PHP_TYPE_ARRAY => simp
      | PHP_TYPE_OBJECT => simp
      | PHP_TYPE_RESOURCE => simp
  · intro hv n hn
    subst hn
    exact get_none_iff_absent t n hv

/-! ## The builtins -/

theorem take_strlen (s : List Char) : s.take (strlen s) = cstr s := by
  induction s with
  | nil => rfl
  | cons c cs ih =>
    by_cases h : c = NUL
    · simp [strlen, cstr, h]
    · simp [strlen, cstr, h, ih]

theorem php_engine_output_cstr (out s : List Char) :
    php_engine_output out (some s) = out ++ cstr s := by
  simp [php_engine_output, php_engine_output_len, take_strlen]

theorem cstr_no_nul (s : List Char) (h : NUL ∉ s) : cstr s = s := by
  induction s with
  | nil => rfl
  | cons c cs ih =>
    have hc : c ≠ NUL := fun e => h (by simp [e])
    have hcs : NUL ∉ cs := fun e => h (by simp [e])
    simp [cstr, hc, ih hcs]

theorem digitChar_ne_nul : ∀ m, m < 10 → Nat.digitChar m ≠ NUL := by decide

theorem toDigitsCore_no_nul (fuel : Nat) : ∀ (n : Nat) (acc : List Char), NUL ∉ acc →
    NUL ∉ Nat.toDigitsCore 10 fuel n acc := by
  induction fuel with
  | zero => intro n acc h; simpa [Nat.toDigitsCore] using h
  | succ f ih =>
    intro n acc h
    have hd : Nat.digitChar (n % 10) ≠ NUL := digitChar_ne_nul _ (Nat.mod_lt _ (by decide))
    have hacc : NUL ∉ Nat.digitChar (n % 10) :: acc := by
      intro hm
      rcases List.mem_cons.mp hm with e | e
      · exact hd e.symm
      · exact h e
    simp only [Nat.toDigitsCore]
    split
    · exact hacc
    · exact ih _ _ hacc

/-- The decimal numeral of an integer holds no terminator. -/
theorem decimal_no_nul (i : Int) : NUL ∉ (toString i).toList := by
  cases i with
  | ofNat m =>
    show NUL ∉ (Nat.repr m).toList
    simp only [Nat.repr, Nat.toDigits, List.asString]
    exact toDigitsCore_no_nul _ _ _ (by simp)
  | negSucc m =>
    show NUL ∉ ("-" ++ Nat.repr m.succ).toList
    have hs : ("-" ++ Nat.repr m.succ).toList = '-' :: (Nat.repr m.succ).toList := rfl
    rw [hs]
    intro hm
    rcases List.mem_cons.mp hm with e | e
    · exact absurd e (by decide)
    · simp only [Nat.repr, Nat.toDigits, List.asString] at e
      exact toDigitsCore_no_nul _ _ _ (by simp) e

theorem echo_value_render (fmt_g : Nat → List Char) (out : List Char) (v : php_value_t) :
    echo_value fmt_g out v = out ++ render fmt_g v := by
  unfold echo_value render
  cases hp : v.payload with
  | PHP_TYPE_STRING s => simp [php_engine_output_cstr]
  | PHP_TYPE_INT i =>
    simp only [php_engine_output_int, php_engine_output_cstr, cstr_no_nul _ (decimal_no_nul i)]
  | PHP_TYPE_FLOAT f => simp [php_engine_output_float, php_engine_output_cstr]
  | PHP_TYPE_BOOL b =>
    cases b
    · simp only [php_engine_output_bool, php_engine_output_cstr]
      simp [cstr]
    · simp only [php_engine_output_bool, php_engine_output_cstr]
      simp [cstr, NUL]
  | PHP_TYPE_NULL => simp only [php_engine_output_cstr]; simp [cstr, NUL]
  | PHP_TYPE_ARRAY => simp only [php_engine_output_cstr]; simp [cstr, NUL]
  | PHP_TYPE_OBJECT => simp only [php_engine_output_cstr]; simp [cstr, NUL]
  | PHP_TYPE_RESOURCE => simp only [php_engine_output_cstr]; simp [cstr, NUL]

theorem echo_loop_render (fmt_g : Nat → List Char) : ∀ (argv : List (Option php_value_t))
    (out : List Char),
    echo_loop fmt_g argv out = out ++ ((argv.filterMap id).map (render fmt_g)).flatten := by
  intro argv
  induction argv with
  | nil => intro out; simp [echo_loop]
  | cons a as ih =>
    intro out
    cases a with
    | none => simp [echo_loop, ih]
    | some v => simp [echo_loop, ih, echo_value_render]

/-- Claim C14. For every argument list the echo builtin, called with `argc` its length,
appends to the output sink the renderings of its arguments, in order and with nothing
between them, and returns a Null value with reference count 1. A null pointer among
the arguments is skipped; a String is rendered as its text, the C string it holds
(verbatim, byte for byte, when the buffer holds no NUL), an Int as its signed decimal
numeral, `Bool(true)` as `1`, `Bool(false)` as nothing, Null, Array, Object and
Resource as `NULL`. -/
theorem echo_writes_renderings (fmt_g : Nat → List Char) (argv : List (Option php_value_t))
    (out : List Char) :
    php_function_echo fmt_g argv.length argv out =
        (some php_value_create_null,
          out ++ ((argv.filterMap id).map (render fmt_g)).flatten) ∧
      (∀ s rc, NUL ∉ s → render fmt_g ⟨.PHP_TYPE_STRING s, rc⟩ = s) ∧
      (∀ s rc, render fmt_g ⟨.PHP_TYPE_STRING s, rc⟩ = cstr s) ∧
      (∀ i rc, render fmt_g ⟨.PHP_TYPE_INT i, rc⟩ = (toString i).toList) ∧
      (∀ rc, render fmt_g ⟨.PHP_TYPE_BOOL true, rc⟩ = ['1']) ∧
      (∀ rc, render fmt_g ⟨.PHP_TYPE_BOOL false, rc⟩ = []) ∧
      (∀ rc, render fmt_g ⟨.PHP_TYPE_NULL, rc⟩ = ['N', 'U', 'L', 'L']) ∧
      (∀ rc, render fmt_g ⟨.PHP_TYPE_ARRAY, rc⟩ = ['N', 'U', 'L', 'L']) ∧
      (∀ rc, render fmt_g ⟨.PHP_TYPE_OBJECT, rc⟩ = ['N', 'U', 'L', 'L']) ∧
      (∀ rc, render fmt_g ⟨.PHP_TYPE_RESOURCE, rc⟩ = ['N', 'U', 'L', 'L']) := by
  refine ⟨?_, ?_, ?_, ?_, ?_, ?_, ?_, ?_, ?_, ?_⟩
  · simp [php_function_echo, echo_loop_render]
  · intro s rc h; simp [render, cstr_no_nul s h]
  · intro s rc; rfl
  · intro i rc; rfl
  · intro rc; rfl
  · intro rc; rfl
  · intro rc; rfl
  · intro rc; rfl
  · intro rc; rfl
  · intro rc; rfl

/-- The text of a String ends at its first NUL: of the three bytes `a`, NUL, `b` that
`php_value_create_string_len` copies into the buffer, echo writes `a`. -/
theorem echo_stops_at_embedded_nul :
    (php_value_create_string_len (some ['a', NUL, 'b']) 3).payload =
        .PHP_TYPE_STRING ['a', NUL, 'b'] ∧
      php_function_echo (fun _ => []) 1
          [some (php_value_create_string_len (some ['a', NUL, 'b']) 3)] [] =
        (some php_value_create_null, ['a']) := by
  constructor
  · rfl
  · decide

/-- The text of a String ends at its first NUL: a variable set to the String that
`php_value_create_string_len` builds from the two bytes NUL, `a` is empty. -/
theorem variable_empty_nul_led_string :
    (php_value_create_string_len (some [NUL, 'a']) 2).payload =
        .PHP_TYPE_STRING [NUL, 'a'] ∧
      (php_variable_set { entries := [], capacity := 64 } (some "s".toList)
          (some (php_value_create_string_len (some [NUL, 'a']) 2))).map
        (fun r => php_variable_empty r.2 (some "s".toList)) = some true := by
  constructor
  · rfl
  · decide

/-- Claim C15. For every non-empty argument list the print builtin, called with `argc`
its length, writes exactly what the echo builtin writes for the one-element list of
its first argument, whatever the later arguments are, and returns `Int(1)`. -/
theorem print_writes_first (fmt_g : Nat → List Char) (argv : List (Option php_value_t))
    (out : List Char) (h : argv ≠ []) :
    php_function_print fmt_g argv.length argv out =
      (some (php_value_create_int 1),
        (php_function_echo fmt_g 1 [argv.headD none] out).2) := by
  cases argv with
  | nil => exact absurd rfl h
  | cons a as =>
    have hpos : ((a :: as).length : Int) > 0 := by
      simp only [List.length_cons]
      omega
    cases a with
    | none => simp [php_function_print, php_function_echo, echo_loop]
    | some v => simp [php_function_print, php_function_echo, hpos, echo_loop]

theorem print_writes_first_witness :
    [some (php_value_create_string (some "a".toList)),
        some (php_value_create_string (some "b".toList))] ≠ [] ∧
      php_function_print (fun _ => [])
          [some (php_value_create_string (some "a".toList)),
            some (php_value_create_string (some "b".toList))].length
          [some (php_value_create_string (some "a".toList)),
            some (php_value_create_string (some "b".toList))] [] =
        (some (php_value_create_int 1),
          (php_function_echo (fun _ => []) 1
            [[some (php_value_create_string (some "a".toList)),
              some (php_value_create_string (some "b".toList))].headD none] []).2) :=
  ⟨by decide,
    print_writes_first (fun _ => [])
      [some (php_value_create_string (some "a".toList)),
        some (php_value_create_string (some "b".toList))] [] (by decide)⟩

/-- Claim C16, counterexample. For the byte sequence `a`, NUL, `b` and `n = 3` the
strlen builtin, applied to the String built by `php_value_create_string_len`, returns
`Int(1)`, not `Int(3)`. -/
theorem strlen_stops_at_embedded_nul :
    php_function_strlen 1 [some (php_value_create_string_len (some ['a', NUL, 'b']) 3)] [] =
        (some (php_value_create_int 1), []) ∧
      php_function_strlen 1 [some (php_value_create_string_len (some ['a', NUL, 'b']) 3)] [] ≠
        (some (php_value_create_int 3), []) := by
  constructor
  · decide
  · decide

theorem strlen_le_length (s : List Char) : strlen s ≤ s.length := by
  induction s with
  | nil => simp [strlen]
  | cons c cs ih =>
    by_cases h : c = NUL
    · simp [strlen, h]
    · simp [strlen, h, ih]

/-- Claim C16, amended. The strlen builtin writes nothing, returns `Int(0)` when its
first argument is absent (`argc < 1` or a null pointer) or is not a String, and
otherwise returns the number of bytes of the String before its first NUL. So for every
byte sequence `b` and every `n <= |b|`, on the String built by
`php_value_create_string_len(b, n)` it returns the `strlen` of the first `n` bytes of
`b`, which is at most `n` and is `n` when these bytes hold no NUL. -/
theorem strlen_builtin_result (argc : Int) (argv : List (Option php_value_t))
    (out : List Char) :
    (argc < 1 → php_function_strlen argc argv out = (some (php_value_create_int 0), out)) ∧
      (argv.headD none = none →
        php_function_strlen argc argv out = (some (php_value_create_int 0), out)) ∧
      (∀ v, argv.headD none = some v → (∀ s, v.payload ≠ .PHP_TYPE_STRING s) →
        php_function_strlen argc argv out = (some (php_value_create_int 0), out)) ∧
      (∀ v s, 1 ≤ argc → argv.headD none = some v → v.payload = .PHP_TYPE_STRING s →
        php_function_strlen argc argv out = (some (php_value_create_int (strlen s)), out)) ∧
      (∀ (b : List Char) (n : Nat), n ≤ b.length →
        php_function_strlen 1 [some (php_value_create_string_len (some b) n)] out =
            (some (php_value_create_int (strlen (b.take n))), out) ∧
          strlen (b.take n) ≤ n ∧ (NUL ∉ b.take n → strlen (b.take n) = n)) := by
  refine ⟨?_, ?_, ?_, ?_, ?_⟩
  · intro h
    simp [php_function_strlen, h]
  · intro h
    simp only [php_function_strlen, h]
    split <;> rfl
  · intro v hv hns
    simp only [php_function_strlen, hv]
    split
    · rfl
    · cases hp : v.payload with
      | PHP_TYPE_STRING s => exact absurd hp (hns s)
      | _ => rfl
  · intro v s hargc hv hp
    have : ¬ argc < 1 := by omega
    simp only [php_function_strlen, hv, hp, this, if_false]
  · intro b n hn
    refine ⟨?_, ?_, ?_⟩
    · simp [php_function_strlen, php_value_create_string_len]
    · have := strlen_le_length (b.take n)
      simp only [List.length_take] at this
      omega
    · intro hnul
      rw [strlen_eq_length _ hnul, List.length_take]
      omega

/-! ## Registration of functions -/

theorem function_named_congr (a b : List Char) (g : php_function_t) (h : cstr a = cstr b) :
    function_named a g = function_named b g := by
  cases hn : g.name with
  | none => simp [function_named, hn]
  | some n => simp [function_named, hn, strcmp_eq, h]

/-- A second slot of the same name behind the first is never reached by the scan. -/
theorem call_scan_duplicate (name : List Char) (argc : Int) (argv : List (Option php_value_t))
    (out : List Char) (f1 f2 : php_function_t) (a b : List Char)
    (h1 : f1.name = some a) (h2 : f2.name = some b) (hab : cstr a = cstr b) :
    ∀ regs : List php_function_t,
      call_scan name argc argv out (regs ++ [f1, f2]) =
        call_scan name argc argv out (regs ++ [f1]) := by
  intro regs
  induction regs with
  | nil =>
    by_cases hm : strcmp_eq a name = true
    · simp [call_scan, h1, hm]
    · have hm2 : strcmp_eq b name = false := by
        simp only [strcmp_eq] at hm ⊢
        rw [← hab]
        simpa using hm
      simp [call_scan, h1, h2, hm, hm2]
  | cons g gs ih =>
    simp only [List.cons_append, call_scan]
    cases g.name with
    | none => rfl
    | some n =>
      simp only []
      split
      · rfl
      · exact ih

/-- What a registration of a named function with a callback does when the array has
spare or growable capacity. -/
theorem register_function_room (e : Engine) (n : List Char) (cb : php_function_callback_t)
    (mn mx : Int)
    (hcap : e.registered_functions.length < e.functions_capacity ∨
      e.registered_functions.length < 2 * e.functions_capacity) :
    php_engine_register_function e
        (some { name := some n, callback := some cb, min_args := mn, max_args := mx }) =
      some (true, { e with
        functions_capacity :=
          if e.registered_functions.length ≥ e.functions_capacity then e.functions_capacity * 2
          else e.functions_capacity
        registered_functions := e.registered_functions ++
          [{ name := some (cstr n), callback := some cb, min_args := mn, max_args := mx }] }) := by
  have hroom : e.registered_functions.length <
      (if e.registered_functions.length ≥ e.functions_capacity then e.functions_capacity * 2
        else e.functions_capacity) := by
    split <;> omega
  simp only [php_engine_register_function, hroom, if_true]

/-- Claim C17, amended. For every engine whose registry array has spare or growable
capacity and every two registrations `f1`, `f2` of the same name, made in that order:
both succeed and the registry grows by two; every later call gives what it would give
had `f2` not been registered; and when no entry registered before them carries the
name, every later call with that name is decided by the bounds and the callback of
`f1`: its callback result when the argument count is within its bounds, the absent
result with the engine untouched when it is not, whatever the bounds of `f2` are. An
entry of that name registered before them decides the call in their place. -/
theorem register_duplicate_first_wins (e : Engine) (n1 n2 : List Char)
    (cb1 cb2 : php_function_callback_t) (min1 max1 min2 max2 : Int)
    (hname : cstr n1 = cstr n2)
    (hcap : e.registered_functions.length < e.functions_capacity ∨
      e.registered_functions.length < 2 * e.functions_capacity) :
    ∃ e1 e2,
      php_engine_register_function e
          (some { name := some n1, callback := some cb1, min_args := min1, max_args := max1 }) =
        some (true, e1) ∧
      php_engine_register_function e1
          (some { name := some n2, callback := some cb2, min_args := min2, max_args := max2 }) =
        some (true, e2) ∧
      e2.registered_functions.length = e.registered_functions.length + 2 ∧
      (∀ name argc argv,
        (php_engine_call_function e2 name argc argv).map (fun r => (r.1, r.2.stdout)) =
          (php_engine_call_function e1 name argc argv).map (fun r => (r.1, r.2.stdout))) ∧
      ((∀ g ∈ e.registered_functions, g.name.isSome = true ∧ function_named n1 g = false) →
        ∀ (name : List Char) (argv : List (Option php_value_t)), cstr name = cstr n1 →
          php_engine_call_function e2 (some name) argv.length argv =
            if min1 ≤ argv.length ∧ (max1 ≤ 0 ∨ (argv.length : Int) ≤ max1) then
              some ((cb1 argv.length argv e2.stdout).1,
                { e2 with stdout := (cb1 argv.length argv e2.stdout).2 })
            else some (none, e2)) := by
  have r1 := register_function_room e n1 cb1 min1 max1 hcap
  have hcap1 : (e.registered_functions ++
      [({ name := some (cstr n1), callback := some cb1, min_args := min1, max_args := max1 } :
        php_function_t)]).length <
        (if e.registered_functions.length ≥ e.functions_capacity then e.functions_capacity * 2
          else e.functions_capacity) ∨
      (e.registered_functions ++
      [({ name := some (cstr n1), callback := some cb1, min_args := min1, max_args := max1 } :
        php_function_t)]).length <
        2 * (if e.registered_functions.length ≥ e.functions_capacity then
          e.functions_capacity * 2 else e.functions_capacity) := by
    simp only [List.length_append, List.length_singleton]
    split <;> omega
  have r2 := register_function_room
    ({ e with
        functions_capacity :=
          if e.registered_functions.length ≥ e.functions_capacity then e.functions_capacity * 2
          else e.functions_capacity
        registered_functions := e.registered_functions ++
          [{ name := some (cstr n1), callback := some cb1, min_args := min1,
             max_args := max1 }] } : Engine)
    n2 cb2 min2 max2 hcap1
  refine ⟨_, _, r1, r2, ?_, ?_, ?_⟩
  · simp
  · intro name argc argv
    cases name with
    | none => rfl
    | some n =>
      have := call_scan_duplicate n argc argv e.stdout
        { name := some (cstr n1), callback := some cb1, min_args := min1, max_args := max1 }
        { name := some (cstr n2), callback := some cb2, min_args := min2, max_args := max2 }
        (cstr n1) (cstr n2) rfl rfl (by rw [cstr_idem, cstr_idem, hname])
        e.registered_functions
      simp only [php_engine_call_function, List.append_assoc, List.singleton_append, this]
      cases call_scan n argc argv e.stdout (e.registered_functions ++
        [{ name := some (cstr n1), callback := some cb1, min_args := min1, max_args := max1 }])
        <;> rfl
  · intro hfresh name argv hnm
    have hf : function_named name
        { name := some (cstr n1), callback := some cb1, min_args := min1, max_args := max1 } =
        true := by
      simp [function_named, strcmp_eq, cstr_idem, hnm]
    have hpre : ∀ g ∈ e.registered_functions,
        g.name.isSome = true ∧ function_named name g = false := by
      intro g hg
      refine ⟨(hfresh g hg).1, ?_⟩
      rw [function_named_congr name n1 g hnm]
      exact (hfresh g hg).2
    have := call_scan_first name argv.length argv e.stdout
      { name := some (cstr n1), callback := some cb1, min_args := min1, max_args := max1 } cb1
      [{ name := some (cstr n2), callback := some cb2, min_args := min2, max_args := max2 }]
      hf rfl e.registered_functions hpre
    simp only [php_engine_call_function, List.append_assoc, List.singleton_append, this]
    by_cases hc : min1 ≤ (argv.length : Int) ∧ (max1 ≤ 0 ∨ (argv.length : Int) ≤ max1)
    · simp only [if_pos hc]
    · simp only [if_neg hc]

theorem register_duplicate_first_wins_witness :
    cstr "probe".toList = cstr "probe".toList ∧
      ((Engine.initialized (fun _ => [])).registered_functions.length < (Engine.initialized (fun _ => [])).functions_capacity ∨
        (Engine.initialized (fun _ => [])).registered_functions.length < 2 * (Engine.initialized (fun _ => [])).functions_capacity) ∧
      ∃ e1 e2,
        php_engine_register_function (Engine.initialized (fun _ => []))
            (some { name := some "probe".toList, callback := some probe_callback,
                    min_args := 1, max_args := 1 }) =
          some (true, e1) ∧
        php_engine_register_function e1
            (some { name := some "probe".toList, callback := some php_function_strlen,
                    min_args := 0, max_args := -1 }) =
          some (true, e2) ∧
        e2.registered_functions.length = (Engine.initialized (fun _ => [])).registered_functions.length + 2 ∧
        (∀ name argc argv,
          (php_engine_call_function e2 name argc argv).map (fun r => (r.1, r.2.stdout)) =
            (php_engine_call_function e1 name argc argv).map (fun r => (r.1, r.2.stdout))) ∧
        (∀ g ∈ (Engine.initialized (fun _ => [])).registered_functions,
            g.name.isSome = true ∧ function_named "probe".toList g = false) ∧
        (∀ (name : List Char) (argv : List (Option php_value_t)),
            cstr name = cstr "probe".toList →
            php_engine_call_function e2 (some name) argv.length argv =
              if (1 : Int) ≤ argv.length ∧ ((1 : Int) ≤ 0 ∨ (argv.length : Int) ≤ 1) then
                some ((probe_callback argv.length argv e2.stdout).1,
                  { e2 with stdout := (probe_callback argv.length argv e2.stdout).2 })
              else some (none, e2)) :=
  ⟨rfl, by decide,
    (register_duplicate_first_wins (Engine.initialized (fun _ => [])) "probe".toList
      "probe".toList probe_callback php_function_strlen 1 1 0 (-1) rfl (by decide)).imp
      (fun _ h1 => h1.imp (fun _ h2 =>
        ⟨h2.1, h2.2.1, h2.2.2.1, h2.2.2.2.1, by decide, h2.2.2.2.2 (by decide)⟩))⟩

/-! ## The life cycle of the engine -/

theorem execute_string_result_state (e e2 : Engine) (code : List Char) (ok : Bool)
    (h : php_engine_execute_string e code = some (ok, e2)) :
    (e.engine_state ≠ .PHP_ENGINE_INITIALIZED ∧ e2 = e) ∨
      (e.engine_state = .PHP_ENGINE_INITIALIZED ∧
        e2.engine_state = .PHP_ENGINE_INITIALIZED ∧
        e2.global_variables = e.global_variables ∧
        e2.global_vars_capacity = e.global_vars_capacity ∧
        e2.registered_functions = e.registered_functions ∧
        e2.functions_capacity = e.functions_capacity) := by
  unfold php_engine_execute_string at h
  by_cases hs : e.engine_state = .PHP_ENGINE_INITIALIZED
  · right
    simp only [hs, ne_eq, not_true_eq_false, if_false] at h
    cases hl : execute_loop (code.length + 1) code e.stdout with
    | none => simp [hl] at h
    | some out =>
      simp only [hl, Option.some.injEq, Prod.mk.injEq] at h
      rw [← h.2]
      exact ⟨hs, rfl, rfl, rfl, rfl, rfl⟩
  · left
    simp only [ne_eq, hs, not_false_eq_true, if_true, Option.some.injEq, Prod.mk.injEq] at h
    exact ⟨hs, h.2.symm⟩

theorem register_function_result (e e2 : Engine) (func : Option php_function_t) (ok : Bool)
    (h : php_engine_register_function e func = some (ok, e2)) :
    e2 = e ∨ (e2.engine_state = e.engine_state ∧
      e2.global_variables = e.global_variables ∧
      e2.global_vars_capacity = e.global_vars_capacity ∧
      e.registered_functions.length < e2.functions_capacity ∧
      e2.functions_capacity =
        (if e.registered_functions.length ≥ e.functions_capacity then e.functions_capacity * 2
          else e.functions_capacity)) := by
  unfold php_engine_register_function at h
  cases func with
  | none => left; simp at h; exact h.2.symm
  | some f =>
    cases hn : f.name with
    | none => left; simp [hn] at h; exact h.2.symm
    | some n =>
      cases hc : f.callback with
      | none => left; simp [hn, hc] at h; exact h.2.symm
      | some cb =>
        right
        simp only [hn, hc] at h
        by_cases hroom : e.registered_functions.length <
            (if e.registered_functions.length ≥ e.functions_capacity then
              e.functions_capacity * 2 else e.functions_capacity)
        · rw [if_pos hroom] at h
          simp only [Option.some.injEq, Prod.mk.injEq] at h
          rw [← h.2]
          exact ⟨rfl, rfl, rfl, hroom, rfl⟩
        · rw [if_neg hroom] at h
          cases h

theorem call_function_result (e e2 : Engine) (name : Option (List Char)) (argc : Int)
    (argv : List (Option php_value_t)) (r : Option php_value_t)
    (h : php_engine_call_function e name argc argv = some (r, e2)) :
    e2.engine_state = e.engine_state ∧ e2.global_variables = e.global_variables ∧
      e2.global_vars_capacity = e.global_vars_capacity ∧
      e2.registered_functions = e.registered_functions ∧
      e2.functions_capacity = e.functions_capacity := by
  unfold php_engine_call_function at h
  cases name with
  | none =>
    simp only [Option.some.injEq, Prod.mk.injEq] at h
    rw [← h.2]
    exact ⟨rfl, rfl, rfl, rfl, rfl⟩
  | some n =>
    cases hc : call_scan n argc argv e.stdout e.registered_functions with
    | none => simp [hc] at h
    | some x =>
      simp only [hc, Option.some.injEq, Prod.mk.injEq] at h
      rw [← h.2]
      exact ⟨rfl, rfl, rfl, rfl, rfl⟩

/-- In the uninitialised state the engine holds no variable and no function, and both
arrays are unallocated; and the engine is never left in another state than
Uninitialized or Initialized. -/
theorem reachable_engine_invariant (e : Engine) (h : EngineReachable e) :
    (e.engine_state = .PHP_ENGINE_UNINITIALIZED ∨ e.engine_state = .PHP_ENGINE_INITIALIZED) ∧
      (e.engine_state = .PHP_ENGINE_UNINITIALIZED →
        e.global_variables = [] ∧ e.global_vars_capacity = 0 ∧
        e.registered_functions = [] ∧ e.functions_capacity = 0) := by
  induction h with
  | start => exact ⟨Or.inl rfl, fun _ => ⟨rfl, rfl, rfl, rfl⟩⟩
  | init fmt_g e e2 ok _ hinit ih =>
    by_cases hs : e.engine_state = .PHP_ENGINE_UNINITIALIZED
    · have hb := ih.2 hs
      rw [php_engine_init_fresh fmt_g e hs hb.2.2.1] at hinit
      simp only [Option.some.injEq, Prod.mk.injEq] at hinit
      rw [← hinit.2]
      exact ⟨Or.inr rfl, fun hc => by cases hc⟩
    · simp only [php_engine_init, ne_eq, hs, not_false_eq_true, if_true, Option.some.injEq,
        Prod.mk.injEq] at hinit
      rw [← hinit.2]
      exact ih
  | cleanup e _ ih =>
    unfold php_engine_cleanup
    by_cases hs : e.engine_state = .PHP_ENGINE_UNINITIALIZED
    · rw [if_pos hs]; exact ih
    · rw [if_neg hs]
      exact ⟨Or.inl rfl, fun _ => ⟨rfl, rfl, rfl, rfl⟩⟩
  | execute e e2 code ok _ hex ih =>
    rcases execute_string_result_state e e2 code ok hex with ⟨_, h2⟩ | ⟨_, h2, _⟩
    · rw [h2]; exact ih
    · exact ⟨Or.inr h2, fun hc => by rw [h2] at hc; cases hc⟩
  | register e e2 func ok _ hreg ih =>
    rcases register_function_result e e2 func ok hreg with h2 | ⟨hs, _, _, hroom, hcap⟩
    · rw [h2]; exact ih
    · refine ⟨by rw [hs]; exact ih.1, ?_⟩
      intro hu
      rw [hs] at hu
      have hb := ih.2 hu
      rw [hcap, hb.2.2.1, hb.2.2.2] at hroom
      simp at hroom
  | call e e2 name argc argv r _ hcall ih =>
    obtain ⟨h1, h2, h3, h4, h5⟩ := call_function_result e e2 name argc argv r hcall
    rw [h1, h2, h3, h4, h5]
    exact ih

theorem builtin_functions_rows (fmt_g : Nat → List Char) :
    (builtin_functions fmt_g).map (fun f => (f.name, f.min_args, f.max_args)) =
      [(some "echo".toList, 1, -1), (some "print".toList, 1, 1),
        (some "strlen".toList, 1, 1)] := rfl

/-- Claim C18. From a reachable state Uninitialized `php_engine_init` returns success and
yields the state Initialized with a registry that holds exactly the builtins echo
(min 1, max -1, that is unbounded), print (min 1, max 1) and strlen (min 1, max 1), in
arrays of 32 function slots and 64 variable slots; in every state other than
Uninitialized, of any engine, it returns success and leaves the whole engine as it
was; so a second call right after the first changes nothing. -/
theorem init_idempotent (fmt_g : Nat → List Char) (e : Engine) (hr : EngineReachable e) :
    (e.engine_state = .PHP_ENGINE_UNINITIALIZED →
        php_engine_init fmt_g e = some (true,
          { engine_state := .PHP_ENGINE_INITIALIZED
            global_variables := []
            global_vars_capacity := 64
            registered_functions := builtin_functions fmt_g
            functions_capacity := 32
            stdout := e.stdout })) ∧
      (builtin_functions fmt_g).map (fun f => (f.name, f.min_args, f.max_args)) =
        [(some "echo".toList, 1, -1), (some "print".toList, 1, 1),
          (some "strlen".toList, 1, 1)] ∧
      (builtin_functions fmt_g).map (fun f => f.callback.isSome) = [true, true, true] ∧
      (∀ x : Engine, x.engine_state ≠ .PHP_ENGINE_UNINITIALIZED →
        php_engine_init fmt_g x = some (true, x)) ∧
      (php_engine_init fmt_g e).bind (fun r => php_engine_init fmt_g r.2) =
        php_engine_init fmt_g e := by
  have hinv := reachable_engine_invariant e hr
  have hfresh : e.engine_state = .PHP_ENGINE_UNINITIALIZED →
      php_engine_init fmt_g e = some (true,
        { engine_state := .PHP_ENGINE_INITIALIZED
          global_variables := []
          global_vars_capacity := 64
          registered_functions := builtin_functions fmt_g
          functions_capacity := 32
          stdout := e.stdout }) := by
    intro hs
    have hb := hinv.2 hs
    rw [php_engine_init_fresh fmt_g e hs hb.2.2.1, hb.1]
    rfl
  have hnoop : ∀ x : Engine, x.engine_state ≠ .PHP_ENGINE_UNINITIALIZED →
      php_engine_init fmt_g x = some (true, x) := by
    intro x hx
    simp [php_engine_init, hx]
  refine ⟨hfresh, rfl, rfl, hnoop, ?_⟩
  by_cases hs : e.engine_state = .PHP_ENGINE_UNINITIALIZED
  · rw [hfresh hs, Option.some_bind]
    exact hnoop _ (by simp)
  · rw [hnoop e hs, Option.some_bind]
    exact hnoop e hs

theorem init_idempotent_witness :
    EngineReachable Engine.start ∧
      ((Engine.start.engine_state = .PHP_ENGINE_UNINITIALIZED →
          php_engine_init (fun _ => []) Engine.start = some (true,
            { engine_state := .PHP_ENGINE_INITIALIZED
              global_variables := []
              global_vars_capacity := 64
              registered_functions := builtin_functions (fun _ => [])
              functions_capacity := 32
              stdout := Engine.start.stdout })) ∧
        (builtin_functions (fun _ => [])).map (fun f => (f.name, f.min_args, f.max_args)) =
          [(some "echo".toList, 1, -1), (some "print".toList, 1, 1),
            (some "strlen".toList, 1, 1)] ∧
        (builtin_functions (fun _ => [])).map (fun f => f.callback.isSome) =
          [true, true, true] ∧
        (∀ x : Engine, x.engine_state ≠ .PHP_ENGINE_UNINITIALIZED →
          php_engine_init (fun _ => []) x = some (true, x)) ∧
        (php_engine_init (fun _ => []) Engine.start).bind
            (fun r => php_engine_init (fun _ => []) r.2) =
          php_engine_init (fun _ => []) Engine.start) :=
  ⟨EngineReachable.start, init_idempotent (fun _ => []) Engine.start EngineReachable.start⟩

/-- Claim C19. `php_engine_cleanup` called in a state other than Uninitialized, of any
engine, leaves the engine in the state Uninitialized with no stored variable and no
registered function (and both arrays unallocated); called in the state Uninitialized
it changes nothing. So in every reachable state of the engine init, cleanup, init
ends in the same state of the state machine as a single init, and from the state
Uninitialized it yields the very same engine as a single init. -/
theorem cleanup_resets (fmt_g : Nat → List Char) (e : Engine) (hr : EngineReachable e) :
    (∀ x : Engine, x.engine_state ≠ .PHP_ENGINE_UNINITIALIZED →
        php_engine_cleanup x =
          { engine_state := .PHP_ENGINE_UNINITIALIZED
            global_variables := []
            global_vars_capacity := 0
            registered_functions := []
            functions_capacity := 0
            stdout := x.stdout }) ∧
      (∀ x : Engine, x.engine_state = .PHP_ENGINE_UNINITIALIZED → php_engine_cleanup x = x) ∧
      (php_engine_init fmt_g e).isSome = true ∧
      ((php_engine_init fmt_g e).bind
          (fun r => php_engine_init fmt_g (php_engine_cleanup r.2))).map
          (fun r => (r.1, r.2.engine_state)) =
        (php_engine_init fmt_g e).map (fun r => (r.1, r.2.engine_state)) ∧
      (e.engine_state = .PHP_ENGINE_UNINITIALIZED →
        (php_engine_init fmt_g e).bind
            (fun r => php_engine_init fmt_g (php_engine_cleanup r.2)) =
          php_engine_init fmt_g e) := by
  have hinv := reachable_engine_invariant e hr
  have hblank : ∀ out : List Char,
      php_engine_init fmt_g
          { engine_state := .PHP_ENGINE_UNINITIALIZED
            global_variables := []
            global_vars_capacity := 0
            registered_functions := []
            functions_capacity := 0
            stdout := out } =
        some (true,
          { engine_state := .PHP_ENGINE_INITIALIZED
            global_variables := []
            global_vars_capacity := 64
            registered_functions := builtin_functions fmt_g
            functions_capacity := 32
            stdout := out }) := by
    intro out
    rw [php_engine_init_fresh fmt_g _ rfl rfl]
    rfl
  have hclean : ∀ x : Engine, x.engine_state ≠ .PHP_ENGINE_UNINITIALIZED →
      php_engine_cleanup x =
        { engine_state := .PHP_ENGINE_UNINITIALIZED
          global_variables := []
          global_vars_capacity := 0
          registered_functions := []
          functions_capacity := 0
          stdout := x.stdout } := by
    intro x hx
    simp [php_engine_cleanup, hx]
  have hfresh : e.engine_state = .PHP_ENGINE_UNINITIALIZED →
      php_engine_init fmt_g e = some (true,
        { engine_state := .PHP_ENGINE_INITIALIZED
          global_variables := []
          global_vars_capacity := 64
          registered_functions := builtin_functions fmt_g
          functions_capacity := 32
          stdout := e.stdout }) := by
    intro hs
    have hb := hinv.2 hs
    rw [php_engine_init_fresh fmt_g e hs hb.2.2.1, hb.1]
    rfl
  have hnoop : e.engine_state ≠ .PHP_ENGINE_UNINITIALIZED →
      php_engine_init fmt_g e = some (true, e) := by
    intro hx
    simp [php_engine_init, hx]
  refine ⟨hclean, ?_, ?_, ?_, ?_⟩
  · intro x hs
    simp [php_engine_cleanup, hs]
  · by_cases hs : e.engine_state = .PHP_ENGINE_UNINITIALIZED
    · rw [hfresh hs]; rfl
    · rw [hnoop hs]; rfl
  · by_cases hs : e.engine_state = .PHP_ENGINE_UNINITIALIZED
    · rw [hfresh hs, Option.some_bind, hclean _ (by simp), hblank]
    · have hi : e.engine_state = .PHP_ENGINE_INITIALIZED := by
        rcases hinv.1 with h | h
        · exact absurd h hs
        · exact h
      rw [hnoop hs, Option.some_bind, hclean e hs, hblank]
      simp [hi]
  · intro hs
    rw [hfresh hs, Option.some_bind, hclean _ (by simp), hblank]

theorem cleanup_resets_witness :
    EngineReachable Engine.start ∧
      ((∀ x : Engine, x.engine_state ≠ .PHP_ENGINE_UNINITIALIZED →
          php_engine_cleanup x =
            { engine_state := .PHP_ENGINE_UNINITIALIZED
              global_variables := []
              global_vars_capacity := 0
              registered_functions := []
              functions_capacity := 0
              stdout := x.stdout }) ∧
        (∀ x : Engine, x.engine_state = .PHP_ENGINE_UNINITIALIZED →
          php_engine_cleanup x = x) ∧
        (php_engine_init (fun _ => []) Engine.start).isSome = true ∧
        ((php_engine_init (fun _ => []) Engine.start).bind
            (fun r => php_engine_init (fun _ => []) (php_engine_cleanup r.2))).map
            (fun r => (r.1, r.2.engine_state)) =
          (php_engine_init (fun _ => []) Engine.start).map
            (fun r => (r.1, r.2.engine_state)) ∧
        (Engine.start.engine_state = .PHP_ENGINE_UNINITIALIZED →
          (php_engine_init (fun _ => []) Engine.start).bind
              (fun r => php_engine_init (fun _ => []) (php_engine_cleanup r.2)) =
            php_engine_init (fun _ => []) Engine.start)) :=
  ⟨EngineReachable.start, cleanup_resets (fun _ => []) Engine.start EngineReachable.start⟩

/-! ## The syntax check -/

theorem count_line_eq (l : List Char) : ∀ counts : Int × Int,
    count_line l counts =
      (counts.1 + (cstr l).count LBRACE - (cstr l).count RBRACE,
        counts.2 + (cstr l).count '(' - (cstr l).count ')') := by
  induction l with
  | nil => intro counts; simp [count_line, cstr]
  | cons c cs ih =>
    intro counts
    unfold count_line
    by_cases h0 : c = NUL
    · simp [h0, cstr]
    · have e0 : (c == NUL) = false := by simpa using h0
      by_cases h1 : c = LBRACE
      · have e1 : (c == LBRACE) = true := by simp [h1]
        have e2 : (c == RBRACE) = false := by rw [h1]; decide
        have e3 : (c == '(') = false := by rw [h1]; decide
        have e4 : (c == ')') = false := by rw [h1]; decide
        simp only [e0, e1, e2, e3, e4, cstr, ih, List.count_cons, Bool.false_eq_true,
          if_false, if_true]
        refine Prod.ext ?_ ?_
        · simp only [Nat.cast_add, Nat.cast_one]
          omega
        · simp only [Nat.cast_add, Nat.cast_one]
          omega
      · have e1 : (c == LBRACE) = false := by simpa using h1
        by_cases h2 : c = RBRACE
        · have e2 : (c == RBRACE) = true := by simp [h2]
          have e3 : (c == '(') = false := by rw [h2]; decide
          have e4 : (c == ')') = false := by rw [h2]; decide
          simp only [e0, e1, e2, e3, e4, cstr, ih, List.count_cons, Bool.false_eq_true,
            if_false, if_true]
          refine Prod.ext ?_ ?_
          · simp only [Nat.cast_add, Nat.cast_one]
            omega
          · simp only [Nat.cast_add, Nat.cast_one]
            omega
        · have e2 : (c == RBRACE) = false := by simpa using h2
          by_cases h3 : c = '('
          · have e3 : (c == '(') = true := by simp [h3]
            have e4 : (c == ')') = false := by rw [h3]; decide
            simp only [e0, e1, e2, e3, e4, cstr, ih, List.count_cons, Bool.false_eq_true,
              if_false, if_true]
            refine Prod.ext ?_ ?_
            · simp only [Nat.cast_add, Nat.cast_one]
              omega
            · simp only [Nat.cast_add, Nat.cast_one]
              omega
          · have e3 : (c == '(') = false := by simpa using h3
            by_cases h4 : c = ')'
            · have e4 : (c == ')') = true := by simp [h4]
              simp only [e0, e1, e2, e3, e4, cstr, ih, List.count_cons, Bool.false_eq_true,
                if_false, if_true]
              refine Prod.ext ?_ ?_
              · simp only [Nat.cast_add, Nat.cast_one]
                omega
              · simp only [Nat.cast_add, Nat.cast_one]
                omega
            · have e4 : (c == ')') = false := by simpa using h4
              simp only [e0, e1, e2, e3, e4, cstr, ih, List.count_cons, Bool.false_eq_true,
                if_false, if_true]
              refine Prod.ext ?_ ?_ <;> simp

/-- The body of the loop by cases: a line with `?>` closes the region and is not
counted; any other line is counted when it opens the region or finds it open. -/
theorem syntax_check_line_eq (st : syntax_check_state) (l : List Char) :
    syntax_check_line st l =
      if strstr_found l "?>".toList then { st with in_php := false }
      else if strstr_found l "<?php".toList || strstr_found l "<?=".toList || st.in_php then
        { in_php := true
          brace_count := (count_line l (st.brace_count, st.paren_count)).1
          paren_count := (count_line l (st.brace_count, st.paren_count)).2 }
      else { st with in_php := false } := by
  unfold syntax_check_line
  generalize strstr_found l "?>".toList = c
  generalize strstr_found l "<?php".toList = a
  generalize strstr_found l "<?=".toList = b
  obtain ⟨i, bc, pc⟩ := st
  cases c <;> cases a <;> cases b <;> cases i <;> rfl

/-- The counters after the loop are the counters before it plus the net counts of
braces and parentheses over the counted lines. -/
theorem syntax_check_fold (lines : List (List Char)) : ∀ st : syntax_check_state,
    (lines.foldl syntax_check_line st).brace_count =
        st.brace_count + ((counted_lines st.in_php lines).flatten.count LBRACE : Int) -
          ((counted_lines st.in_php lines).flatten.count RBRACE : Int) ∧
      (lines.foldl syntax_check_line st).paren_count =
        st.paren_count + ((counted_lines st.in_php lines).flatten.count '(' : Int) -
          ((counted_lines st.in_php lines).flatten.count ')' : Int) := by
  induction lines with
  | nil => intro st; simp [counted_lines]
  | cons l ls ih =>
    intro st
    simp only [List.foldl_cons, syntax_check_line_eq, counted_lines]
    by_cases hc : strstr_found l "?>".toList = true
    · simp only [hc, if_true]
      exact ih { st with in_php := false }
    · have hc2 : strstr_found l "?>".toList = false := by
        cases h : strstr_found l "?>".toList
        · rfl
        · exact absurd h hc
      simp only [hc2, Bool.false_eq_true, if_false]
      by_cases ho : (strstr_found l "<?php".toList || strstr_found l "<?=".toList ||
          st.in_php) = true
      · simp only [ho, if_true]
        have := ih { in_php := true
                     brace_count := (count_line l (st.brace_count, st.paren_count)).1
                     paren_count := (count_line l (st.brace_count, st.paren_count)).2 }
        simp only [count_line_eq] at this
        simp only [count_line_eq, List.flatten_cons, List.count_append, Nat.cast_add]
        constructor
        · rw [this.1]; omega
        · rw [this.2]; omega
      · have ho2 : (strstr_found l "<?php".toList || strstr_found l "<?=".toList ||
            st.in_php) = false := by
          cases h : (strstr_found l "<?php".toList || strstr_found l "<?=".toList ||
            st.in_php)
          · rfl
          · exact absurd h ho
        simp only [ho2, Bool.false_eq_true, if_false]
        exact ih { st with in_php := false }

/-- The result of the syntax check of a readable file in terms of the counted lines. -/
theorem syntax_check_eq (content : List Char) :
    php_engine_syntax_check (some content) =
      (decide ((counted_lines false (fgets_all 1023 content [])).flatten.count LBRACE =
          (counted_lines false (fgets_all 1023 content [])).flatten.count RBRACE) &&
        decide ((counted_lines false (fgets_all 1023 content [])).flatten.count '(' =
          (counted_lines false (fgets_all 1023 content [])).flatten.count ')')) := by
  have h := syntax_check_fold (fgets_all 1023 content [])
    { in_php := false, brace_count := 0, paren_count := 0 }
  simp only [php_engine_syntax_check, h.1, h.2]
  rw [Bool.eq_iff_iff]
  simp only [Bool.and_eq_true, beq_iff_eq, decide_eq_true_eq]
  constructor
  · rintro ⟨h1, h2⟩
    constructor <;> omega
  · rintro ⟨h1, h2⟩
    constructor <;> omega

/-- Claim C20, amended. For every readable source file whose counted lines hold more
`{` than `}`, `php_engine_syntax_check` returns failure. The lines are the buffers
`fgets` fills (up to a line feed, at most 1023 bytes); a line that holds `?>` is not
counted and closes the region, any other line is counted when it holds `<?php` or
`<?=` or when the region was left open by the line before. -/
theorem syntax_check_unbalanced_braces (content : List Char)
    (h : (counted_lines false (fgets_all 1023 content [])).flatten.count RBRACE <
      (counted_lines false (fgets_all 1023 content [])).flatten.count LBRACE) :
    php_engine_syntax_check (some content) = false := by
  rw [syntax_check_eq]
  have : ¬ (counted_lines false (fgets_all 1023 content [])).flatten.count LBRACE =
      (counted_lines false (fgets_all 1023 content [])).flatten.count RBRACE := by omega
  simp [this]

theorem syntax_check_unbalanced_braces_witness :
    (counted_lines false (fgets_all 1023 "<?php\n\x7b\n".toList [])).flatten.count RBRACE <
        (counted_lines false (fgets_all 1023 "<?php\n\x7b\n".toList [])).flatten.count LBRACE ∧
      php_engine_syntax_check (some "<?php\n\x7b\n".toList) = false :=
  ⟨by decide, syntax_check_unbalanced_braces "<?php\n\x7b\n".toList (by decide)⟩

/-- Claim C20, counterexample. The single line `<?php { ?>` and the file that opens a
region with the short marker `<?` and holds a `{` on its next line both pass the syntax
check, although each holds one `{` and no `}` inside its region. -/
theorem syntax_check_misses_regions :
    php_engine_syntax_check (some "<?php \x7b ?>".toList) = true ∧
      php_engine_syntax_check (some "<?\n\x7b\n".toList) = true := by
  constructor
  · decide
  · decide

/-! ## The syntax check as a textual balance -/

/-- Claim C21. Over the lines of a readable file `php_engine_syntax_check` succeeds if
and only if the net count of `{` less `}` and the net count of `(` less `)` are both
zero, where the characters counted are all those of the lines scanned while the region
is open, whatever quotes or comments surround them. So the file with the lines `<?php`
and `echo "{";` is rejected, with or without a final line feed. -/
theorem syntax_check_textual_balance (content : List Char) :
    (php_engine_syntax_check (some content) = true ↔
      (((counted_lines false (fgets_all 1023 content [])).flatten.count LBRACE : Int) -
          (counted_lines false (fgets_all 1023 content [])).flatten.count RBRACE = 0 ∧
        ((counted_lines false (fgets_all 1023 content [])).flatten.count '(' : Int) -
          (counted_lines false (fgets_all 1023 content [])).flatten.count ')' = 0)) ∧
    php_engine_syntax_check (some "<?php\necho \"\x7b\";".toList) = false ∧
    php_engine_syntax_check (some "<?php\necho \"\x7b\";\n".toList) = false := by
  refine ⟨?_, by decide, by decide⟩
  rw [syntax_check_eq]
  simp only [Bool.and_eq_true, decide_eq_true_eq]
  constructor
  · rintro ⟨h1, h2⟩
    rw [h1, h2]
    simp
  · rintro ⟨h1, h2⟩
    constructor <;> omega

/-! ## Construction and reference counting of values -/

/-- Claim C27. Each constructor returns a value with reference count 1 that carries the
tag and the payload of its argument; the string constructors hold a copy of the input
text (the C string of the input, or its first `length` bytes); given a null input the
two string constructors return a value of type Null. -/
theorem value_constructors (b : Bool) (i : Int) (f : Nat) (s : List Char) (n : Nat) :
    php_value_create_null = { payload := .PHP_TYPE_NULL, refcount := 1 } ∧
    php_value_create_bool b = { payload := .PHP_TYPE_BOOL b, refcount := 1 } ∧
    php_value_create_int i = { payload := .PHP_TYPE_INT i, refcount := 1 } ∧
    php_value_create_float f = { payload := .PHP_TYPE_FLOAT f, refcount := 1 } ∧
    php_value_create_string (some s) = { payload := .PHP_TYPE_STRING (cstr s), refcount := 1 } ∧
    (NUL ∉ s → php_value_create_string (some s) =
      { payload := .PHP_TYPE_STRING s, refcount := 1 }) ∧
    php_value_create_string_len (some s) n =
      { payload := .PHP_TYPE_STRING (s.take n), refcount := 1 } ∧
    php_value_create_string none = { payload := .PHP_TYPE_NULL, refcount := 1 } ∧
    php_value_create_string_len none n = { payload := .PHP_TYPE_NULL, refcount := 1 } := by
  refine ⟨rfl, rfl, rfl, rfl, rfl, ?_, rfl, rfl, rfl⟩
  intro h
  simp only [php_value_create_string]
  congr 2
  induction s with
  | nil => rfl
  | cons c cs ih =>
    have hc : c ≠ NUL := fun e => h (by simp [e])
    have hcs : NUL ∉ cs := fun e => h (by simp [e])
    simp [cstr, hc, ih hcs]

theorem refcount_decrement (n : Nat) (h1 : 1 ≤ n) (h2 : n < 2 ^ 32) :
    (n + (2 ^ 32 - 1)) % 2 ^ 32 = n - 1 := by
  norm_num at h2 ⊢
  omega

theorem refcount_increment (n : Nat) (h2 : n < 2 ^ 32 - 1) :
    (n + 1) % 2 ^ 32 = n + 1 := by
  norm_num at h2 ⊢
  omega

theorem destroy_live (v : php_value_t) (h1 : 2 ≤ v.refcount) (h2 : v.refcount < 2 ^ 32) :
    php_value_destroy (.live v) = some (.live { v with refcount := v.refcount - 1 }) := by
  have h := refcount_decrement v.refcount (by omega) h2
  simp only [php_value_destroy, h]
  have : ¬ v.refcount - 1 = 0 := by omega
  simp [this]

theorem destroy_last (v : php_value_t) (h1 : v.refcount = 1) :
    php_value_destroy (.live v) = some .released := by
  simp [php_value_destroy, h1]

theorem unref_times_live : ∀ (k : Nat) (v : php_value_t), v.refcount < 2 ^ 32 →
    k < v.refcount →
    unref_times k (.live v) = some (.live { v with refcount := v.refcount - k }) := by
  intro k
  induction k with
  | zero => intro v _ _; rfl
  | succ k ih =>
    intro v h2 hk
    simp only [unref_times, php_value_unref]
    rw [destroy_live v (by omega) h2]
    simp only [Option.some_bind]
    rw [ih _ (by simp only; omega) (by simp only; omega)]
    simp only [Option.some.injEq, value_ptr.live.injEq, php_value_t.mk.injEq, true_and]
    omega

theorem unref_times_succ : ∀ (k : Nat) (p : value_ptr),
    unref_times (k + 1) p = (unref_times k p).bind php_value_unref := by
  intro k
  induction k with
  | zero =>
    intro p
    have e : unref_times (0 + 1) p = (php_value_unref p).bind (unref_times 0) := rfl
    rw [e]
    have e0 : unref_times 0 p = some p := rfl
    rw [e0, Option.some_bind]
    cases php_value_unref p with
    | none => rfl
    | some q => rfl
  | succ k ih =>
    intro p
    have e : unref_times (k + 1 + 1) p = (php_value_unref p).bind (unref_times (k + 1)) := rfl
    rw [e]
    have e2 : unref_times (k + 1) p = (php_value_unref p).bind (unref_times k) := rfl
    rw [e2]
    cases php_value_unref p with
    | none => rfl
    | some q => rw [Option.some_bind, Option.some_bind]; exact ih q

theorem ref_live (v : php_value_t) (h2 : v.refcount < 2 ^ 32 - 1) :
    php_value_ref (.live v) = some (.live { v with refcount := v.refcount + 1 }) := by
  have hi := refcount_increment v.refcount h2
  simp only [php_value_ref, hi]

/-- Claim C28. For a live string value with text `s` and reference count `c`, where
`1 ≤ c < 2^32 - 1`, `php_value_ref` raises the count to `c + 1` and the following
`php_value_unref` leaves the value live with the text `s` and the count `c`. -/
theorem ref_then_unref (s : List Char) (c : Nat) (h1 : 1 ≤ c) (h2 : c < 2 ^ 32 - 1) :
    php_value_ref (.live { payload := .PHP_TYPE_STRING s, refcount := c }) =
      some (.live { payload := .PHP_TYPE_STRING s, refcount := c + 1 }) ∧
    (php_value_ref (.live { payload := .PHP_TYPE_STRING s, refcount := c })).bind
        php_value_unref =
      some (.live { payload := .PHP_TYPE_STRING s, refcount := c }) := by
  have e := ref_live { payload := .PHP_TYPE_STRING s, refcount := c } h2
  have h3 : c + 1 < 2 ^ 32 := by omega
  have h4 : 2 ≤ c + 1 := by omega
  have d := destroy_live { payload := .PHP_TYPE_STRING s, refcount := c + 1 } h4 h3
  refine ⟨e, ?_⟩
  rw [e, Option.some_bind, php_value_unref, d]
  simp

theorem ref_then_unref_witness :
    1 ≤ 1 ∧ 1 < 2 ^ 32 - 1 ∧
    (php_value_ref (.live { payload := .PHP_TYPE_STRING "abc".toList, refcount := 1 })).bind
        php_value_unref =
      some (.live { payload := .PHP_TYPE_STRING "abc".toList, refcount := 1 }) :=
  ⟨by norm_num, by norm_num, (ref_then_unref "abc".toList 1 (by norm_num) (by norm_num)).2⟩

/-- Claim C29. A value is released exactly when its reference count goes from 1 to 0.
For a live value with reference count `n ≥ 1`, each of the first `n - 1` calls of
`php_value_unref` leaves the value live with the same tag and payload and the count
one lower, and the `n`-th call releases it. -/
theorem unref_releases_on_last (v : php_value_t) (h1 : 1 ≤ v.refcount)
    (h2 : v.refcount < 2 ^ 32) :
    (∀ k, k < v.refcount →
      unref_times k (.live v) =
        some (.live { payload := v.payload, refcount := v.refcount - k })) ∧
    unref_times v.refcount (.live v) = some .released ∧
    (php_value_unref (.live v) = some .released ↔ v.refcount = 1) := by
  refine ⟨fun k hk => unref_times_live k v h2 hk, ?_, ?_⟩
  · obtain ⟨m, hm⟩ : ∃ m, v.refcount = m + 1 := ⟨v.refcount - 1, by omega⟩
    rw [hm, unref_times_succ, unref_times_live m v h2 (by omega), Option.some_bind,
      php_value_unref]
    exact destroy_last _ (by simp only; omega)
  · constructor
    · intro h
      by_contra hne
      have h5 : 2 ≤ v.refcount := by omega
      rw [php_value_unref, destroy_live v h5 h2] at h
      exact absurd h (by simp)
    · intro h
      exact destroy_last v h

theorem unref_releases_on_last_witness :
    1 ≤ (3 : Nat) ∧ (3 : Nat) < 2 ^ 32 ∧
    unref_times 2 (.live { payload := .PHP_TYPE_STRING "ab".toList, refcount := 3 }) =
      some (.live { payload := .PHP_TYPE_STRING "ab".toList, refcount := 1 }) ∧
    unref_times 3 (.live { payload := .PHP_TYPE_STRING "ab".toList, refcount := 3 }) =
      some .released :=
  ⟨by norm_num, by norm_num,
    (unref_releases_on_last { payload := .PHP_TYPE_STRING "ab".toList, refcount := 3 }
      (by norm_num) (by norm_num)).1 2 (by norm_num),
    (unref_releases_on_last { payload := .PHP_TYPE_STRING "ab".toList, refcount := 3 }
      (by norm_num) (by norm_num)).2.1⟩

/-! ## The scan of `php_engine_execute_string`: what it steps over and what it writes -/

theorem cstr_append_of_no_nul (a p : List Char) (h : NUL ∉ a) :
    cstr (a ++ p) = a ++ cstr p := by
  induction a with
  | nil => rfl
  | cons c cs ih =>
    have hc : c ≠ NUL := fun e => h (by simp [e])
    have hcs : NUL ∉ cs := fun e => h (by simp [e])
    simp [cstr, hc, ih hcs]

theorem has_infix_tail (needle : List Char) (c : Char) (l : List Char)
    (h : has_infix needle (c :: l) = false) : has_infix needle l = false := by
  simp only [ has_infix, Bool.or_eq_false_iff] at h
  exact h.2

theorem has_infix_append_right (needle a l : List Char)
    (h : has_infix needle (a ++ l) = false) : has_infix needle l = false := by
  induction a with
  | nil => exact h
  | cons c cs ih => exact ih (has_infix_tail needle c (cs ++ l) h)

theorem has_infix_prefix (needle l : List Char) (h : has_infix needle l = false) :
    needle.isPrefixOf l = false := by
  cases l with
  | nil =>
    cases needle with
    | nil => simp [ has_infix] at h
    | cons b bs => rfl
  | cons c cs =>
    simp only [ has_infix, Bool.or_eq_false_iff] at h
    exact h.1

theorem isPrefixOf_cstr (lit : List Char) (hl : ∀ c ∈ lit, c ≠ NUL) :
    ∀ p : List Char, lit.isPrefixOf (cstr p) = lit.isPrefixOf p := by
  induction lit with
  | nil => intro p; simp
  | cons b bs ih =>
    intro p
    have hb : b ≠ NUL := hl b (by simp)
    cases p with
    | nil => rfl
    | cons c cs =>
      by_cases hc : c = NUL
      · subst hc
        have : (b == NUL) = false := by simpa using hb
        simp [cstr, List.isPrefixOf, this]
      · simp only [cstr, beq_iff_eq, hc, if_false, List.isPrefixOf]
        rw [ih (fun c h => hl c (by simp [h])) cs]

theorem isPrefixOf_split (lit p : List Char) (h : lit.isPrefixOf p = true) :
    p = lit ++ p.drop lit.length := by
  rw [List.isPrefixOf_iff_prefix] at h
  obtain ⟨t, rfl⟩ := h
  simp

theorem skip_whitespace_split (p : List Char) :
    ∃ a, p = a ++ skip_whitespace p ∧ NUL ∉ a := by
  induction p with
  | nil => exact ⟨[], rfl, by simp⟩
  | cons c cs ih =>
    unfold skip_whitespace
    split
    · rename_i h
      obtain ⟨a, ha, hn⟩ := ih
      have hc : c ≠ NUL := by
        intro e
        simp [e] at h
      refine ⟨c :: a, by rw [List.cons_append, ← ha], ?_⟩
      intro hm
      rcases List.mem_cons.mp hm with e | e
      · exact hc e.symm
      · exact hn e
    · exact ⟨[], rfl, by simp⟩

theorem skip_blanks_split (p : List Char) :
    ∃ a, p = a ++ skip_blanks p ∧ NUL ∉ a := by
  induction p with
  | nil => exact ⟨[], rfl, by simp⟩
  | cons c cs ih =>
    unfold skip_blanks
    split
    · rename_i h
      obtain ⟨a, ha, hn⟩ := ih
      have hc : c ≠ NUL := by
        intro e
        simp [e] at h
      refine ⟨c :: a, by rw [List.cons_append, ← ha], ?_⟩
      intro hm
      rcases List.mem_cons.mp hm with e | e
      · exact hc e.symm
      · exact hn e
    · exact ⟨[], rfl, by simp⟩

theorem skip_statement_split (p : List Char) :
    ∃ a, p = a ++ skip_statement p ∧ NUL ∉ a := by
  induction p with
  | nil => exact ⟨[], rfl, by simp⟩
  | cons c cs ih =>
    unfold skip_statement
    split
    · rename_i h
      obtain ⟨a, ha, hn⟩ := ih
      have hc : c ≠ NUL := by
        intro e
        simp [e] at h
      refine ⟨c :: a, by rw [List.cons_append, ← ha], ?_⟩
      intro hm
      rcases List.mem_cons.mp hm with e | e
      · exact hc e.symm
      · exact hn e
    · exact ⟨[], rfl, by simp⟩

theorem scan_quoted_split (q : Char) (p : List Char) :
    p = (scan_quoted q p).1 ++ (scan_quoted q p).2 ∧ NUL ∉ (scan_quoted q p).1 ∧
      q ∉ (scan_quoted q p).1 := by
  induction p with
  | nil => simp [scan_quoted]
  | cons c cs ih =>
    unfold scan_quoted
    split
    · rename_i h
      have hc : c ≠ NUL ∧ c ≠ q := by simpa using h
      obtain ⟨h1, h2, h3⟩ := ih
      refine ⟨by simp only [List.cons_append]; rw [← h1], ?_, ?_⟩
      · intro hm
        rcases List.mem_cons.mp hm with e | e
        · exact hc.1 e.symm
        · exact h2 e
      · intro hm
        rcases List.mem_cons.mp hm with e | e
        · exact hc.2 e.symm
        · exact h3 e
    · simp

theorem cur_ne_nul_split (p : List Char) (h : cur p ≠ NUL) :
    p = [cur p] ++ p.tail ∧ NUL ∉ [cur p] := by
  cases p with
  | nil => simp [cur] at h
  | cons c cs =>
    simp only [cur, List.headD_cons] at h ⊢
    exact ⟨rfl, by simpa using fun e => h e.symm⟩

/-- What the shared body of the `echo` and `print` branches does: it steps over a gap
`a`, a body `b` that it writes, and a closing part `c`, none of them holding the
terminator. -/
theorem quoted_literal_shape (p out : List Char) :
    ∃ a b c, p = a ++ b ++ c ++ (quoted_literal p out).1 ∧
      (quoted_literal p out).2 = out ++ b ∧ NUL ∉ a ++ b ++ c := by
  obtain ⟨a, ha, hna⟩ := skip_blanks_split p
  unfold quoted_literal
  simp only
  split
  · rename_i hq
    have hq0 : cur (skip_blanks p) ≠ NUL := by
      intro e
      rw [e] at hq
      simp [NUL, DQUOTE, SQUOTE] at hq
    obtain ⟨hs, hsn⟩ := cur_ne_nul_split (skip_blanks p) hq0
    obtain ⟨h1, h2, _⟩ := scan_quoted_split (cur (skip_blanks p)) (skip_blanks p).tail
    split
    · rename_i hclose
      have hc0 : cur (scan_quoted (cur (skip_blanks p)) (skip_blanks p).tail).2 ≠ NUL := by
        have := beq_iff_eq.mp hclose
        rw [this]
        exact hq0
      obtain ⟨ht, htn⟩ :=
        cur_ne_nul_split (scan_quoted (cur (skip_blanks p)) (skip_blanks p).tail).2 hc0
      refine ⟨a ++ [cur (skip_blanks p)],
        (scan_quoted (cur (skip_blanks p)) (skip_blanks p).tail).1,
        [cur (scan_quoted (cur (skip_blanks p)) (skip_blanks p).tail).2], ?_, ?_, ?_⟩
      · simp only [List.append_assoc]
        rw [← ht, ← h1, ← hs, ← ha]
      · simp only [php_engine_output, php_engine_output_len]
        rw [strlen_eq_length _ h2, List.take_length]
      · simp only [List.mem_append, not_or]
        exact ⟨⟨⟨hna, hsn⟩, h2⟩, htn⟩
    · refine ⟨a ++ [cur (skip_blanks p)],
        [], (scan_quoted (cur (skip_blanks p)) (skip_blanks p).tail).1, ?_, by simp, ?_⟩
      · simp only [List.append_assoc, List.append_nil, List.nil_append]
        rw [← h1, ← hs, ← ha]
      · simp only [List.mem_append, not_or, List.append_nil]
        exact ⟨⟨hna, hsn⟩, h2⟩
  · exact ⟨a, [], [], by simpa using ha, by simp, by simpa using hna⟩

theorem drop_lit_split (lit p : List Char) (hl : ∀ c ∈ lit, c ≠ NUL)
    (h : strncmp_eq p lit lit.length = true) :
    p = lit ++ p.drop lit.length ∧ NUL ∉ lit := by
  rw [strncmp_eq_isPrefixOf lit hl] at h
  exact ⟨isPrefixOf_split lit p h, fun hm => hl NUL hm rfl⟩

/-- One pass of the outer loop, entered off the terminator, steps over a non-empty run
of bytes before the terminator: a gap `a`, a body `b` that it writes, and a closing
part `c`. -/
theorem execute_iteration_shape (p out : List Char) (h : cur p ≠ NUL) :
    ∃ a b c, p = a ++ b ++ c ++ (execute_iteration p out).1 ∧
      (execute_iteration p out).2 = out ++ b ∧ NUL ∉ a ++ b ++ c ∧ a ++ b ++ c ≠ [] := by
  have hlen := execute_iteration_progress p out h
  have key : ∀ a b c : List Char, p = a ++ b ++ c ++ (execute_iteration p out).1 →
      a ++ b ++ c ≠ [] := by
    intro a b c e hnil
    rw [hnil] at e
    rw [List.nil_append] at e
    rw [← e] at hlen
    exact Nat.lt_irrefl _ hlen
  suffices hs : ∃ a b c, p = a ++ b ++ c ++ (execute_iteration p out).1 ∧
      (execute_iteration p out).2 = out ++ b ∧ NUL ∉ a ++ b ++ c by
    obtain ⟨a, b, c, h1, h2, h3⟩ := hs
    exact ⟨a, b, c, h1, h2, h3, key a b c h1⟩
  obtain ⟨w, hw, hwn⟩ := skip_whitespace_split p
  unfold execute_iteration
  simp only
  split
  · exact ⟨w, [], [], by simpa using hw, by simp, by simpa using hwn⟩
  split
  · rename_i hm
    obtain ⟨e, en⟩ := drop_lit_split "<?php".toList (skip_whitespace p) lit_no_nul_php hm
    refine ⟨w ++ "<?php".toList, [], [], ?_, by simp, ?_⟩
    · simp only [List.append_nil, List.append_assoc]
      rw [show (5 : Nat) = "<?php".toList.length from rfl, ← e, ← hw]
    · simp only [List.append_nil, List.mem_append, not_or]
      exact ⟨hwn, en⟩
  split
  · rename_i hm
    obtain ⟨e, en⟩ := drop_lit_split "<?".toList (skip_whitespace p) lit_no_nul_open hm
    refine ⟨w ++ "<?".toList, [], [], ?_, by simp, ?_⟩
    · simp only [List.append_nil, List.append_assoc]
      rw [show (2 : Nat) = "<?".toList.length from rfl, ← e, ← hw]
    · simp only [List.append_nil, List.mem_append, not_or]
      exact ⟨hwn, en⟩
  split
  · rename_i hm
    obtain ⟨e, en⟩ := drop_lit_split "?>".toList (skip_whitespace p) lit_no_nul_close hm
    refine ⟨w ++ "?>".toList, [], [], ?_, by simp, ?_⟩
    · simp only [List.append_nil, List.append_assoc]
      rw [show (2 : Nat) = "?>".toList.length from rfl, ← e, ← hw]
    · simp only [List.append_nil, List.mem_append, not_or]
      exact ⟨hwn, en⟩
  split
  · rename_i hm
    obtain ⟨e, en⟩ := drop_lit_split "echo".toList (skip_whitespace p) lit_no_nul_echo hm
    obtain ⟨a, b, c, h1, h2, h3⟩ := quoted_literal_shape ((skip_whitespace p).drop 4) out
    refine ⟨w ++ "echo".toList ++ a, b, c, ?_, h2, ?_⟩
    · have e4 : skip_whitespace p = "echo".toList ++ (skip_whitespace p).drop 4 := e
      have hr : w ++ "echo".toList ++ a ++ b ++ c ++
          (quoted_literal (List.drop 4 (skip_whitespace p)) out).1 =
          w ++ ("echo".toList ++ (a ++ b ++ c ++
            (quoted_literal (List.drop 4 (skip_whitespace p)) out).1)) := by
        simp only [List.append_assoc]
      rw [hr, ← h1, ← e4, ← hw]
    · simp only [List.mem_append, not_or] at h3 ⊢
      exact ⟨⟨⟨⟨hwn, en⟩, h3.1.1⟩, h3.1.2⟩, h3.2⟩
  split
  · rename_i hm
    obtain ⟨e, en⟩ := drop_lit_split "print".toList (skip_whitespace p) lit_no_nul_print hm
    obtain ⟨a, b, c, h1, h2, h3⟩ := quoted_literal_shape ((skip_whitespace p).drop 5) out
    refine ⟨w ++ "print".toList ++ a, b, c, ?_, h2, ?_⟩
    · have e5 : skip_whitespace p = "print".toList ++ (skip_whitespace p).drop 5 := e
      have hr : w ++ "print".toList ++ a ++ b ++ c ++
          (quoted_literal (List.drop 5 (skip_whitespace p)) out).1 =
          w ++ ("print".toList ++ (a ++ b ++ c ++
            (quoted_literal (List.drop 5 (skip_whitespace p)) out).1)) := by
        simp only [List.append_assoc]
      rw [hr, ← h1, ← e5, ← hw]
    · simp only [List.mem_append, not_or] at h3 ⊢
      exact ⟨⟨⟨⟨hwn, en⟩, h3.1.1⟩, h3.1.2⟩, h3.2⟩
  · obtain ⟨s, hs, hsn⟩ := skip_statement_split (skip_whitespace p)
    split
    · rename_i hsemi
      have h0 : cur (skip_statement (skip_whitespace p)) ≠ NUL := by
        have := beq_iff_eq.mp hsemi
        rw [this]
        decide
      obtain ⟨ht, htn⟩ := cur_ne_nul_split _ h0
      refine ⟨w ++ s ++ [cur (skip_statement (skip_whitespace p))], [], [], ?_, by simp, ?_⟩
      · simp only [List.append_nil, List.append_assoc]
        rw [← ht, ← hs, ← hw]
      · simp only [List.append_nil, List.mem_append, not_or]
        exact ⟨⟨hwn, hsn⟩, htn⟩
    · refine ⟨w ++ s, [], [], ?_, by simp, ?_⟩
      · simp only [List.append_nil, List.append_assoc]
        rw [← hs, ← hw]
      · simp only [List.append_nil, List.mem_append, not_or]
        exact ⟨hwn, hsn⟩

theorem interleave_nil (tail : List Char) : interleave [] tail = tail := by
  simp [interleave]

theorem interleave_cons (a b : List Char) (segs : List (List Char × List Char))
    (tail : List Char) :
    interleave ((a, b) :: segs) tail = a ++ b ++ interleave segs tail := by
  simp [interleave]

theorem bodies_cons (a b : List Char) (segs : List (List Char × List Char)) :
    bodies ((a, b) :: segs) = b ++ bodies segs := by
  simp [bodies]

theorem interleave_prepend (c : List Char) (segs : List (List Char × List Char))
    (tail : List Char) :
    ∃ segs2 tail2, c ++ interleave segs tail = interleave segs2 tail2 ∧
      bodies segs2 = bodies segs := by
  cases segs with
  | nil => exact ⟨[], c ++ tail, by simp [interleave], rfl⟩
  | cons s rest =>
    obtain ⟨a, b⟩ := s
    refine ⟨(c ++ a, b) :: rest, tail, ?_, ?_⟩
    · rw [interleave_cons, interleave_cons]
      simp only [List.append_assoc]
    · rw [bodies_cons, bodies_cons]

theorem bodies_sublist (segs : List (List Char × List Char)) (tail : List Char) :
    (bodies segs).Sublist (interleave segs tail) := by
  induction segs with
  | nil => simp [bodies]
  | cons s rest ih =>
    obtain ⟨a, b⟩ := s
    rw [bodies_cons, interleave_cons, List.append_assoc]
    exact List.Sublist.trans ((List.Sublist.refl b).append ih)
      (List.sublist_append_right a _)

/-- What the outer loop writes is made of pieces of the text it scans, taken in
order. -/
theorem execute_loop_shape (f : Nat) : ∀ (p out r : List Char),
    execute_loop f p out = some r →
    ∃ segs tail, p = interleave segs tail ∧ r = out ++ bodies segs := by
  induction f with
  | zero => intro p out r h; simp [execute_loop] at h
  | succ n ih =>
    intro p out r h
    by_cases hc : cur p = NUL
    · have : execute_loop (n + 1) p out = some out := by simp [execute_loop, hc]
      rw [this] at h
      refine ⟨[], p, (interleave_nil p).symm, ?_⟩
      have := Option.some.inj h
      simp [bodies, ← this]
    · rw [execute_loop_step n p out hc] at h
      obtain ⟨a, b, c, h1, h2, _, _⟩ := execute_iteration_shape p out hc
      obtain ⟨segs, tail, h3, h4⟩ := ih _ _ r h
      obtain ⟨segs2, tail2, h5, h6⟩ := interleave_prepend c segs tail
      refine ⟨(a, b) :: segs2, tail2, ?_, ?_⟩
      · rw [interleave_cons, ← h5, ← h3]
        conv_lhs => rw [h1]
        simp only [List.append_assoc]
      · rw [h4, h2, bodies_cons, h6, List.append_assoc]

theorem execute_iteration_silent (p out : List Char)
    (he : has_infix "echo".toList (cstr p) = false)
    (hp : has_infix "print".toList (cstr p) = false) :
    (execute_iteration p out).2 = out := by
  obtain ⟨w, hw, hwn⟩ := skip_whitespace_split p
  have hc : cstr p = w ++ cstr (skip_whitespace p) := by
    conv_lhs => rw [hw]
    exact cstr_append_of_no_nul w _ hwn
  rw [hc] at he hp
  have h4 : strncmp_eq (skip_whitespace p) "echo".toList 4 = false := by
    have := has_infix_prefix _ _ (has_infix_append_right _ _ _ he)
    rw [isPrefixOf_cstr _ lit_no_nul_echo] at this
    rw [show (4 : Nat) = "echo".toList.length from rfl, strncmp_eq_isPrefixOf _ lit_no_nul_echo]
    exact this
  have h5 : strncmp_eq (skip_whitespace p) "print".toList 5 = false := by
    have := has_infix_prefix _ _ (has_infix_append_right _ _ _ hp)
    rw [isPrefixOf_cstr _ lit_no_nul_print] at this
    rw [show (5 : Nat) = "print".toList.length from rfl,
      strncmp_eq_isPrefixOf _ lit_no_nul_print]
    exact this
  unfold execute_iteration
  simp only [h4, h5, Bool.false_eq_true, if_false]
  split_ifs <;> rfl

theorem execute_loop_silent (f : Nat) : ∀ (p out r : List Char),
    has_infix "echo".toList (cstr p) = false →
    has_infix "print".toList (cstr p) = false →
    execute_loop f p out = some r → r = out := by
  induction f with
  | zero => intro p out r _ _ h; simp [execute_loop] at h
  | succ n ih =>
    intro p out r he hp h
    by_cases hc : cur p = NUL
    · have : execute_loop (n + 1) p out = some out := by simp [execute_loop, hc]
      rw [this] at h
      exact (Option.some.inj h).symm
    · rw [execute_loop_step n p out hc] at h
      obtain ⟨a, b, c, h1, _, h3, _⟩ := execute_iteration_shape p out hc
      have hcs : cstr p = a ++ b ++ c ++ cstr (execute_iteration p out).1 := by
        conv_lhs => rw [h1]
        exact cstr_append_of_no_nul _ _ h3
      rw [hcs] at he hp
      have := ih _ _ r (has_infix_append_right _ _ _ he) (has_infix_append_right _ _ _ hp) h
      rw [this, execute_iteration_silent p out]
      · rw [hcs]; exact he
      · rw [hcs]; exact hp

theorem execute_string_run (e : Engine) (code r : List Char)
    (hinit : e.engine_state = .PHP_ENGINE_INITIALIZED)
    (hr : execute_loop (code.length + 1) code e.stdout = some r) :
    php_engine_execute_string e code =
      some (true, { e with engine_state := .PHP_ENGINE_INITIALIZED, stdout := r }) := by
  simp only [php_engine_execute_string, hinit, ne_eq, not_true_eq_false, if_false, hr]

/-! ## Statements and regions -/

/-- Claim C30, counterexample. On the engine built by `php_engine_init` the source
`echo 'A';`, which holds no open marker, writes `A`. -/
theorem execute_string_echo_outside_region :
    strstr_found "echo 'A';".toList "<?".toList = false ∧
    (php_engine_execute_string (Engine.initialized (fun _ => [])) "echo 'A';".toList).map
      (fun r => (r.1, r.2.stdout)) = some (true, ['A']) := by
  constructor
  · decide
  · decide

/-- Claim C30, amended. Statements are recognised in the whole source text, inside a
region or outside: the markers are only stepped over. On an Initialized engine
`php_engine_execute_string` succeeds and leaves the engine as it was, nothing written,
for every source text that holds neither `echo` nor `print`. -/
theorem execute_string_silent_without_keywords (e : Engine) (code : List Char)
    (hinit : e.engine_state = .PHP_ENGINE_INITIALIZED)
    (he : strstr_found code "echo".toList = false)
    (hp : strstr_found code "print".toList = false) :
    php_engine_execute_string e code = some (true, e) := by
  obtain ⟨r, hr⟩ := execute_loop_total (code.length + 1) code e.stdout (by omega)
  have := execute_loop_silent _ _ _ r he hp hr
  subst this
  rw [execute_string_run e code _ hinit hr]
  cases e
  simp_all

theorem execute_string_silent_without_keywords_witness :
    (Engine.initialized (fun _ => [])).engine_state = .PHP_ENGINE_INITIALIZED ∧
    strstr_found "<?php $x = 1; ?>".toList "echo".toList = false ∧
    strstr_found "<?php $x = 1; ?>".toList "print".toList = false ∧
    php_engine_execute_string (Engine.initialized (fun _ => [])) "<?php $x = 1; ?>".toList =
      some (true, Engine.initialized (fun _ => [])) :=
  ⟨rfl, by decide, by decide,
    execute_string_silent_without_keywords (Engine.initialized (fun _ => []))
      "<?php $x = 1; ?>".toList rfl (by decide) (by decide)⟩

/-! ## Termination and provenance of the output -/

/-- Claim C37. `php_engine_execute_string` returns on every engine and every source
text; and each pass of its outer loop, entered off the terminator, steps over a
non-empty run of bytes that all lie before the terminator, so the scan position
strictly advances and never passes the end of the text. -/
theorem execute_string_terminates (e : Engine) (code : List Char) :
    (∃ r, php_engine_execute_string e code = some r) ∧
    (∀ p out : List Char, cur p ≠ NUL →
      ∃ a, a ≠ [] ∧ NUL ∉ a ∧ p = a ++ (execute_iteration p out).1) ∧
    (cur "echo \"abc".toList ≠ NUL ∧ (execute_iteration "echo \"abc".toList []).1 = [] ∧
      cur "<".toList ≠ NUL ∧ (execute_iteration "<".toList []).1 = [] ∧
      cur "ech".toList ≠ NUL ∧ (execute_iteration "ech".toList []).1 = []) := by
  refine ⟨?_, ?_, by decide⟩
  · by_cases hinit : e.engine_state = .PHP_ENGINE_INITIALIZED
    · obtain ⟨r, hr⟩ := execute_loop_total (code.length + 1) code e.stdout (by omega)
      exact ⟨(true, { e with engine_state := .PHP_ENGINE_INITIALIZED, stdout := r }),
        execute_string_run e code r hinit hr⟩
    · exact ⟨(false, e), by simp [php_engine_execute_string, hinit]⟩
  · intro p out h
    obtain ⟨a, b, c, h1, _, h3, h4⟩ := execute_iteration_shape p out h
    exact ⟨a ++ b ++ c, h4, h3, h1⟩

/-- Claim C39. Every engine state reached from the state at program start by completed
calls of `php_engine_init`, `php_engine_cleanup` and `php_engine_execute_string` (and
of the registration and call functions), with any arguments, is Uninitialized or
Initialized: never Error, and never Running between calls. -/
theorem engine_state_never_error (e : Engine) (h : EngineReachable e) :
    e.engine_state = .PHP_ENGINE_UNINITIALIZED ∨
      e.engine_state = .PHP_ENGINE_INITIALIZED :=
  (reachable_engine_invariant e h).1

theorem engine_state_never_error_witness :
    EngineReachable (php_engine_cleanup Engine.start) ∧
    ((php_engine_cleanup Engine.start).engine_state = .PHP_ENGINE_UNINITIALIZED ∨
      (php_engine_cleanup Engine.start).engine_state = .PHP_ENGINE_INITIALIZED) :=
  ⟨.cleanup _ .start, engine_state_never_error _ (.cleanup _ .start)⟩

/-! ## The variable table: compaction and insertion order -/

/-- In an array with unique names no entry before one that passes the test passes it. -/
theorem unique_before_match (name : List Char) (pre post : List variable_entry_t)
    (x : variable_entry_t) (hx : entry_named name x = true)
    (hu : ((pre ++ x :: post).map (fun e => e.name)).Pairwise
      (fun a b => same_name a b = false)) :
    ∀ g ∈ pre, entry_named name g = false := by
  intro g hg
  rw [List.map_append, List.pairwise_append] at hu
  have := hu.2.2 g.name (List.mem_map_of_mem _ hg) x.name (by simp)
  cases hgn : entry_named name g with
  | false => rfl
  | true => rw [same_name_of_named name g x hgn hx] at this; cases this

theorem entry_named_own (x : variable_entry_t) (nm : List Char) (hx : x.name = some nm) :
    entry_named nm x = true := by
  simp [entry_named, hx, strcmp_eq]

theorem rotate_iff (mid : List variable_entry_t) (last : variable_entry_t)
    (hd : ∀ g ∈ mid, g ≠ last) : last :: mid = mid ++ [last] ↔ mid = [] := by
  constructor
  · intro h
    cases mid with
    | nil => rfl
    | cons m ms =>
      simp only [List.cons_append, List.cons.injEq] at h
      exact absurd h.1.symm (hd m (by simp))
  · intro h
    subst h
    rfl

/-- Claim C33. `php_variable_unset` removes by swap-with-last compaction. In a table
with unique names whose entries are `pre`, then `x` in slot `i`, then `post`, unsetting
the name of `x` succeeds and leaves one entry fewer: `pre` as it was, then the last
entry of the table in slot `i` followed by the entries of `post` without that last one
(nothing, when `x` was itself the last entry). The remaining entries are in their
former order exactly when at most one entry stood behind `x`, that is when
`i ≥ n - 2`. -/
theorem unset_swaps_with_last (t : variable_table_t) (pre post : List variable_entry_t)
    (x : variable_entry_t) (nm : List Char) (hl : t.entries = pre ++ x :: post)
    (hx : x.name = some nm) (hu : names_unique t)
    (hnames : ∀ e ∈ t.entries, e.name.isSome = true) :
    php_variable_unset t (some nm) =
      (true, { t with entries := pre ++
        (match post.getLast? with
          | none => []
          | some last => last :: post.dropLast) }) ∧
    (php_variable_unset t (some nm)).2.entries.length + 1 = t.entries.length ∧
    ((php_variable_unset t (some nm)).2.entries = pre ++ post ↔
      t.entries.length ≤ pre.length + 2) := by
  have hxn := entry_named_own x nm hx
  have hu2 := hu
  unfold names_unique at hu2
  rw [hl] at hu2
  have hpre := unique_before_match nm pre post x hxn hu2
  have e := unset_split t nm pre post x hl hxn hpre
  rcases List.eq_nil_or_concat post with rfl | ⟨mid, last, hpost⟩
  · rw [e]
    refine ⟨by simp, by simp [hl], ?_⟩
    simp [hl]
  · rw [List.concat_eq_append] at hpost
    subst hpost
    have h1 : (mid ++ [last]).getLast? = some last := by simp
    have h2 : (mid ++ [last]).dropLast = mid := by simp
    rw [e]
    simp only [h1, h2]
    refine ⟨trivial, by simp [hl]; omega, ?_⟩
    have hd : ∀ g ∈ mid, g ≠ last := by
      intro g hg heq
      subst heq
      rw [List.map_append, List.pairwise_append] at hu2
      have h3 := hu2.2.1
      rw [List.map_cons, List.pairwise_cons] at h3
      have h4 := h3.2
      rw [List.map_append, List.pairwise_append] at h4
      have h5 := h4.2.2 g.name (List.mem_map_of_mem _ hg) g.name (by simp)
      have h6 := hnames g (by rw [hl]; simp [hg])
      cases hgn : g.name with
      | none => rw [hgn] at h6; cases h6
      | some n =>
        rw [hgn] at h5
        simp [same_name, strcmp_eq] at h5
    rw [List.append_cancel_left_eq, rotate_iff mid last hd, hl]
    simp only [List.length_append, List.length_cons, List.length_singleton, List.length_nil]
    constructor
    · intro h
      subst h
      simp
    · intro h
      have : mid.length = 0 := by omega
      exact List.length_eq_zero.mp this

theorem unset_swaps_with_last_witness :
    table_xyz.entries = [] ++ int_entry "x" 1 :: [int_entry "y" 2, int_entry "z" 3] ∧
    (int_entry "x" 1).name = some "x".toList ∧
    php_variable_unset table_xyz (some "x".toList) =
      (true, { entries := [int_entry "z" 3, int_entry "y" 2], capacity := 64 }) :=
  ⟨rfl, rfl,
    (unset_swaps_with_last table_xyz [] [int_entry "y" 2, int_entry "z" 3] (int_entry "x" 1)
      "x".toList rfl rfl (by unfold names_unique; decide) (by decide)).1⟩

theorem get_scan_skip (m : List Char) (a : variable_entry_t) (post : List variable_entry_t)
    (ha : entry_named m a = false) :
    ∀ pre : List variable_entry_t, get_scan m (pre ++ a :: post) = get_scan m (pre ++ post) := by
  intro pre
  induction pre with
  | nil => simp [get_scan, ha]
  | cons e rest ih => simp only [List.cons_append, get_scan, List.append_eq, ih]

theorem entry_named_other (name m : List Char) (x : variable_entry_t)
    (hx : entry_named name x = true) (hm : strcmp_eq m name = false) :
    entry_named m x = false := by
  cases hxn : x.name with
  | none => simp [entry_named, hxn]
  | some n =>
    simp only [entry_named, hxn, strcmp_eq, beq_iff_eq, beq_eq_false_iff_ne, ne_eq] at hx hm ⊢
    intro h
    exact hm (h.symm.trans hx)

/-! ## The variable interface of the engine -/

/-- Claim C31, the code at the failing input. On the engine built by `php_engine_init`,
`php_engine_set_variable("x", v)` with `v` the string value `hello` succeeds, and the
following `php_engine_get_variable("x")` finds nothing, whereas
`php_engine_get_variable("hello")` returns `v`: both scans compare the text of the
stored value with the name. -/
theorem engine_variable_keyed_by_text :
    (php_engine_set_variable (Engine.initialized (fun _ => [])) (some "x".toList)
        (some (php_value_create_string (some "hello".toList)))).map (fun r => r.1) =
      some true ∧
    (php_engine_set_variable (Engine.initialized (fun _ => [])) (some "x".toList)
        (some (php_value_create_string (some "hello".toList)))).bind
      (fun r => php_engine_get_variable r.2 (some "x".toList)) = some none ∧
    (php_engine_set_variable (Engine.initialized (fun _ => [])) (some "x".toList)
        (some (php_value_create_string (some "hello".toList)))).bind
      (fun r => php_engine_get_variable r.2 (some "hello".toList)) =
      some (some (php_value_create_string (some "hello".toList))) := by
  refine ⟨by decide, by decide, by decide⟩

/-! ## Allocation accounting -/

/-- Claim C40, the code at the failing input. With a `size_t` of 32 bits: after
`php_memory_init`, an allocation of 10 bytes and its reallocation to 20 bytes, the list
records one block of 20 bytes while `php_memory_get_usage` still returns 10; after the
block is freed the list is empty, `php_memory_get_usage` returns `2^32 - 10` and
`php_memory_get_peak_usage` returns 10. -/
theorem realloc_leaves_usage_stale :
    recorded_sizes (php_memory_realloc 32
      (php_memory_alloc 32 (php_memory_init ⟨[], 0, 0⟩).2 10 4096).2 4096 20 4096).2 = 20 ∧
    php_memory_get_usage (php_memory_realloc 32
      (php_memory_alloc 32 (php_memory_init ⟨[], 0, 0⟩).2 10 4096).2 4096 20 4096).2 = 10 ∧
    recorded_sizes (php_memory_free 32 (php_memory_realloc 32
      (php_memory_alloc 32 (php_memory_init ⟨[], 0, 0⟩).2 10 4096).2 4096 20 4096).2
      4096) = 0 ∧
    php_memory_get_usage (php_memory_free 32 (php_memory_realloc 32
      (php_memory_alloc 32 (php_memory_init ⟨[], 0, 0⟩).2 10 4096).2 4096 20 4096).2
      4096) = 4294967286 ∧
    php_memory_get_peak_usage (php_memory_free 32 (php_memory_realloc 32
      (php_memory_alloc 32 (php_memory_init ⟨[], 0, 0⟩).2 10 4096).2 4096 20 4096).2
      4096) = 10 := by
  refine ⟨by decide, by decide, by decide, by decide, by decide⟩

/-! ## The lexer: bookkeeping of the scan state -/

theorem strlen_eq_cstr_length (s : List Char) : strlen s = (cstr s).length := by
  induction s with
  | nil => rfl
  | cons c cs ih =>
    by_cases h : c = NUL
    · simp [strlen, cstr, h]
    · simp [strlen, cstr, h, ih]

theorem rest_length (p : parser_state_t) : p.rest.length = strlen p.source - p.position := by
  simp [parser_state_t.rest, strlen_eq_cstr_length]

theorem rest_of_position (p q : parser_state_t) (k : Nat) (hs : q.source = p.source)
    (hp : q.position = p.position + k) : q.rest = p.rest.drop k := by
  simp only [parser_state_t.rest, hs, hp, List.drop_drop]

theorem line_after_append (l : Nat) (a b : List Char) :
    line_after l (a ++ b) = line_after (line_after l a) b := by
  simp [line_after, List.count_append, Nat.add_assoc]

theorem column_after_append (c : Nat) (a b : List Char) :
    column_after c (a ++ b) = column_after (column_after c a) b := by
  simp [column_after, List.foldl_append]

theorem advance_advance (a b : List Char) (p : parser_state_t) :
    advance b (advance a p) = advance (a ++ b) p := by
  simp [advance, line_after_append, column_after_append, Nat.add_assoc]

theorem advance_nil (p : parser_state_t) : advance [] p = p := by
  simp [advance, line_after, column_after]

theorem advance_rest (chunk : List Char) (p : parser_state_t) :
    (advance chunk p).rest = p.rest.drop chunk.length :=
  rest_of_position p (advance chunk p) chunk.length rfl rfl

theorem step_counted_eq (c : Char) (p : parser_state_t) : step_counted c p = advance [c] p := by
  by_cases h : c = '\n'
  · simp [step_counted, advance, line_after, column_after, h]
  · have hc : List.count '\n' [c] = 0 :=
      List.count_eq_zero_of_not_mem (by simpa using Ne.symm h)
    simp [step_counted, advance, line_after, column_after, h, hc]

theorem line_after_no_newline (l : Nat) (chunk : List Char) (h : '\n' ∉ chunk) :
    line_after l chunk = l := by
  simp [line_after, List.count_eq_zero_of_not_mem h]

theorem column_after_no_newline (c : Nat) (chunk : List Char) (h : '\n' ∉ chunk) :
    column_after c chunk = c + chunk.length := by
  induction chunk generalizing c with
  | nil => rfl
  | cons x xs ih =>
    have hx : x ≠ '\n' := fun e => h (by simp [e])
    have hxs : '\n' ∉ xs := fun e => h (by simp [e])
    have e : column_after c (x :: xs) = column_after (c + 1) xs := by
      simp [column_after, hx]
    rw [e, ih (c + 1) hxs, List.length_cons]
    omega

theorem advance_no_newline (chunk : List Char) (p : parser_state_t) (h : '\n' ∉ chunk) :
    advance chunk p =
      { p with position := p.position + chunk.length, column := p.column + chunk.length } := by
  simp [advance, line_after_no_newline _ _ h, column_after_no_newline _ _ h]

theorem line_comment_loop_eq (view : List Char) : ∀ p : parser_state_t,
    line_comment_loop view p =
      { p with position := p.position + (view.takeWhile (fun ch => ch != '\n')).length } := by
  induction view with
  | nil => intro p; rfl
  | cons c cs ih =>
    intro p
    by_cases h : c = '\n'
    · simp [line_comment_loop, h]
    · simp [line_comment_loop, h, ih, Nat.add_assoc, Nat.add_comm 1]

theorem block_comment_loop_eq : ∀ (n : Nat) (view : List Char), view.length = n →
    ∀ p : parser_state_t,
    block_comment_loop view p = advance (view.take (block_comment_length view)) p := by
  intro n
  induction n with
  | zero =>
    intro view hv p
    have : view = [] := List.length_eq_zero.mp hv
    subst this
    simp [block_comment_loop, block_comment_length, advance_nil]
  | succ n ih =>
    intro view hv p
    match view, hv with
    | [c], _ => simp [block_comment_loop, block_comment_length, advance_nil]
    | c :: d :: cs, hv =>
      by_cases h : (c == '*' && d == '/') = true
      · have hc : c = '*' ∧ d = '/' := by simpa using h
        simp only [block_comment_loop, block_comment_length, h, if_true]
        rw [show List.take 2 (c :: d :: cs) = [c, d] from rfl, hc.1, hc.2]
        simp [advance, line_after, column_after]
      · simp only [block_comment_loop, block_comment_length, h, if_false, Bool.false_eq_true]
        have hl : (d :: cs).length = n := by simpa using hv
        rw [ih (d :: cs) hl, step_counted_eq, advance_advance]
        rfl

theorem string_loop_eq (quote : Char) (view : List Char) : ∀ (p : parser_state_t) (len : Nat),
    string_loop quote view p len =
      (advance (view.takeWhile (fun ch => ch != quote)) p,
        len + (view.takeWhile (fun ch => ch != quote)).length) := by
  induction view with
  | nil => intro p len; simp [string_loop, advance_nil]
  | cons c cs ih =>
    intro p len
    by_cases h : c = quote
    · simp [string_loop, h, advance_nil]
    · simp only [string_loop, bne_iff_ne, ne_eq, h, not_false_eq_true, if_true,
        List.takeWhile_cons, ih, step_counted_eq, advance_advance, List.length_cons]
      simp only [List.singleton_append, Prod.mk.injEq, true_and]
      omega

theorem number_loop_eq (view : List Char) : ∀ (p : parser_state_t) (len : Nat),
    number_loop view p len =
      ({ p with
          position := p.position + (view.takeWhile (fun c => isdigit c || c == '.')).length
          column := p.column + (view.takeWhile (fun c => isdigit c || c == '.')).length },
        len + (view.takeWhile (fun c => isdigit c || c == '.')).length) := by
  induction view with
  | nil => intro p len; simp [number_loop]
  | cons c cs ih =>
    intro p len
    by_cases h : (isdigit c || c == '.') = true
    · simp only [number_loop, h, if_true, List.takeWhile_cons, ih, List.length_cons]
      simp only [Prod.mk.injEq, parser_state_t.mk.injEq, true_and]
      omega
    · simp [number_loop, h]

theorem identifier_loop_eq (view : List Char) : ∀ (p : parser_state_t) (len : Nat),
    identifier_loop view p len =
      ({ p with
          position := p.position + (view.takeWhile (fun c => isalnum c || c == '_')).length
          column := p.column + (view.takeWhile (fun c => isalnum c || c == '_')).length },
        len + (view.takeWhile (fun c => isalnum c || c == '_')).length) := by
  induction view with
  | nil => intro p len; simp [identifier_loop]
  | cons c cs ih =>
    intro p len
    by_cases h : (isalnum c || c == '_') = true
    · simp only [identifier_loop, h, if_true, List.takeWhile_cons, ih, List.length_cons]
      simp only [Prod.mk.injEq, parser_state_t.mk.injEq, true_and]
      omega
    · simp [identifier_loop, h]

theorem column_after_newline (c : Nat) (pre : List Char) :
    column_after c (pre ++ ['\n']) = 1 := by
  simp [column_after, List.foldl_append]

theorem block_comment_length_le : ∀ (n : Nat) (view : List Char), view.length = n →
    block_comment_length view ≤ view.length := by
  intro n
  induction n with
  | zero =>
    intro view hv
    have : view = [] := List.length_eq_zero.mp hv
    subst this
    simp [block_comment_length]
  | succ n ih =>
    intro view hv
    match view, hv with
    | [c], _ => simp [block_comment_length]
    | c :: d :: cs, hv =>
      by_cases h : (c == '*' && d == '/') = true
      · simp [block_comment_length, h]
      · have hl : (d :: cs).length = n := by simpa using hv
        have := ih (d :: cs) hl
        simp only [block_comment_length, h, if_false, Bool.false_eq_true, List.length_cons] at this ⊢
        omega

theorem takeWhile_rest_head (view : List Char) :
    view.dropWhile (fun ch => ch != '\n') = [] ∨
      (view.dropWhile (fun ch => ch != '\n')).head? = some '\n' := by
  induction view with
  | nil => left; rfl
  | cons c cs ih =>
    by_cases h : c = '\n'
    · right
      subst h
      rfl
    · have e : (c != '\n') = true := by simpa using h
      rw [List.dropWhile_cons, if_pos e]
      exact ih

theorem drop_takeWhile_length (f : Char → Bool) (l : List Char) :
    l.drop (l.takeWhile f).length = l.dropWhile f := by
  induction l with
  | nil => rfl
  | cons c cs ih =>
    by_cases h : f c = true
    · rw [List.takeWhile_cons, if_pos h, List.dropWhile_cons, if_pos h, List.length_cons,
        List.drop_succ_cons, ih]
    · rw [List.takeWhile_cons, if_neg h, List.dropWhile_cons, if_neg h]
      rfl

theorem not_mem_takeWhile_ne (q : Char) (view : List Char) :
    q ∉ view.takeWhile (fun ch => ch != q) := by
  intro h
  have := List.mem_takeWhile_imp h
  simp at this

theorem pass_space (p : parser_state_t) (current : Char) (after : List Char)
    (h : p.rest = current :: after) (hsp : isspace current = true) (f : Nat) :
    Lexer.skip_whitespace_loop (f + 1) p = Lexer.skip_whitespace_loop f (advance [current] p) := by
  simp only [Lexer.skip_whitespace_loop, h, hsp, if_true, step_counted_eq]

theorem pass_stop (p : parser_state_t) (current : Char) (after : List Char)
    (h : p.rest = current :: after) (hsp : isspace current = false)
    (hlc : (current == '/' && after.head? == some '/') = false)
    (hbc : (current == '/' && after.head? == some '*') = false) (f : Nat) :
    Lexer.skip_whitespace_loop (f + 1) p = some p := by
  simp only [Lexer.skip_whitespace_loop, h, hsp, hlc, hbc, Bool.false_eq_true, if_false]

theorem pass_nil (p : parser_state_t) (h : p.rest = []) (f : Nat) :
    Lexer.skip_whitespace_loop (f + 1) p = some p := by
  simp only [Lexer.skip_whitespace_loop, h]

theorem isspace_slash : isspace '/' = false := by decide

theorem pass_line (p : parser_state_t) (t : List Char)
    (h : p.rest = '/' :: '/' :: t) (f : Nat) :
    Lexer.skip_whitespace_loop (f + 1) p =
      Lexer.skip_whitespace_loop f
        { p with position := p.position +
          (('/' :: '/' :: t).takeWhile (fun ch => ch != '\n')).length } := by
  simp only [Lexer.skip_whitespace_loop, h, isspace_slash, Bool.false_eq_true, if_false,
    line_comment_loop_eq, List.head?_cons, beq_self_eq_true, Bool.and_self, if_true]

theorem pass_block (p : parser_state_t) (t : List Char)
    (h : p.rest = '/' :: '*' :: t) (f : Nat) :
    Lexer.skip_whitespace_loop (f + 1) p =
      Lexer.skip_whitespace_loop f
        (advance (['/', '*'] ++ t.take (block_comment_length t)) p) := by
  have h1 : (('/' : Char) == '/' && (some '*' : Option Char) == some '/') = false := by decide
  have h2 : (('/' : Char) == '/' && (some '*' : Option Char) == some '*') = true := by decide
  simp only [Lexer.skip_whitespace_loop, h, isspace_slash, Bool.false_eq_true, if_false,
    List.head?_cons, h1, h2, if_true, List.tail_cons]
  rw [block_comment_loop_eq t.length t rfl, ← advance_advance]
  congr 2

/-- One pass of the outer loop of `skip_whitespace` over the bytes `current :: after`:
either the loop ends there, on a byte that is no whitespace, or the pass steps over a
non-empty run `chunk` of these bytes, the same for every state that has them left, and
the loop goes on from the state the pass leaves. -/
theorem skip_pass (current : Char) (after : List Char) :
    ((∀ p : parser_state_t, p.rest = current :: after →
        ∀ f, Lexer.skip_whitespace_loop (f + 1) p = some p) ∧ isspace current = false) ∨
    ∃ chunk, chunk ≠ [] ∧ ∀ p : parser_state_t, p.rest = current :: after →
      ∃ n, (∀ f, Lexer.skip_whitespace_loop (f + 1) p = Lexer.skip_whitespace_loop f n) ∧
        n.source = p.source ∧ n.position = p.position + chunk.length ∧
        p.rest = chunk ++ n.rest ∧ n.line = line_after p.line chunk ∧
        (∀ col0 pre, (p.column = column_after col0 pre ∨ p.rest.head? = some '\n') →
          (n.column = column_after col0 (pre ++ chunk) ∨ n.rest = [] ∨
            n.rest.head? = some '\n')) := by
  by_cases hsp : isspace current = true
  · right
    refine ⟨[current], by simp, ?_⟩
    intro p h
    refine ⟨advance [current] p, pass_space p current after h hsp, rfl, rfl, ?_, rfl, ?_⟩
    · rw [advance_rest, h]
      rfl
    · intro col0 pre hc
      left
      by_cases hn : current = '\n'
      · subst hn
        rw [column_after_newline]
        simp [advance, column_after]
      · rcases hc with hc | hc
        · simp only [advance, hc, column_after_append]
        · rw [h] at hc
          simp only [List.head?_cons, Option.some.injEq] at hc
          exact absurd hc hn
  · have hsp2 : isspace current = false := by simpa using hsp
    have hnl : current ≠ '\n' := by
      intro e
      rw [e] at hsp2
      simp [isspace] at hsp2
    have hcol : ∀ (p : parser_state_t), p.rest = current :: after → ∀ col0 pre,
        (p.column = column_after col0 pre ∨ p.rest.head? = some '\n') →
        p.column = column_after col0 pre := by
      intro p h col0 pre hc
      rcases hc with hc | hc
      · exact hc
      · rw [h] at hc
        simp only [List.head?_cons, Option.some.injEq] at hc
        exact absurd hc hnl
    by_cases hlc : (current == '/' && after.head? == some '/') = true
    · right
      have hc2 : current = '/' ∧ after.head? = some '/' := by simpa using hlc
      obtain ⟨t, ht⟩ : ∃ t, after = '/' :: t := by
        cases after with
        | nil => simp at hc2
        | cons a t =>
          simp only [List.head?_cons, Option.some.injEq] at hc2
          exact ⟨t, by rw [hc2.2]⟩
      have hcur := hc2.1
      subst hcur
      subst ht
      have hn : ('/' :: '/' :: t).takeWhile (fun ch => ch != '\n') ≠ [] := by
        rw [List.takeWhile_cons, if_pos (by decide)]
        simp
      refine ⟨('/' :: '/' :: t).takeWhile (fun ch => ch != '\n'), hn, ?_⟩
      intro p h
      have hr : ({ p with position := p.position +
          (('/' :: '/' :: t).takeWhile (fun ch => ch != '\n')).length } : parser_state_t).rest =
          ('/' :: '/' :: t).dropWhile (fun ch => ch != '\n') := by
        rw [rest_of_position p ({ p with position := p.position +
            (('/' :: '/' :: t).takeWhile (fun ch => ch != '\n')).length } : parser_state_t)
          (('/' :: '/' :: t).takeWhile (fun ch => ch != '\n')).length rfl rfl, h,
          drop_takeWhile_length]
      refine ⟨_, pass_line p t h, rfl, rfl, ?_, ?_, ?_⟩
      · rw [hr, h]
        exact (List.takeWhile_append_dropWhile _ _).symm
      · rw [line_after_no_newline]
        exact not_mem_takeWhile_ne '\n' _
      · intro col0 pre _
        right
        rw [hr]
        exact takeWhile_rest_head _
    · have hlc2 : (current == '/' && after.head? == some '/') = false := by simpa using hlc
      by_cases hbc : (current == '/' && after.head? == some '*') = true
      · right
        have hc2 : current = '/' ∧ after.head? = some '*' := by simpa using hbc
        obtain ⟨t, ht⟩ : ∃ t, after = '*' :: t := by
          cases after with
          | nil => simp at hc2
          | cons a t =>
            simp only [List.head?_cons, Option.some.injEq] at hc2
            exact ⟨t, by rw [hc2.2]⟩
        have hcur := hc2.1
        subst hcur
        subst ht
        have hm := block_comment_length_le t.length t rfl
        refine ⟨['/', '*'] ++ t.take (block_comment_length t), by simp, ?_⟩
        intro p h
        refine ⟨_, pass_block p t h, rfl, rfl, ?_, rfl, ?_⟩
        · rw [advance_rest, h]
          simp only [List.length_append, List.length_cons, List.length_nil, List.length_take,
            Nat.min_eq_left hm, List.cons_append, List.nil_append]
          simp only [List.drop_succ_cons, List.take_append_drop]
        · intro col0 pre hc
          left
          simp only [advance, hcol p h col0 pre hc, column_after_append]
      · left
        have hbc2 : (current == '/' && after.head? == some '*') = false := by simpa using hbc
        exact ⟨fun p h f => pass_stop p current after h hsp2 hlc2 hbc2 f, hsp2⟩

/-! ## The lexer: the whitespace loop as a whole -/

theorem rest_cases (p : parser_state_t) : p.rest = [] ∨ ∃ c a, p.rest = c :: a := by
  cases p.rest with
  | nil => exact Or.inl rfl
  | cons c a => exact Or.inr ⟨c, a, rfl⟩

/-- With more passes allowed than bytes are left, the loop of `skip_whitespace` ends. It
steps over a run `chunk` of the bytes left, keeps the line exact, keeps the column exact
unless no byte is left, and ends on a byte that is no whitespace. -/
theorem skip_loop_spec : ∀ (f : Nat) (p : parser_state_t), p.rest.length < f →
    ∃ q chunk, Lexer.skip_whitespace_loop f p = some q ∧ q.source = p.source ∧
      q.position = p.position + chunk.length ∧ p.rest = chunk ++ q.rest ∧
      q.line = line_after p.line chunk ∧
      (∀ col0 pre, (p.column = column_after col0 pre ∨ p.rest.head? = some '\n') →
        (q.column = column_after col0 (pre ++ chunk) ∨ q.rest = [])) ∧
      (∀ c a, q.rest = c :: a → isspace c = false) := by
  intro f
  induction f with
  | zero => intro p h; omega
  | succ f ih =>
    intro p hlen
    rcases rest_cases p with hr | ⟨current, after, hr⟩
    ·
      refine ⟨p, [], pass_nil p hr f, rfl, rfl, by simp [hr], rfl, ?_, ?_⟩
      · intro _ _ _
        right
        exact hr
      · intro c a h
        rw [hr] at h
        cases h
    · rcases skip_pass current after with ⟨hstop, hsp⟩ | ⟨chunk0, hne, hgo⟩
      · refine ⟨p, [], hstop p hr f, rfl, rfl, by simp [hr], rfl, ?_, ?_⟩
        · intro col0 pre hc
          left
          rw [List.append_nil]
          rcases hc with hc | hc
          · exact hc
          · rw [hr] at hc
            simp only [List.head?_cons, Option.some.injEq] at hc
            rw [hc] at hsp
            simp [isspace] at hsp
        · intro c a h
          rw [hr] at h
          cases h
          exact hsp
      · obtain ⟨n, hloop, hs, hp, hrest, hline, hcol⟩ := hgo p hr
        have hnlen : n.rest.length < f := by
          have := congrArg List.length hrest
          rw [List.length_append] at this
          have h0 : 0 < chunk0.length := List.length_pos.mpr hne
          omega
        obtain ⟨q, chunk1, h1, h2, h3, h4, h5, h6, h7⟩ := ih n hnlen
        refine ⟨q, chunk0 ++ chunk1, by rw [hloop f, h1], by rw [h2, hs], ?_, ?_, ?_, ?_, h7⟩
        · rw [h3, hp, List.length_append, Nat.add_assoc]
        · rw [hrest, h4, List.append_assoc]
        · rw [h5, hline, line_after_append]
        · intro col0 pre hc
          rcases hcol col0 pre hc with hx | hx | hx
          · have := h6 col0 (pre ++ chunk0) (Or.inl hx)
            rw [List.append_assoc] at this
            exact this
          · right
            rw [hx] at h4
            have := congrArg List.length h4
            simp only [List.length_nil, List.length_append] at this
            exact List.length_eq_zero.mp (by omega)
          · have := h6 col0 (pre ++ chunk0) (Or.inr hx)
            rw [List.append_assoc] at this
            exact this

theorem skip_loop_mono : ∀ (f : Nat) (p q : parser_state_t),
    Lexer.skip_whitespace_loop f p = some q →
    ∀ g, f ≤ g → Lexer.skip_whitespace_loop g p = some q := by
  intro f
  induction f with
  | zero => intro p q h; simp [Lexer.skip_whitespace_loop] at h
  | succ f ih =>
    intro p q h g hg
    obtain ⟨g2, rfl⟩ : ∃ g2, g = g2 + 1 := ⟨g - 1, by omega⟩
    rcases rest_cases p with hr | ⟨current, after, hr⟩
    ·
      rw [pass_nil p hr] at h ⊢
      exact h
    · rcases skip_pass current after with ⟨hstop, _⟩ | ⟨chunk0, _, hgo⟩
      · rw [hstop p hr] at h ⊢
        exact h
      · obtain ⟨n, hloop, _⟩ := hgo p hr
        rw [hloop] at h ⊢
        exact ih n q h g2 (by omega)

/-- The loop of `skip_whitespace` steps over the same bytes from every state that has
the same bytes left. -/
theorem skip_loop_sim : ∀ (f : Nat) (p p2 q : parser_state_t), p.rest = p2.rest →
    Lexer.skip_whitespace_loop f p = some q →
    ∃ q2, Lexer.skip_whitespace_loop f p2 = some q2 ∧ q.rest = q2.rest := by
  intro f
  induction f with
  | zero => intro p p2 q _ h; simp [Lexer.skip_whitespace_loop] at h
  | succ f ih =>
    intro p p2 q hR h
    rcases rest_cases p with hr | ⟨current, after, hr⟩
    ·
      have hr2 : p2.rest = [] := by rw [← hR, hr]
      rw [pass_nil p hr] at h
      cases h
      exact ⟨p2, pass_nil p2 hr2 f, hR⟩
    · have hr2 : p2.rest = current :: after := by rw [← hR, hr]
      rcases skip_pass current after with ⟨hstop, _⟩ | ⟨chunk0, _, hgo⟩
      · rw [hstop p hr] at h
        cases h
        exact ⟨p2, hstop p2 hr2 f, hR⟩
      · obtain ⟨n, hloop, _, _, hrest, _⟩ := hgo p hr
        obtain ⟨n2, hloop2, _, _, hrest2, _⟩ := hgo p2 hr2
        rw [hloop] at h
        have hn : n.rest = n2.rest := by
          rw [hR, hrest2] at hrest
          exact (List.append_cancel_left hrest).symm
        obtain ⟨q2, h1, h2⟩ := ih n n2 q hn h
        exact ⟨q2, by rw [hloop2, h1], h2⟩

theorem skip_whitespace_spec (p : parser_state_t) :
    ∃ q chunk, Lexer.skip_whitespace p = some q ∧ q.source = p.source ∧
      q.position = p.position + chunk.length ∧ p.rest = chunk ++ q.rest ∧
      q.line = line_after p.line chunk ∧
      (∀ col0 pre, p.column = column_after col0 pre →
        (q.column = column_after col0 (pre ++ chunk) ∨ q.rest = [])) ∧
      (∀ c a, q.rest = c :: a → isspace c = false) := by
  obtain ⟨q, chunk, h1, h2, h3, h4, h5, h6, h7⟩ :=
    skip_loop_spec (p.rest.length + 1) p (Nat.lt_succ_self _)
  exact ⟨q, chunk, h1, h2, h3, h4, h5, fun col0 pre hc => h6 col0 pre (Or.inl hc), h7⟩

theorem skip_whitespace_sim (p p2 q : parser_state_t) (hR : p.rest = p2.rest)
    (h : Lexer.skip_whitespace p = some q) :
    ∃ q2, Lexer.skip_whitespace p2 = some q2 ∧ q.rest = q2.rest := by
  unfold Lexer.skip_whitespace at h ⊢
  rw [← hR]
  exact skip_loop_sim _ p p2 q hR h

/-! ## The lexer: one token -/

theorem class_of_mem (l : List Char) (P : Char → Prop) (h : ∀ x ∈ l, P x) (c : Char)
    (hc : l.contains c = true) : P c := by
  apply h
  simpa using hc

theorem isdigit_facts (c : Char) (h : isdigit c = true) :
    (c == DQUOTE || c == SQUOTE) = false ∧ c ≠ '\n' ∧ c ≠ NUL :=
  class_of_mem _ (fun c => (c == DQUOTE || c == SQUOTE) = false ∧ c ≠ '\n' ∧ c ≠ NUL)
    (by decide) c h

theorem isalpha_facts (c : Char) (h : isalpha c = true) :
    (c == DQUOTE || c == SQUOTE) = false ∧ isdigit c = false ∧ c ≠ '\n' ∧ c ≠ NUL :=
  class_of_mem _
    (fun c => (c == DQUOTE || c == SQUOTE) = false ∧ isdigit c = false ∧ c ≠ '\n' ∧ c ≠ NUL)
    (by decide) c h

theorem number_byte_facts (c : Char) (h : (isdigit c || c == '.') = true) :
    c ≠ '\n' ∧ c ≠ NUL := by
  rcases Bool.or_eq_true_iff.mp h with h | h
  · exact (isdigit_facts c h).2
  · have := beq_iff_eq.mp h
    subst this
    exact ⟨by decide, by decide⟩

theorem identifier_byte_facts (c : Char) (h : (isalnum c || c == '_') = true) :
    c ≠ '\n' ∧ c ≠ NUL := by
  rcases Bool.or_eq_true_iff.mp h with h | h
  · rcases Bool.or_eq_true_iff.mp h with h | h
    · exact (isalpha_facts c h).2.2
    · exact (isdigit_facts c h).2
  · have := beq_iff_eq.mp h
    subst this
    exact ⟨by decide, by decide⟩

theorem identifier_start_facts (c : Char) (h : (isalpha c || c == '_') = true) :
    (c == DQUOTE || c == SQUOTE) = false ∧ isdigit c = false ∧
      (isalnum c || c == '_') = true := by
  rcases Bool.or_eq_true_iff.mp h with h | h
  · have := isalpha_facts c h
    exact ⟨this.1, this.2.1, by simp [isalnum, h]⟩
  · have := beq_iff_eq.mp h
    subst this
    exact ⟨by decide, by decide, by decide⟩

theorem take_takeWhile_length (f : Char → Bool) (l : List Char) :
    l.take (l.takeWhile f).length = l.takeWhile f := by
  induction l with
  | nil => rfl
  | cons c cs ih =>
    by_cases h : f c = true
    · rw [List.takeWhile_cons, if_pos h, List.length_cons, List.take_succ_cons, ih]
    · rw [List.takeWhile_cons, if_neg h]
      rfl

theorem no_newline_takeWhile (f : Char → Bool) (l : List Char) (hf : f '\n' = false) :
    '\n' ∉ l.takeWhile f := by
  intro h
  have := List.mem_takeWhile_imp h
  rw [hf] at this
  cases this

theorem dropWhile_head (f : Char → Bool) (l : List Char) (x : Char) (xs : List Char)
    (h : l.dropWhile f = x :: xs) : f x = false := by
  induction l with
  | nil => cases h
  | cons c cs ih =>
    by_cases hc : f c = true
    · rw [List.dropWhile_cons, if_pos hc] at h
      exact ih h
    · rw [List.dropWhile_cons, if_neg hc] at h
      cases h
      simpa using hc

theorem position_lt_strlen (p : parser_state_t) :
    p.position < strlen p.source ↔ p.rest ≠ [] := by
  have := rest_length p
  constructor
  · intro h hr
    rw [hr] at this
    simp only [List.length_nil] at this
    omega
  · intro h
    have : 0 < p.rest.length := List.length_pos.mpr h
    omega

theorem bump_eq_advance (c : Char) (p : parser_state_t) (h : c ≠ '\n') :
    ({ p with position := p.position + 1, column := p.column + 1 } : parser_state_t) =
      advance [c] p := by
  rw [advance_no_newline [c] p (by simpa using Ne.symm h)]
  rfl

theorem quote_ne_newline (quote : Char) (hq : (quote == DQUOTE || quote == SQUOTE) = true) :
    quote ≠ '\n' := by
  rcases Bool.or_eq_true_iff.mp hq with h | h
  · have := beq_iff_eq.mp h
    subst this
    decide
  · have := beq_iff_eq.mp h
    subst this
    decide

theorem next_token_eof (p q : parser_state_t) (h : Lexer.skip_whitespace p = some q)
    (hr : q.rest = []) :
    next_token p =
      some ({ type := .TOKEN_EOF, value := none, length := 0, line := 0, column := 0 }, q) := by
  simp only [next_token, h, hr]

/-- The string branch of `next_token`: the text is what follows the opening quote up to
the first following quote character or the end of the source; the scan steps over the
opening quote, the text and, when it is there, the closing quote. -/
theorem next_token_string (p q : parser_state_t) (quote : Char) (after : List Char)
    (h : Lexer.skip_whitespace p = some q) (hr : q.rest = quote :: after)
    (hq : (quote == DQUOTE || quote == SQUOTE) = true) :
    next_token p =
      some ({ type := .TOKEN_STRING, value := some (after.takeWhile (fun ch => ch != quote)),
              length := (after.takeWhile (fun ch => ch != quote)).length,
              line := q.line, column := q.column },
        advance (quote :: after.takeWhile (fun ch => ch != quote) ++
          (after.dropWhile (fun ch => ch != quote)).take 1) q) := by
  have hnl := quote_ne_newline quote hq
  simp only [next_token, h, hr, hq, if_true, string_loop_eq, Nat.zero_add,
    take_takeWhile_length, bump_eq_advance quote q hnl, advance_advance]
  have hrest : (advance ([quote] ++ after.takeWhile (fun ch => ch != quote)) q).rest =
      after.dropWhile (fun ch => ch != quote) := by
    rw [advance_rest, hr]
    simp only [List.singleton_append, List.length_cons, List.drop_succ_cons,
      drop_takeWhile_length]
  have hsrc : (advance ([quote] ++ after.takeWhile (fun ch => ch != quote)) q).source =
      q.source := rfl
  rcases hd : after.dropWhile (fun ch => ch != quote) with _ | ⟨x, xs⟩
  · have hno : ¬ (advance ([quote] ++ after.takeWhile (fun ch => ch != quote)) q).position <
        strlen (advance ([quote] ++ after.takeWhile (fun ch => ch != quote)) q).source := by
      rw [position_lt_strlen, hrest, hd]
      simp
    rw [if_neg hno]
    simp
  · have hyes : (advance ([quote] ++ after.takeWhile (fun ch => ch != quote)) q).position <
        strlen (advance ([quote] ++ after.takeWhile (fun ch => ch != quote)) q).source := by
      rw [position_lt_strlen, hrest, hd]
      simp
    have hx : x = quote := by
      have := dropWhile_head _ _ x xs hd
      simpa using this
    rw [if_pos hyes, bump_eq_advance quote _ hnl, advance_advance, hx]
    simp

/-- The number branch of `next_token`. -/
theorem next_token_number (p q : parser_state_t) (c : Char) (a : List Char)
    (h : Lexer.skip_whitespace p = some q) (hr : q.rest = c :: a) (hd : isdigit c = true) :
    next_token p =
      some ({ type := .TOKEN_NUMBER,
              value := some ((c :: a).takeWhile (fun c => isdigit c || c == '.')),
              length := ((c :: a).takeWhile (fun c => isdigit c || c == '.')).length,
              line := q.line, column := q.column },
        advance ((c :: a).takeWhile (fun c => isdigit c || c == '.')) q) := by
  have hq := (isdigit_facts c hd).1
  have hn : '\n' ∉ (c :: a).takeWhile (fun c => isdigit c || c == '.') :=
    no_newline_takeWhile _ _ (by decide)
  simp only [next_token, h, hr, hq, Bool.false_eq_true, if_false, hd, if_true, number_loop_eq,
    Nat.zero_add, take_takeWhile_length, advance_no_newline _ q hn]

/-- The identifier branch of `next_token`. -/
theorem next_token_identifier (p q : parser_state_t) (c : Char) (a : List Char)
    (h : Lexer.skip_whitespace p = some q) (hr : q.rest = c :: a)
    (ha : (isalpha c || c == '_') = true) :
    next_token p =
      some ({ type := if is_keyword ((c :: a).takeWhile (fun c => isalnum c || c == '_'))
                then .TOKEN_KEYWORD else .TOKEN_IDENTIFIER,
              value := some ((c :: a).takeWhile (fun c => isalnum c || c == '_')),
              length := ((c :: a).takeWhile (fun c => isalnum c || c == '_')).length,
              line := q.line, column := q.column },
        advance ((c :: a).takeWhile (fun c => isalnum c || c == '_')) q) := by
  obtain ⟨hq, hd, _⟩ := identifier_start_facts c ha
  have hn : '\n' ∉ (c :: a).takeWhile (fun c => isalnum c || c == '_') :=
    no_newline_takeWhile _ _ (by decide)
  simp only [next_token, h, hr, hq, Bool.false_eq_true, if_false, hd, ha, if_true,
    identifier_loop_eq, Nat.zero_add, take_takeWhile_length, advance_no_newline _ q hn]

/-- The last branch of `next_token`: any other byte is an operator of one byte. -/
theorem next_token_operator (p q : parser_state_t) (c : Char) (a : List Char)
    (h : Lexer.skip_whitespace p = some q) (hr : q.rest = c :: a)
    (hq : (c == DQUOTE || c == SQUOTE) = false) (hd : isdigit c = false)
    (ha : (isalpha c || c == '_') = false) (hs : isspace c = false) :
    next_token p =
      some ({ type := .TOKEN_OPERATOR, value := some [c], length := 1,
              line := q.line, column := q.column }, advance [c] q) := by
  have hnl : c ≠ '\n' := by
    intro e
    rw [e] at hs
    simp [isspace] at hs
  simp only [next_token, h, hr, hq, Bool.false_eq_true, if_false, hd, ha,
    bump_eq_advance c q hnl]

/-! ## The lexer: the token at a byte, progress and independence of the counters -/

/-- The token that `next_token` returns on a byte `c` that is no whitespace, followed by
`a`: its kind, its text and the run of bytes it steps over depend on these bytes only. -/
theorem token_at (c : Char) (a : List Char) (hs : isspace c = false) :
    ∃ (ty : token_type_t) (val chunk r : List Char),
      ty ≠ .TOKEN_EOF ∧ chunk ≠ [] ∧ c :: a = chunk ++ r ∧
      ∀ p q : parser_state_t, Lexer.skip_whitespace p = some q → q.rest = c :: a →
        next_token p =
          some ({ type := ty, value := some val, length := val.length,
                  line := q.line, column := q.column }, advance chunk q) := by
  by_cases hq : (c == DQUOTE || c == SQUOTE) = true
  · refine ⟨.TOKEN_STRING, a.takeWhile (fun ch => ch != c),
      c :: a.takeWhile (fun ch => ch != c) ++ (a.dropWhile (fun ch => ch != c)).take 1,
      (a.dropWhile (fun ch => ch != c)).drop 1, by decide, by simp, ?_, ?_⟩
    · simp only [List.cons_append, List.append_assoc, List.take_append_drop,
        List.takeWhile_append_dropWhile]
    · intro p q h hr
      exact next_token_string p q c a h hr hq
  · have hq2 : (c == DQUOTE || c == SQUOTE) = false := by simpa using hq
    by_cases hd : isdigit c = true
    · refine ⟨.TOKEN_NUMBER, (c :: a).takeWhile (fun c => isdigit c || c == '.'),
        (c :: a).takeWhile (fun c => isdigit c || c == '.'),
        (c :: a).dropWhile (fun c => isdigit c || c == '.'), by decide, ?_,
        (List.takeWhile_append_dropWhile _ _).symm, ?_⟩
      · rw [List.takeWhile_cons, if_pos (by simp [hd])]
        simp
      · intro p q h hr
        exact next_token_number p q c a h hr hd
    · have hd2 : isdigit c = false := by simpa using hd
      by_cases ha : (isalpha c || c == '_') = true
      · have hstart := (identifier_start_facts c ha).2.2
        refine ⟨if is_keyword ((c :: a).takeWhile (fun c => isalnum c || c == '_'))
            then .TOKEN_KEYWORD else .TOKEN_IDENTIFIER,
          (c :: a).takeWhile (fun c => isalnum c || c == '_'),
          (c :: a).takeWhile (fun c => isalnum c || c == '_'),
          (c :: a).dropWhile (fun c => isalnum c || c == '_'), ?_, ?_,
          (List.takeWhile_append_dropWhile _ _).symm, ?_⟩
        · split <;> decide
        · rw [List.takeWhile_cons, if_pos hstart]
          simp
        · intro p q h hr
          exact next_token_identifier p q c a h hr ha
      · have ha2 : (isalpha c || c == '_') = false := by simpa using ha
        refine ⟨.TOKEN_OPERATOR, [c], [c], a, by decide, by simp, rfl, ?_⟩
        intro p q h hr
        exact next_token_operator p q c a h hr hq2 hd2 ha2 hs

/-- `next_token` returns on every state. It steps over a run `chunk` of the bytes left;
a token other than `TOKEN_EOF` makes the run non-empty, `TOKEN_EOF` leaves no byte. -/
theorem next_token_spec (p : parser_state_t) :
    ∃ tok p2 chunk, next_token p = some (tok, p2) ∧ p2.source = p.source ∧
      p2.position = p.position + chunk.length ∧ p.rest = chunk ++ p2.rest ∧
      (tok.type ≠ .TOKEN_EOF → chunk ≠ []) ∧ (tok.type = .TOKEN_EOF → p2.rest = []) := by
  obtain ⟨q, skipped, h1, h2, h3, h4, _, _, h7⟩ := skip_whitespace_spec p
  rcases rest_cases q with hr | ⟨c, a, hr⟩
  · refine ⟨_, q, skipped, next_token_eof p q h1 hr, h2, h3, h4, ?_, fun _ => hr⟩
    intro h
    exact absurd rfl h
  · obtain ⟨ty, val, chunk, r, hty, hne, hsplit, hnt⟩ := token_at c a (h7 c a hr)
    refine ⟨_, advance chunk q, skipped ++ chunk, hnt p q h1 hr, h2, ?_, ?_, ?_, ?_⟩
    · simp only [advance, h3, List.length_append, Nat.add_assoc]
    · rw [advance_rest, h4, hr, hsplit, List.append_assoc]
      simp
    · intro _ h
      have := congrArg List.length h
      simp only [List.length_append, List.length_nil] at this
      have : 0 < chunk.length := List.length_pos.mpr hne
      omega
    · intro h
      exact absurd h hty

/-- The token that `next_token` returns, and the bytes it leaves, are the same from
every state that has the same bytes left. -/
theorem next_token_sim (p p2 : parser_state_t) (t : token_t) (q : parser_state_t)
    (hR : p.rest = p2.rest) (h : next_token p = some (t, q)) :
    ∃ t2 q2, next_token p2 = some (t2, q2) ∧ t2.type = t.type ∧ t2.value = t.value ∧
      q.rest = q2.rest := by
  obtain ⟨s, _, h1, _, _, _, _, _, h7⟩ := skip_whitespace_spec p
  obtain ⟨s2, h2, hs⟩ := skip_whitespace_sim p p2 s hR h1
  rcases rest_cases s with hr | ⟨c, a, hr⟩
  · rw [next_token_eof p s h1 hr] at h
    cases h
    exact ⟨_, s2, next_token_eof p2 s2 h2 (by rw [← hs, hr]), rfl, rfl, hs⟩
  · obtain ⟨ty, val, chunk, r, _, _, _, hnt⟩ := token_at c a (h7 c a hr)
    rw [hnt p s h1 hr] at h
    cases h
    refine ⟨_, _, hnt p2 s2 h2 (by rw [← hs, hr]), rfl, rfl, ?_⟩
    rw [advance_rest, advance_rest, hs]

theorem rest_length_of_split (p q : parser_state_t) (chunk : List Char)
    (h : p.rest = chunk ++ q.rest) : p.rest.length = chunk.length + q.rest.length := by
  rw [h, List.length_append]

/-- With more calls allowed than bytes are left, repeated calls of `next_token` reach
`TOKEN_EOF`: the last token is `TOKEN_EOF`, no token before it is, and there are at most
as many tokens before it as bytes were left. -/
theorem tokens_total : ∀ (f : Nat) (p : parser_state_t), p.rest.length < f →
    ∃ ts, tokens f p = some ts ∧ ts.length ≤ p.rest.length + 1 ∧
      (ts.getLast?.map (fun t => t.type)) = some .TOKEN_EOF ∧
      ∀ t ∈ ts.dropLast, t.type ≠ .TOKEN_EOF := by
  intro f
  induction f with
  | zero => intro p h; omega
  | succ f ih =>
    intro p hlen
    obtain ⟨tok, p2, chunk, h1, _, _, h4, h5, _⟩ := next_token_spec p
    by_cases he : tok.type = .TOKEN_EOF
    · refine ⟨[tok], ?_, by simp, by simp [he], by simp⟩
      simp [tokens, h1, he]
    · have hne := h5 he
      have hl := rest_length_of_split p p2 chunk h4
      have hc : 0 < chunk.length := List.length_pos.mpr hne
      obtain ⟨ts, h6, h7, h8, h9⟩ := ih p2 (by omega)
      have hts : ts ≠ [] := by
        intro e
        rw [e] at h8
        simp at h8
      obtain ⟨t0, ts1, hcons⟩ := List.exists_cons_of_ne_nil hts
      subst hcons
      refine ⟨tok :: t0 :: ts1, ?_, by simp only [List.length_cons] at h7 ⊢; omega, ?_, ?_⟩
      · simp [tokens, h1, he, h6]
      · rw [List.getLast?_cons_cons]
        exact h8
      · intro t ht
        have hd : (tok :: t0 :: ts1).dropLast = tok :: (t0 :: ts1).dropLast := rfl
        rw [hd] at ht
        rcases List.mem_cons.mp ht with e | e
        · rw [e]; exact he
        · exact h9 t e

theorem tokens_mono : ∀ (f : Nat) (p : parser_state_t) (ts : List token_t),
    tokens f p = some ts → ∀ g, f ≤ g → tokens g p = some ts := by
  intro f
  induction f with
  | zero => intro p ts h; simp [tokens] at h
  | succ f ih =>
    intro p ts h g hg
    obtain ⟨g2, rfl⟩ : ∃ g2, g = g2 + 1 := ⟨g - 1, by omega⟩
    obtain ⟨tok, p2, chunk, h1, _⟩ := next_token_spec p
    simp only [tokens, h1] at h ⊢
    by_cases he : tok.type = .TOKEN_EOF
    · simp only [he, beq_self_eq_true, if_true] at h ⊢
      exact h
    · have he2 : (tok.type == token_type_t.TOKEN_EOF) = false := by simpa using he
      simp only [he2, Bool.false_eq_true, if_false] at h ⊢
      cases hts : tokens f p2 with
      | none => rw [hts] at h; cases h
      | some ts2 =>
        rw [hts] at h
        rw [ih p2 ts2 hts g2 (by omega)]
        exact h

/-- The kinds and texts of the tokens lexed from a state depend only on the bytes it
has left. -/
theorem tokens_sim : ∀ (f : Nat) (p p2 : parser_state_t) (ts : List token_t),
    p.rest = p2.rest → tokens f p = some ts →
    ∃ ts2, tokens f p2 = some ts2 ∧
      ts2.map (fun t => (t.type, t.value)) = ts.map (fun t => (t.type, t.value)) := by
  intro f
  induction f with
  | zero => intro p p2 ts _ h; simp [tokens] at h
  | succ f ih =>
    intro p p2 ts hR h
    obtain ⟨tok, q, chunk, h1, _⟩ := next_token_spec p
    obtain ⟨tok2, q2, h2, hty, hval, hq⟩ := next_token_sim p p2 tok q hR h1
    simp only [tokens, h1] at h
    simp only [tokens, h2, hty]
    by_cases he : tok.type = .TOKEN_EOF
    · simp only [he, beq_self_eq_true, if_true] at h ⊢
      cases h
      exact ⟨[tok2], rfl, by simp [hty, hval]⟩
    · have he2 : (tok.type == token_type_t.TOKEN_EOF) = false := by simpa using he
      simp only [he2, Bool.false_eq_true, if_false] at h ⊢
      cases hts : tokens f q with
      | none => rw [hts] at h; cases h
      | some ts1 =>
        rw [hts] at h
        cases h
        obtain ⟨ts2, h3, h4⟩ := ih q q2 ts1 hq hts
        exact ⟨tok2 :: ts2, by rw [h3]; rfl, by simp [hty, hval, h4]⟩

theorem parse_loop_total : ∀ (f : Nat) (tok : token_t) (p : parser_state_t),
    (tok.type = .TOKEN_EOF → 1 ≤ f) → (tok.type ≠ .TOKEN_EOF → p.rest.length + 2 ≤ f) →
    ∃ q, parse_loop f tok p = some q := by
  intro f
  induction f with
  | zero =>
    intro tok p h1 h2
    by_cases he : tok.type = .TOKEN_EOF
    · have := h1 he
      omega
    · have := h2 he
      omega
  | succ f ih =>
    intro tok p h1 h2
    by_cases he : tok.type = .TOKEN_EOF
    · exact ⟨p, by simp [parse_loop, he]⟩
    · have hf := h2 he
      obtain ⟨t2, p2, chunk, h3, _, _, h6, h7, _⟩ := next_token_spec p
      have hl := rest_length_of_split p p2 chunk h6
      obtain ⟨q, hq⟩ := ih t2 p2 (fun _ => by omega) (fun hne => by
        have hc : 0 < chunk.length := List.length_pos.mpr (h7 hne)
        omega)
      exact ⟨q, by simp [parse_loop, he, h3, hq]⟩

/-! ## The lexer: termination -/

theorem lexer_start_rest (source : List Char) : (lexer_start source).rest = cstr source := by
  simp [lexer_start, parser_state_t.rest]

/-- Claim C22. The lexer never fails and always finishes. `next_token` returns on every
state; a token other than `TOKEN_EOF` strictly advances the scan position, and the
position stays within the length of the source. From the start of every source,
repeated calls reach `TOKEN_EOF` after at most as many other tokens as the source has
bytes, and `parse_php_code` returns true. -/
theorem lexer_terminates (source : List Char) :
    (∀ p : parser_state_t, ∃ tok p2, next_token p = some (tok, p2) ∧
      p2.source = p.source ∧ p.position ≤ p2.position ∧
      (p.position ≤ strlen p.source → p2.position ≤ strlen p2.source) ∧
      (tok.type ≠ .TOKEN_EOF → p.position < p2.position)) ∧
    (∃ ts, tokens (strlen source + 1) (lexer_start source) = some ts ∧
      ts.length ≤ strlen source + 1 ∧
      ts.getLast?.map (fun t => t.type) = some .TOKEN_EOF ∧
      ∀ t ∈ ts.dropLast, t.type ≠ .TOKEN_EOF) ∧
    parse_php_code source = some true := by
  refine ⟨?_, ?_, ?_⟩
  · intro p
    obtain ⟨tok, p2, chunk, h1, h2, h3, h4, h5, _⟩ := next_token_spec p
    have hl := rest_length_of_split p p2 chunk h4
    have hr := rest_length p
    refine ⟨tok, p2, h1, h2, by omega, ?_, ?_⟩
    · intro hp
      rw [h2]
      omega
    · intro hne
      have : 0 < chunk.length := List.length_pos.mpr (h5 hne)
      omega
  · have hlen : (lexer_start source).rest.length < strlen source + 1 := by
      rw [lexer_start_rest, strlen_eq_cstr_length]
      omega
    obtain ⟨ts, h1, h2, h3, h4⟩ := tokens_total _ _ hlen
    refine ⟨ts, h1, ?_, h3, h4⟩
    rw [lexer_start_rest, ← strlen_eq_cstr_length] at h2
    exact h2
  · obtain ⟨tok, p2, chunk, h1, _, _, h4, h5, _⟩ := next_token_spec (lexer_start source)
    have hl := rest_length_of_split _ p2 chunk h4
    rw [lexer_start_rest, ← strlen_eq_cstr_length] at hl
    obtain ⟨q, hq⟩ := parse_loop_total (strlen source + 1) tok p2 (fun _ => by omega)
      (fun hne => by
        have : 0 < chunk.length := List.length_pos.mpr (h5 hne)
        omega)
    have hi : parser_init source = some (tok, p2) := h1
    simp [parse_php_code, hi, hq]

/-! ## The lexer: the kinds of token -/

/-- Claim C23, counterexample. On the source `"a\"b"` the text of the first token is
`a\`: the literal ends at the quote that follows the backslash. -/
theorem string_literal_stops_at_escaped_quote :
    (next_token (lexer_start "\"a\\\"b\"".toList)).map (fun r => (r.1.type, r.1.value)) =
      some (.TOKEN_STRING, some ['a', '\\']) ∧
    (next_token (lexer_start "\"a\\\"b\"".toList)).map (fun r => (r.1.type, r.1.value)) ≠
      some (.TOKEN_STRING, some ['a', '\\', '"', 'b']) := by
  constructor
  · decide
  · decide

/-- Claim C23, amended. When the next significant byte is a quote character `quote`,
`next_token` returns a string token whose text is what follows the opening quote up
to, and without, the first following `quote`, whether a backslash precedes it or not,
or up to the end of the source when there is none; the bytes are copied as they are. -/
theorem string_literal_text (p q : parser_state_t) (quote : Char) (after : List Char)
    (h : Lexer.skip_whitespace p = some q) (hr : q.rest = quote :: after)
    (hq : quote = DQUOTE ∨ quote = SQUOTE) :
    ∃ tok p2 text tail, next_token p = some (tok, p2) ∧ tok.type = .TOKEN_STRING ∧
      tok.value = some text ∧ tok.length = text.length ∧
      after = text ++ tail ∧ quote ∉ text ∧ (tail = [] ∨ tail.head? = some quote) ∧
      text = after.takeWhile (fun ch => ch != quote) := by
  have hq2 : (quote == DQUOTE || quote == SQUOTE) = true := by
    rcases hq with e | e <;> simp [e]
  refine ⟨_, _, after.takeWhile (fun ch => ch != quote),
    after.dropWhile (fun ch => ch != quote), next_token_string p q quote after h hr hq2,
    rfl, rfl, rfl, (List.takeWhile_append_dropWhile _ _).symm, not_mem_takeWhile_ne quote after,
    ?_, rfl⟩
  rcases hd : after.dropWhile (fun ch => ch != quote) with _ | ⟨x, xs⟩
  · exact Or.inl rfl
  · right
    have := dropWhile_head _ _ x xs hd
    simp only [bne_eq_false_iff_eq] at this
    rw [this]
    rfl

theorem string_literal_text_witness :
    Lexer.skip_whitespace (lexer_start " 'a\\'b' ".toList) =
      some { source := " 'a\\'b' ".toList, position := 1, line := 1, column := 2 } ∧
    (next_token (lexer_start " 'a\\'b' ".toList)).map (fun r => (r.1.type, r.1.value)) =
      some (.TOKEN_STRING, some ['a', '\\']) := by
  refine ⟨by decide, ?_⟩
  obtain ⟨tok, p2, text, tail, h1, h2, h3, _, _, _, _, h8⟩ :=
    string_literal_text (lexer_start " 'a\\'b' ".toList)
      { source := " 'a\\'b' ".toList, position := 1, line := 1, column := 2 } SQUOTE
      "a\\'b' ".toList (by decide) (by decide) (Or.inr rfl)
  rw [h1]
  simp only [Option.map_some', h2, h3, h8]
  decide

/-- Claim C24. When the next significant byte is a digit, `next_token` returns a number
token whose text is the longest run of digits and `.` that starts there, whatever the
grouping, and the scan position advances by the length of that text from the start of
the token. The source `1.2.3` lexes as the one token `1.2.3`. -/
theorem number_literal_text (p q : parser_state_t) (c : Char) (a : List Char)
    (h : Lexer.skip_whitespace p = some q) (hr : q.rest = c :: a) (hd : isdigit c = true) :
    (∃ tok p2 text tail, next_token p = some (tok, p2) ∧ tok.type = .TOKEN_NUMBER ∧
      tok.value = some text ∧ tok.length = text.length ∧
      c :: a = text ++ tail ∧ (∀ x ∈ text, isdigit x = true ∨ x = '.') ∧
      (∀ y ys, tail = y :: ys → isdigit y = false ∧ y ≠ '.') ∧
      p2.position = q.position + text.length ∧
      text = (c :: a).takeWhile (fun c => isdigit c || c == '.')) ∧
    lex "1.2.3".toList = some [(.TOKEN_NUMBER, some "1.2.3".toList), (.TOKEN_EOF, none)] := by
  refine ⟨⟨_, _, (c :: a).takeWhile (fun c => isdigit c || c == '.'),
    (c :: a).dropWhile (fun c => isdigit c || c == '.'), next_token_number p q c a h hr hd,
    rfl, rfl, rfl, (List.takeWhile_append_dropWhile _ _).symm, ?_, ?_, rfl, rfl⟩, by decide⟩
  · intro x hx
    have := List.mem_takeWhile_imp hx
    simpa using this
  · intro y ys hy
    have := dropWhile_head _ _ y ys hy
    simpa using this

theorem number_literal_text_witness :
    Lexer.skip_whitespace (lexer_start " 1.2.3+4".toList) =
      some { source := " 1.2.3+4".toList, position := 1, line := 1, column := 2 } ∧
    (next_token (lexer_start " 1.2.3+4".toList)).map
        (fun r => (r.1.type, r.1.value, r.2.position)) =
      some (.TOKEN_NUMBER, some "1.2.3".toList, 6) := by
  refine ⟨by decide, ?_⟩
  obtain ⟨tok, p2, text, tail, h1, h2, h3, _, _, _, _, h8, h9⟩ :=
    (number_literal_text (lexer_start " 1.2.3+4".toList)
      { source := " 1.2.3+4".toList, position := 1, line := 1, column := 2 } '1'
      ".2.3+4".toList (by decide) (by decide) (by decide)).1
  rw [h1]
  simp only [Option.map_some', h2, h3, h8, h9]
  decide

theorem cstr_of_no_nul (s : List Char) (h : NUL ∉ s) : cstr s = s := by
  have := cstr_append_of_no_nul s [] h
  simpa [cstr] using this

theorem keywords_no_nul : ∀ k ∈ keywords, cstr k.toList = k.toList := by decide

theorem is_keyword_iff (word : List Char) (h : NUL ∉ word) :
    is_keyword word = true ↔ word ∈ reserved_words := by
  simp only [is_keyword, List.any_eq_true, strcmp_eq, beq_iff_eq, reserved_words, List.mem_map]
  constructor
  · rintro ⟨k, hk, e⟩
    rw [cstr_of_no_nul word h, keywords_no_nul k hk] at e
    exact ⟨k, hk, e.symm⟩
  · rintro ⟨k, hk, e⟩
    refine ⟨k, hk, ?_⟩
    rw [cstr_of_no_nul word h, keywords_no_nul k hk]
    exact e.symm

/-- Claim C25. When the next significant byte is a letter or an underscore,
`next_token` returns a token whose text is the longest run of letters, digits and
underscores that starts there; its kind is Keyword exactly when the text is one of the
reserved words, compared byte for byte, and Identifier otherwise. So `echoes` and
`Echo` are Identifiers, `echo` is a Keyword. -/
theorem identifier_or_keyword (p q : parser_state_t) (c : Char) (a : List Char)
    (h : Lexer.skip_whitespace p = some q) (hr : q.rest = c :: a)
    (ha : isalpha c = true ∨ c = '_') :
    (∃ tok p2 text tail, next_token p = some (tok, p2) ∧
      tok.value = some text ∧ tok.length = text.length ∧
      c :: a = text ++ tail ∧ (∀ x ∈ text, isalnum x = true ∨ x = '_') ∧
      (∀ y ys, tail = y :: ys → isalnum y = false ∧ y ≠ '_') ∧
      (tok.type = .TOKEN_KEYWORD ↔ text ∈ reserved_words) ∧
      (tok.type = .TOKEN_IDENTIFIER ↔ text ∉ reserved_words) ∧
      text = (c :: a).takeWhile (fun c => isalnum c || c == '_')) ∧
    lex "echoes Echo echo".toList =
      some [(.TOKEN_IDENTIFIER, some "echoes".toList), (.TOKEN_IDENTIFIER, some "Echo".toList),
        (.TOKEN_KEYWORD, some "echo".toList), (.TOKEN_EOF, none)] := by
  have ha2 : (isalpha c || c == '_') = true := by
    rcases ha with e | e <;> simp [e]
  have hn : NUL ∉ (c :: a).takeWhile (fun c => isalnum c || c == '_') := by
    intro hm
    have := List.mem_takeWhile_imp hm
    exact (identifier_byte_facts NUL this).2 rfl
  have hk := is_keyword_iff _ hn
  refine ⟨⟨_, _, (c :: a).takeWhile (fun c => isalnum c || c == '_'),
    (c :: a).dropWhile (fun c => isalnum c || c == '_'),
    next_token_identifier p q c a h hr ha2, rfl, rfl,
    (List.takeWhile_append_dropWhile _ _).symm, ?_, ?_, ?_, ?_, rfl⟩, by decide⟩
  · intro x hx
    have := List.mem_takeWhile_imp hx
    simpa using this
  · intro y ys hy
    have := dropWhile_head _ _ y ys hy
    simpa using this
  · rw [← hk]
    simp only
    split <;> simp_all
  · rw [← hk]
    simp only
    split <;> simp_all

theorem identifier_or_keyword_witness :
    Lexer.skip_whitespace (lexer_start " echoes(".toList) =
      some { source := " echoes(".toList, position := 1, line := 1, column := 2 } ∧
    (next_token (lexer_start " echoes(".toList)).map (fun r => (r.1.type, r.1.value)) =
      some (.TOKEN_IDENTIFIER, some "echoes".toList) := by
  refine ⟨by decide, ?_⟩
  obtain ⟨tok, p2, text, tail, h1, h2, _, _, _, _, _, h8, h9⟩ :=
    (identifier_or_keyword (lexer_start " echoes(".toList)
      { source := " echoes(".toList, position := 1, line := 1, column := 2 } 'e'
      "choes(".toList (by decide) (by decide) (Or.inl (by decide))).1
  have ht : text = "echoes".toList := by rw [h9]; decide
  have hty : tok.type = .TOKEN_IDENTIFIER := by
    rw [h8, ht]
    decide
  rw [h1]
  simp only [Option.map_some', h2, hty, ht]

/-- Claim C26, the code at the failing input. On the source `/*abc`, an unterminated
block comment whose text `abc` holds no `*/`, the first token is the Identifier `c`,
not `TOKEN_EOF`: the loop over the comment stops one byte short of the end. With an
empty comment text, or one that ends in whitespace, the first token is `TOKEN_EOF`. -/
theorem unterminated_comment_leaves_last_byte :
    has_infix "*/".toList "abc".toList = false ∧
    lex "/*abc".toList = some [(.TOKEN_IDENTIFIER, some ['c']), (.TOKEN_EOF, none)] ∧
    lex "/*a/".toList = some [(.TOKEN_OPERATOR, some ['/']), (.TOKEN_EOF, none)] ∧
    lex "/*".toList = some [(.TOKEN_EOF, none)] ∧
    lex "/*abc ".toList = some [(.TOKEN_EOF, none)] := by
  refine ⟨by decide, by decide, by decide, by decide, by decide⟩

/-! ## The quoted literal of the engine and the string token of the lexer -/

theorem takeWhile_body (q : Char) (body rest : List Char) (hq : q ∉ body) :
    (body ++ q :: rest).takeWhile (fun ch => ch != q) = body := by
  induction body with
  | nil => simp
  | cons c cs ih =>
    have hc : c ≠ q := fun e => hq (by simp [e])
    have hcs : q ∉ cs := fun e => hq (by simp [e])
    simp [List.takeWhile_cons, hc, ih hcs]

theorem takeWhile_all (q : Char) (t : List Char) (hq : q ∉ t) :
    t.takeWhile (fun ch => ch != q) = t := by
  induction t with
  | nil => rfl
  | cons c cs ih =>
    have hc : c ≠ q := fun e => hq (by simp [e])
    have hcs : q ∉ cs := fun e => hq (by simp [e])
    simp [List.takeWhile_cons, hc, ih hcs]

theorem scan_quoted_all (q : Char) (t : List Char) (hq : q ∉ t) (hn : NUL ∉ t) :
    scan_quoted q t = (t, []) := by
  induction t with
  | nil => rfl
  | cons c cs ih =>
    have hc : c ≠ q := fun e => hq (by simp [e])
    have hcn : c ≠ NUL := fun e => hn (by simp [e])
    have hcs : q ∉ cs := fun e => hq (by simp [e])
    have hns : NUL ∉ cs := fun e => hn (by simp [e])
    simp [scan_quoted, hc, hcn, ih hcs hns]

theorem quote_facts (q : Char) (hq : q = DQUOTE ∨ q = SQUOTE) :
    isspace q = false ∧ q ≠ '/' ∧ q ≠ NUL ∧ q ≠ ' ' ∧ q ≠ '\t' ∧
      (q == DQUOTE || q == SQUOTE) = true := by
  rcases hq with e | e <;> subst e <;> decide

theorem skip_whitespace_at_quote (source : List Char) (q : Char) (after : List Char)
    (hq : q = DQUOTE ∨ q = SQUOTE) (hr : (lexer_start source).rest = q :: after) :
    Lexer.skip_whitespace (lexer_start source) = some (lexer_start source) := by
  obtain ⟨h1, h2, _⟩ := quote_facts q hq
  have hb : ∀ o : Option Char, (q == '/' && o == some '/') = false := by
    intro o
    simp [h2]
  have hb2 : ∀ o : Option Char, (q == '/' && o == some '*') = false := by
    intro o
    simp [h2]
  exact pass_stop _ q after hr h1 (hb _) (hb2 _) _

/-- The first token of a source that begins with a quote character. -/
theorem first_token_string (q : Char) (t : List Char) (hq : q = DQUOTE ∨ q = SQUOTE) :
    (next_token (lexer_start (q :: t))).map (fun r => (r.1.type, r.1.value)) =
      some (.TOKEN_STRING, some ((cstr t).takeWhile (fun ch => ch != q))) := by
  obtain ⟨_, _, h3, _, _, h6⟩ := quote_facts q hq
  have hr : (lexer_start (q :: t)).rest = q :: cstr t := by
    rw [lexer_start_rest]
    simp [cstr, h3]
  have hs := skip_whitespace_at_quote (q :: t) q (cstr t) hq hr
  rw [next_token_string _ _ q (cstr t) hs hr h6]
  rfl

theorem quoted_literal_open (q : Char) (hq : q = DQUOTE ∨ q = SQUOTE) (t out : List Char)
    (hs : q ∉ t) (hn : NUL ∉ t) :
    quoted_literal (' ' :: q :: t) out = ([], out) := by
  have hsc := scan_quoted_all q t hs hn
  rcases hq with rfl | rfl
  · simp [quoted_literal, skip_blanks, cur, hsc, NUL, DQUOTE]
  · simp [quoted_literal, skip_blanks, cur, hsc, NUL, SQUOTE]

theorem echo_head (x : List Char) :
    "echo ".toList ++ x = 'e' :: 'c' :: 'h' :: 'o' :: ' ' :: x := rfl

/-- Claim C32, counterexample. For the unterminated literal `"abc` the engine writes
nothing, while the text of the lexer's string token is `abc`; and for the text
`a"; echo "b"` behind the opening quote the engine writes `ab`, while the text of the
token is `a`. -/
theorem echo_differs_from_lexer :
    (php_engine_execute_string (Engine.initialized (fun _ => []))
        ("echo ".toList ++ '"' :: "abc".toList)).map (fun r => r.2.stdout) = some [] ∧
    (next_token (lexer_start ('"' :: "abc".toList))).map (fun r => (r.1.type, r.1.value)) =
      some (.TOKEN_STRING, some "abc".toList) ∧
    (php_engine_execute_string (Engine.initialized (fun _ => []))
        ("echo ".toList ++ '"' :: "a\"; echo \"b\"".toList)).map (fun r => r.2.stdout) =
      some "ab".toList ∧
    (next_token (lexer_start ('"' :: "a\"; echo \"b\"".toList))).map
        (fun r => (r.1.type, r.1.value)) = some (.TOKEN_STRING, some "a".toList) := by
  refine ⟨by decide, by decide, by decide, by decide⟩

/-- Claim C32, amended. The quoted literal of an `echo` statement is scanned as the
lexer scans a string literal when the literal is closed. For a quote character `q`
and a text `body ++ q :: rest` whose `body` holds neither `q` nor the terminator, the
string token that `next_token` returns on the source `q`, text has the text `body`, the
first pass of `php_engine_execute_string` on `echo `, `q`, text writes exactly `body`
and goes on behind the closing quote, and the call writes nothing else when `rest`
holds neither `echo` nor `print`. For a text `t` without `q` the token has the text
`t`, and the engine writes nothing. -/
theorem echo_matches_closed_literal (e : Engine) (q : Char)
    (hinit : e.engine_state = .PHP_ENGINE_INITIALIZED) (hq : q = DQUOTE ∨ q = SQUOTE) :
    (∀ body rest : List Char, q ∉ body → NUL ∉ body →
      (next_token (lexer_start (q :: (body ++ q :: rest)))).map
          (fun r => (r.1.type, r.1.value)) = some (.TOKEN_STRING, some body) ∧
      execute_iteration ("echo ".toList ++ q :: (body ++ q :: rest)) e.stdout =
        (rest, e.stdout ++ body) ∧
      (strstr_found rest "echo".toList = false → strstr_found rest "print".toList = false →
        php_engine_execute_string e ("echo ".toList ++ q :: (body ++ q :: rest)) =
          some (true, { e with stdout := e.stdout ++ body }))) ∧
    (∀ t : List Char, q ∉ t → NUL ∉ t →
      (next_token (lexer_start (q :: t))).map (fun r => (r.1.type, r.1.value)) =
          some (.TOKEN_STRING, some t) ∧
      php_engine_execute_string e ("echo ".toList ++ q :: t) = some (true, e)) := by
  obtain ⟨_, _, hqn, _, _, _⟩ := quote_facts q hq
  constructor
  · intro body rest hb hn
    have hiter : execute_iteration ("echo ".toList ++ q :: (body ++ q :: rest)) e.stdout =
        (rest, e.stdout ++ body) := by
      rw [echo_head, iter_echo, quoted_literal_body q hq body rest e.stdout hb hn]
    refine ⟨?_, hiter, ?_⟩
    · rw [first_token_string q _ hq, cstr_append_of_no_nul body _ hn]
      have : cstr (q :: rest) = q :: cstr rest := by simp [cstr, hqn]
      rw [this, takeWhile_body q body _ hb]
    · intro he hp
      have hcur : cur ("echo ".toList ++ q :: (body ++ q :: rest)) ≠ NUL := by
        rw [echo_head]
        simp only [cur, List.headD_cons]
        decide
      obtain ⟨r, hr⟩ := execute_loop_total
        (("echo ".toList ++ q :: (body ++ q :: rest)).length) rest (e.stdout ++ body)
        (by simp; omega)
      have hsil := execute_loop_silent _ _ _ r he hp hr
      subst hsil
      have hloop : execute_loop (("echo ".toList ++ q :: (body ++ q :: rest)).length + 1)
          ("echo ".toList ++ q :: (body ++ q :: rest)) e.stdout = some (e.stdout ++ body) := by
        rw [execute_loop_step _ _ _ hcur, hiter]
        exact hr
      rw [execute_string_run e _ _ hinit hloop]
      cases e
      simp_all
  · intro t ht hn
    refine ⟨?_, ?_⟩
    · rw [first_token_string q _ hq, cstr_of_no_nul t hn, takeWhile_all q t ht]
    · have hcur : cur ("echo ".toList ++ q :: t) ≠ NUL := by
        rw [echo_head]
        simp only [cur, List.headD_cons]
        decide
      have hiter : execute_iteration ("echo ".toList ++ q :: t) e.stdout = ([], e.stdout) := by
        rw [echo_head, iter_echo, quoted_literal_open q hq t e.stdout ht hn]
      have hloop : execute_loop (("echo ".toList ++ q :: t).length + 1)
          ("echo ".toList ++ q :: t) e.stdout = some e.stdout := by
        rw [execute_loop_step _ _ _ hcur, hiter]
        have hl : ("echo ".toList ++ q :: t).length = (4 + t.length + 1) + 1 := by
          simp
          omega
        rw [hl]
        simp [execute_loop, cur]
      rw [execute_string_run e _ _ hinit hloop]
      cases e
      simp_all

theorem echo_matches_closed_literal_witness :
    (Engine.initialized (fun _ => [])).engine_state = .PHP_ENGINE_INITIALIZED ∧
    (next_token (lexer_start (DQUOTE :: ("hi".toList ++ DQUOTE :: ";".toList)))).map
        (fun r => (r.1.type, r.1.value)) = some (.TOKEN_STRING, some "hi".toList) ∧
    php_engine_execute_string (Engine.initialized (fun _ => []))
        ("echo ".toList ++ DQUOTE :: ("hi".toList ++ DQUOTE :: ";".toList)) =
      some (true, { Engine.initialized (fun _ => []) with stdout := [] ++ "hi".toList }) :=
  ⟨rfl,
    ((echo_matches_closed_literal (Engine.initialized (fun _ => [])) DQUOTE rfl
      (Or.inl rfl)).1 "hi".toList ";".toList (by decide) (by decide)).1,
    ((echo_matches_closed_literal (Engine.initialized (fun _ => [])) DQUOTE rfl
      (Or.inl rfl)).1 "hi".toList ";".toList (by decide) (by decide)).2.2
      (by decide) (by decide)⟩

/-! ## The lexer: whitespace and comments are transparent -/

theorem strlen_append_of_no_nul (a s : List Char) (h : NUL ∉ a) :
    strlen (a ++ s) = a.length + strlen s := by
  rw [strlen_eq_cstr_length, cstr_append_of_no_nul a s h, List.length_append,
    ← strlen_eq_cstr_length]

theorem position_bump_rest (p : parser_state_t) (k : Nat) :
    ({ p with position := p.position + k } : parser_state_t).rest = p.rest.drop k :=
  rest_of_position p ({ p with position := p.position + k } : parser_state_t) k rfl rfl

theorem next_token_of_skip_eq (p n : parser_state_t)
    (h : Lexer.skip_whitespace p = Lexer.skip_whitespace n) : next_token p = next_token n := by
  simp only [next_token, h]

theorem tokens_of_next_eq (p n : parser_state_t) (h : next_token p = next_token n) (f : Nat) :
    tokens (f + 1) p = tokens (f + 1) n := by
  simp only [tokens, h]

/-- A prefix that the loop of `skip_whitespace` steps over in at most as many passes as
it has bytes does not show in the token stream. -/
theorem lex_transparent (pre s : List Char) (hn : NUL ∉ pre)
    (ht : ∀ p : parser_state_t, p.rest = pre ++ cstr s →
      ∃ n k, n.rest = cstr s ∧ k ≤ pre.length ∧
        ∀ f, Lexer.skip_whitespace_loop (f + k) p = Lexer.skip_whitespace_loop f n) :
    lex (pre ++ s) = lex s := by
  have hr1 : (lexer_start (pre ++ s)).rest = pre ++ cstr s := by
    rw [lexer_start_rest, cstr_append_of_no_nul pre s hn]
  obtain ⟨n, k, hnr, hk, hloop⟩ := ht _ hr1
  have hskip : Lexer.skip_whitespace (lexer_start (pre ++ s)) = Lexer.skip_whitespace n := by
    obtain ⟨q, _, hq, _⟩ := skip_loop_spec (n.rest.length + 1) n (Nat.lt_succ_self _)
    have e1 : Lexer.skip_whitespace n = some q := hq
    have hm := skip_loop_mono _ n q hq (pre.length - k + (cstr s).length + 1)
      (by rw [hnr]; omega)
    have e2 : Lexer.skip_whitespace (lexer_start (pre ++ s)) = some q := by
      unfold Lexer.skip_whitespace
      rw [hr1, List.length_append,
        show pre.length + (cstr s).length + 1 = (pre.length - k + (cstr s).length + 1) + k by
          omega, hloop]
      exact hm
    rw [e1, e2]
  have hnext := next_token_of_skip_eq _ _ hskip
  have hlen : n.rest.length < strlen s + 1 := by
    rw [hnr, strlen_eq_cstr_length]
    omega
  obtain ⟨ts, h1, _⟩ := tokens_total _ n hlen
  have h2 := tokens_mono _ n ts h1 (strlen (pre ++ s) + 1)
    (by rw [strlen_append_of_no_nul pre s hn]; omega)
  have h3 : tokens (strlen (pre ++ s) + 1) (lexer_start (pre ++ s)) = some ts := by
    rw [tokens_of_next_eq _ _ hnext]
    exact h2
  obtain ⟨ts2, h4, h5⟩ := tokens_sim _ n (lexer_start s) ts
    (by rw [hnr, lexer_start_rest]) h1
  have e1 : lex (pre ++ s) = some (ts.map (fun t => (t.type, t.value))) := by
    have : lex (pre ++ s) =
        (tokens (strlen (pre ++ s) + 1) (lexer_start (pre ++ s))).map
          (fun ts => ts.map (fun t => (t.type, t.value))) := rfl
    rw [this, h3]
    rfl
  have e2 : lex s = some (ts2.map (fun t => (t.type, t.value))) := by
    have : lex s = (tokens (strlen s + 1) (lexer_start s)).map
        (fun ts => ts.map (fun t => (t.type, t.value))) := rfl
    rw [this, h4]
    rfl
  rw [e1, e2, h5]

theorem transparent_whitespace (r : List Char) : ∀ (w : List Char),
    (∀ x ∈ w, isspace x = true) → ∀ p : parser_state_t, p.rest = w ++ r →
    ∃ n k, n.rest = r ∧ k ≤ w.length ∧
      ∀ f, Lexer.skip_whitespace_loop (f + k) p = Lexer.skip_whitespace_loop f n := by
  intro w
  induction w with
  | nil =>
    intro _ p hp
    exact ⟨p, 0, by simpa using hp, Nat.le_refl _, fun f => rfl⟩
  | cons x xs ih =>
    intro hw p hp
    have hx := hw x (by simp)
    have hxs : ∀ y ∈ xs, isspace y = true := fun y hy => hw y (by simp [hy])
    have hp2 : p.rest = x :: (xs ++ r) := by simpa using hp
    have hadv : (advance [x] p).rest = xs ++ r := by
      rw [advance_rest, hp2]
      rfl
    obtain ⟨n, k, h1, h2, h3⟩ := ih hxs (advance [x] p) hadv
    refine ⟨n, k + 1, h1, by simp only [List.length_cons]; omega, ?_⟩
    intro f
    rw [← Nat.add_assoc, pass_space p x (xs ++ r) hp2 hx, h3]

theorem isspace_no_nul (w : List Char) (hw : ∀ x ∈ w, isspace x = true) : NUL ∉ w := by
  intro h
  have h1 := hw NUL h
  have h2 : isspace NUL = false := by decide
  rw [h2] at h1
  cases h1

theorem block_comment_length_closed (r : List Char) : ∀ d : List Char,
    has_infix "*/".toList d = false →
    block_comment_length (d ++ '*' :: '/' :: r) = d.length + 2 := by
  intro d
  induction d with
  | nil => intro _; simp [block_comment_length]
  | cons x xs ih =>
    intro h
    have hxs := has_infix_tail _ x xs h
    have hpre := has_infix_prefix _ _ h
    cases xs with
    | nil =>
      have hc : (x == '*' && '*' == '/') = false := by simp
      simp only [List.cons_append, List.nil_append, block_comment_length, hc,
        Bool.false_eq_true, if_false, beq_self_eq_true, Bool.and_self, if_true, List.length_cons,
        List.length_nil]
    | cons y ys =>
      have hc : (x == '*' && y == '/') = false := by
        cases hxy : (x == '*' && y == '/')
        · rfl
        · have hb : x = '*' ∧ y = '/' := by simpa using hxy
          rw [hb.1, hb.2] at hpre
          simp [List.isPrefixOf] at hpre
      have := ih hxs
      simp only [List.cons_append] at this ⊢
      simp only [block_comment_length, hc, Bool.false_eq_true, if_false, this, List.length_cons]

/-- Claim C35. Whitespace and comments do not show in the token stream. For every
source `s`, the kinds and texts of the tokens lexed from `//`, a text `c` without line
feed, a line feed and `s`, from `/*`, a text `d` without `*/`, `*/` and `s`, and from a
run `w` of whitespace and `s` are those lexed from `s` alone. The texts `c` and `d`
are parts of a source and hold no terminator. -/
theorem comments_transparent (s c d w : List Char) (hc : '\n' ∉ c) (hcn : NUL ∉ c)
    (hd : has_infix "*/".toList d = false) (hdn : NUL ∉ d)
    (hw : ∀ x ∈ w, isspace x = true) :
    lex ("//".toList ++ c ++ '\n' :: s) = lex s ∧
    lex ("/*".toList ++ d ++ "*/".toList ++ s) = lex s ∧
    lex (w ++ s) = lex s := by
  refine ⟨?_, ?_, ?_⟩
  · have e : "//".toList ++ c ++ '\n' :: s = ('/' :: '/' :: c ++ ['\n']) ++ s := by
      simp
    rw [e]
    apply lex_transparent
    · intro h
      simp only [List.cons_append, List.mem_cons, List.mem_append, List.mem_singleton,
        List.not_mem_nil, or_false] at h
      rcases h with h | h | h | h
      · exact absurd h (by decide)
      · exact absurd h (by decide)
      · exact hcn h
      · exact absurd h (by decide)
    · intro p hp
      have hp2 : p.rest = '/' :: '/' :: (c ++ '\n' :: cstr s) := by simpa using hp
      have htw : ('/' :: '/' :: (c ++ '\n' :: cstr s)).takeWhile (fun ch => ch != '\n') =
          '/' :: '/' :: c := by
        rw [List.takeWhile_cons, if_pos (by decide), List.takeWhile_cons, if_pos (by decide),
          takeWhile_body '\n' c _ hc]
      have hr1 : ({ p with position := p.position +
          (('/' :: '/' :: (c ++ '\n' :: cstr s)).takeWhile (fun ch => ch != '\n')).length } :
            parser_state_t).rest = '\n' :: cstr s := by
        rw [position_bump_rest, hp2, htw]
        simp
      refine ⟨advance ['\n'] { p with position := p.position +
          (('/' :: '/' :: (c ++ '\n' :: cstr s)).takeWhile (fun ch => ch != '\n')).length },
        2, ?_, by simp, ?_⟩
      · rw [advance_rest, hr1]
        rfl
      · intro f
        rw [show f + 2 = (f + 1) + 1 from rfl, pass_line p _ hp2,
          pass_space _ '\n' (cstr s) hr1 (by decide)]
  · have e : "/*".toList ++ d ++ "*/".toList ++ s = ('/' :: '*' :: d ++ ['*', '/']) ++ s := by
      simp
    rw [e]
    apply lex_transparent
    · intro h
      simp only [List.cons_append, List.mem_cons, List.mem_append, List.mem_singleton,
        List.not_mem_nil, or_false] at h
      rcases h with h | h | h | h | h
      · exact absurd h (by decide)
      · exact absurd h (by decide)
      · exact hdn h
      · exact absurd h (by decide)
      · exact absurd h (by decide)
    · intro p hp
      have hp2 : p.rest = '/' :: '*' :: (d ++ '*' :: '/' :: cstr s) := by simpa using hp
      have hlen := block_comment_length_closed (cstr s) d hd
      refine ⟨advance (['/', '*'] ++
          (d ++ '*' :: '/' :: cstr s).take (block_comment_length (d ++ '*' :: '/' :: cstr s))) p,
        1, ?_, by simp, fun f => pass_block p _ hp2 f⟩
      rw [advance_rest, hp2, hlen]
      have ht : (d ++ '*' :: '/' :: cstr s).take (d.length + 2) = d ++ ['*', '/'] := by
        rw [List.take_append_eq_append_take]
        simp
      rw [ht]
      simp
  · exact lex_transparent w s (isspace_no_nul w hw) (transparent_whitespace (cstr s) w hw)

theorem comments_transparent_witness :
    lex ("//".toList ++ " note".toList ++ '\n' :: "x = 1".toList) = lex "x = 1".toList ∧
    lex ("/*".toList ++ " a * b ".toList ++ "*/".toList ++ "x = 1".toList) =
      lex "x = 1".toList ∧
    lex (" \t\n".toList ++ "x = 1".toList) = lex "x = 1".toList :=
  comments_transparent "x = 1".toList " note".toList " a * b ".toList " \t\n".toList
    (by decide) (by decide) (by decide) (by decide) (by decide)

/-! ## The lexer: positions of tokens -/

theorem column_after_snoc (c : Nat) (l : List Char) (x : Char) :
    column_after c (l ++ [x]) = if x == '\n' then 1 else column_after c l + 1 := by
  simp [column_after, List.foldl_append]

theorem column_of_snoc (l : List Char) (x : Char) :
    column_of (l ++ [x]) = if x == '\n' then 1 else column_of l + 1 := by
  by_cases h : x = '\n'
  · simp [column_of, h]
  · have hb : (x != '\n') = true := by simpa using h
    simp only [column_of, List.reverse_append, List.reverse_cons, List.reverse_nil,
      List.nil_append, List.singleton_append, List.takeWhile_cons, hb, if_true,
      List.length_cons, beq_iff_eq, h, if_false]
    omega

theorem column_after_eq_column_of (pre : List Char) : column_after 1 pre = column_of pre := by
  induction pre using List.reverseRecOn with
  | nil => rfl
  | append_singleton l x ih => rw [column_after_snoc, column_of_snoc, ih]

theorem line_after_eq_line_of (pre : List Char) : line_after 1 pre = line_of pre := rfl

/-- The bookkeeping that every state reached from the start of a source satisfies: the
line is exact, and so is the column unless no byte is left. With it, every token other
than `TOKEN_EOF` carries the exact line and column of the byte on which
`skip_whitespace` stopped. -/
theorem lexer_bookkeeping (source : List Char) (p : parser_state_t)
    (hs : p.source = source)
    (hG : ∃ pre, cstr source = pre ++ p.rest ∧ pre.length = p.position ∧
      p.line = line_after 1 pre ∧ (p.rest = [] ∨ p.column = column_after 1 pre))
    (tok : token_t) (p2 : parser_state_t) (h : next_token p = some (tok, p2)) :
    (p2.source = source ∧ ∃ pre, cstr source = pre ++ p2.rest ∧ pre.length = p2.position ∧
      p2.line = line_after 1 pre ∧ (p2.rest = [] ∨ p2.column = column_after 1 pre)) ∧
    (tok.type ≠ .TOKEN_EOF →
      ∃ q pre, Lexer.skip_whitespace p = some q ∧ cstr source = pre ++ q.rest ∧
        pre.length = q.position ∧ q.rest ≠ [] ∧ p.position ≤ q.position ∧
        tok.line = line_after 1 pre ∧ tok.column = column_after 1 pre) := by
  obtain ⟨pre, hpre, hlen, hline, hcol⟩ := hG
  obtain ⟨q, skipped, h1, h2, h3, h4, h5, h6, h7⟩ := skip_whitespace_spec p
  have hqpre : cstr source = (pre ++ skipped) ++ q.rest := by
    rw [hpre, h4, List.append_assoc]
  have hqlen : (pre ++ skipped).length = q.position := by
    rw [List.length_append, hlen, h3]
  have hqline : q.line = line_after 1 (pre ++ skipped) := by
    rw [h5, hline, line_after_append]
  rcases rest_cases q with hr | ⟨c, a, hr⟩
  · rw [next_token_eof p q h1 hr] at h
    cases h
    refine ⟨⟨by rw [h2, hs], pre ++ skipped, hqpre, hqlen, hqline, Or.inl hr⟩, ?_⟩
    intro hne
    exact absurd rfl hne
  · have hpne : p.rest ≠ [] := by
      intro e
      rw [e] at h4
      have := congrArg List.length h4
      rw [hr] at this
      simp only [List.length_nil, List.length_append, List.length_cons] at this
      omega
    have hpcol : p.column = column_after 1 pre := by
      rcases hcol with e | e
      · exact absurd e hpne
      · exact e
    have hqcol : q.column = column_after 1 (pre ++ skipped) := by
      rcases h6 1 pre hpcol with e | e
      · exact e
      · rw [hr] at e
        cases e
    obtain ⟨ty, val, chunk, r, hty, hne, hsplit, hnt⟩ := token_at c a (h7 c a hr)
    rw [hnt p q h1 hr] at h
    cases h
    have hrest2 : (advance chunk q).rest = r := by
      rw [advance_rest, hr, hsplit]
      simp
    refine ⟨⟨by rw [← hs, ← h2]; rfl, pre ++ skipped ++ chunk, ?_, ?_, ?_, Or.inr ?_⟩, ?_⟩
    · rw [hrest2, hqpre, hr, hsplit]
      simp only [List.append_assoc]
    · simp only [advance, List.length_append] at hqlen ⊢
      omega
    · simp only [advance, hqline, line_after_append]
    · simp only [advance, hqcol, column_after_append]
    · intro _
      refine ⟨q, pre ++ skipped, h1, hqpre, hqlen, by rw [hr]; simp, by omega, hqline, hqcol⟩

theorem reachable_bookkeeping (source : List Char) (p : parser_state_t)
    (hr : LexReachable source p) :
    p.source = source ∧ ∃ pre, cstr source = pre ++ p.rest ∧ pre.length = p.position ∧
      p.line = line_after 1 pre ∧ (p.rest = [] ∨ p.column = column_after 1 pre) := by
  induction hr with
  | start =>
    exact ⟨rfl, [], by rw [lexer_start_rest]; rfl, rfl, rfl, Or.inr rfl⟩
  | step p q tok _ hnext ih =>
    exact (lexer_bookkeeping source p ih.1 ih.2 tok q hnext).1

/-- Claim C36. Token positions are 1-based and exact. For every state reached from the
start of a source by calls of `next_token` and every token other than `TOKEN_EOF` that
the next call returns, the token begins on the byte where `skip_whitespace` stops, and
its line is 1 plus the number of line feeds in the source before that byte, its column
1 plus the number of bytes between the last such line feed, or the start of the source,
and that byte. Comments and string literals that span lines lie before that byte like
any other text. -/
theorem token_positions_exact (source : List Char) (p p2 : parser_state_t) (tok : token_t)
    (hreach : LexReachable source p) (h : next_token p = some (tok, p2))
    (hne : tok.type ≠ .TOKEN_EOF) :
    ∃ q, Lexer.skip_whitespace p = some q ∧ p.position ≤ q.position ∧
      q.position < strlen source ∧
      tok.line = line_of ((cstr source).take q.position) ∧
      tok.column = column_of ((cstr source).take q.position) ∧
      tok.line = 1 + ((cstr source).take q.position).count '\n' ∧
      tok.column = 1 + (((cstr source).take q.position).reverse.takeWhile
        (fun ch => ch != '\n')).length := by
  obtain ⟨hs, hG⟩ := reachable_bookkeeping source p hreach
  obtain ⟨q, pre, h1, h2, h3, h4, h5, h6, h7⟩ :=
    (lexer_bookkeeping source p hs hG tok p2 h).2 hne
  have htake : (cstr source).take q.position = pre := by
    rw [h2, ← h3, List.take_left']
    rfl
  have hlt : q.position < strlen source := by
    rw [strlen_eq_cstr_length, h2, List.length_append, h3]
    have : 0 < q.rest.length := List.length_pos.mpr h4
    omega
  have hl : tok.line = line_of ((cstr source).take q.position) := by
    rw [htake, h6, line_after_eq_line_of]
  have hc : tok.column = column_of ((cstr source).take q.position) := by
    rw [htake, h7, column_after_eq_column_of]
  exact ⟨q, h1, h5, hlt, hl, hc, hl, hc⟩

theorem token_positions_exact_witness :
    LexReachable "/* a\n*/ x // c\n 'p\nq' y".toList
      { source := "/* a\n*/ x // c\n 'p\nq' y".toList, position := 9, line := 2, column := 5 } ∧
    next_token
      { source := "/* a\n*/ x // c\n 'p\nq' y".toList, position := 9, line := 2,
        column := 5 } =
      some ({ type := .TOKEN_STRING, value := some "p\nq".toList, length := 3, line := 3,
              column := 2 },
        { source := "/* a\n*/ x // c\n 'p\nq' y".toList, position := 21, line := 4,
          column := 3 }) ∧
    ∃ q, Lexer.skip_whitespace
        { source := "/* a\n*/ x // c\n 'p\nq' y".toList, position := 9, line := 2,
          column := 5 } = some q ∧
      9 ≤ q.position ∧ q.position < strlen "/* a\n*/ x // c\n 'p\nq' y".toList ∧
      3 = line_of ((cstr "/* a\n*/ x // c\n 'p\nq' y".toList).take q.position) ∧
      2 = column_of ((cstr "/* a\n*/ x // c\n 'p\nq' y".toList).take q.position) ∧
      3 = 1 + ((cstr "/* a\n*/ x // c\n 'p\nq' y".toList).take q.position).count '\n' ∧
      2 = 1 + (((cstr "/* a\n*/ x // c\n 'p\nq' y".toList).take q.position).reverse.takeWhile
        (fun ch => ch != '\n')).length := by
  have hreach : LexReachable "/* a\n*/ x // c\n 'p\nq' y".toList
      { source := "/* a\n*/ x // c\n 'p\nq' y".toList, position := 9, line := 2,
        column := 5 } :=
    LexReachable.step (lexer_start "/* a\n*/ x // c\n 'p\nq' y".toList) _
      { type := .TOKEN_IDENTIFIER, value := some ['x'], length := 1, line := 2, column := 4 }
      LexReachable.start (by decide)
  have hnext : next_token
      { source := "/* a\n*/ x // c\n 'p\nq' y".toList, position := 9, line := 2,
        column := 5 } =
      some ({ type := .TOKEN_STRING, value := some "p\nq".toList, length := 3, line := 3,
              column := 2 },
        { source := "/* a\n*/ x // c\n 'p\nq' y".toList, position := 21, line := 4,
          column := 3 }) := by decide
  exact ⟨hreach, hnext, token_positions_exact _ _ _ _ hreach hnext (by decide)⟩

/-! ## Provenance of the output: the bodies of quoted literals -/

theorem skip_blanks_run (p : List Char) :
    ∃ a, p = a ++ skip_blanks p ∧ NUL ∉ a ∧ ∀ b ∈ a, b = ' ' ∨ b = '\t' := by
  induction p with
  | nil => exact ⟨[], rfl, by simp, by simp⟩
  | cons c cs ih =>
    unfold skip_blanks
    split
    · rename_i h
      obtain ⟨a, ha, hn, hb⟩ := ih
      have hc : c ≠ NUL ∧ (c = ' ' ∨ c = '\t') := by simpa using h
      refine ⟨c :: a, by rw [List.cons_append, ← ha], ?_, ?_⟩
      · intro hm
        rcases List.mem_cons.mp hm with e | e
        · exact hc.1 e.symm
        · exact hn e
      · intro b hm
        rcases List.mem_cons.mp hm with e | e
        · rw [e]; exact hc.2
        · exact hb b e
    · exact ⟨[], rfl, by simp, by simp⟩

/-- The shared body of the `echo` and `print` branches either writes the body of a
quoted literal that stands right behind blanks, closed by its quote, or writes nothing
and steps over bytes before the terminator. -/
theorem quoted_literal_cases (p out : List Char) :
    (∃ blanks q body, p = blanks ++ q :: body ++ q :: (quoted_literal p out).1 ∧
      (∀ b ∈ blanks, b = ' ' ∨ b = '\t') ∧ (q = DQUOTE ∨ q = SQUOTE) ∧
      q ∉ body ∧ NUL ∉ body ∧ (quoted_literal p out).2 = out ++ body) ∨
    ((quoted_literal p out).2 = out ∧
      ∃ a, p = a ++ (quoted_literal p out).1 ∧ NUL ∉ a) := by
  obtain ⟨a, ha, hna, hab⟩ := skip_blanks_run p
  unfold quoted_literal
  simp only
  split
  · rename_i hq
    have hq0 : cur (skip_blanks p) ≠ NUL := by
      intro e
      rw [e] at hq
      simp [NUL, DQUOTE, SQUOTE] at hq
    have hq1 : cur (skip_blanks p) = DQUOTE ∨ cur (skip_blanks p) = SQUOTE := by
      simpa using hq
    obtain ⟨hs, hsn⟩ := cur_ne_nul_split (skip_blanks p) hq0
    obtain ⟨h1, h2, h3⟩ := scan_quoted_split (cur (skip_blanks p)) (skip_blanks p).tail
    split
    · rename_i hclose
      have hcq : cur (scan_quoted (cur (skip_blanks p)) (skip_blanks p).tail).2 =
          cur (skip_blanks p) := beq_iff_eq.mp hclose
      have hc0 : cur (scan_quoted (cur (skip_blanks p)) (skip_blanks p).tail).2 ≠ NUL := by
        rw [hcq]
        exact hq0
      obtain ⟨ht, _⟩ :=
        cur_ne_nul_split (scan_quoted (cur (skip_blanks p)) (skip_blanks p).tail).2 hc0
      left
      refine ⟨a, cur (skip_blanks p),
        (scan_quoted (cur (skip_blanks p)) (skip_blanks p).tail).1, ?_, hab, hq1, h3, h2, ?_⟩
      · rw [hcq] at ht
        have e1 : (skip_blanks p).tail =
            (scan_quoted (cur (skip_blanks p)) (skip_blanks p).tail).1 ++
              cur (skip_blanks p) ::
                (scan_quoted (cur (skip_blanks p)) (skip_blanks p).tail).2.tail := by
          conv_lhs => rw [h1]
          conv_lhs => rw [ht]
          simp
        have e2 : skip_blanks p = cur (skip_blanks p) :: (skip_blanks p).tail := by
          simpa using hs
        conv_lhs => rw [ha, e2, e1]
        simp
      · simp only [php_engine_output, php_engine_output_len]
        rw [strlen_eq_length _ h2, List.take_length]
    · right
      refine ⟨rfl, a ++ [cur (skip_blanks p)] ++
        (scan_quoted (cur (skip_blanks p)) (skip_blanks p).tail).1, ?_, ?_⟩
      · simp only [List.append_assoc]
        rw [← h1, ← hs, ← ha]
      · simp only [List.mem_append, not_or]
        exact ⟨⟨hna, hsn⟩, h2⟩
  · right
    exact ⟨rfl, a, ha, hna⟩

/-- One pass of the outer loop, entered off the terminator, either writes the body of a
quoted literal that follows `echo` or `print`, or writes nothing; in both cases it
steps over bytes before the terminator only. -/
theorem execute_iteration_cases (p out : List Char) (h : cur p ≠ NUL) :
    (∃ pc : echo_piece, pc.is_literal ∧ p = pc.text ++ (execute_iteration p out).1 ∧
      (execute_iteration p out).2 = out ++ pc.body) ∨
    ((execute_iteration p out).2 = out ∧
      ∃ a, p = a ++ (execute_iteration p out).1 ∧ NUL ∉ a) := by
  have silent : (∃ a b c, p = a ++ b ++ c ++ (execute_iteration p out).1 ∧
      (execute_iteration p out).2 = out ++ b ∧ NUL ∉ a ++ b ++ c ∧ a ++ b ++ c ≠ []) →
      (execute_iteration p out).2 = out →
      ∃ a, p = a ++ (execute_iteration p out).1 ∧ NUL ∉ a := by
    rintro ⟨a, b, c, h1, _, h3, _⟩ _
    exact ⟨a ++ b ++ c, h1, h3⟩
  have hshape := execute_iteration_shape p out h
  obtain ⟨w, hw, hwn⟩ := skip_whitespace_split p
  have key : ∀ (lit : List Char) (n : Nat), (lit = "echo".toList ∨ lit = "print".toList) →
      n = lit.length → (∀ c ∈ lit, c ≠ NUL) →
      strncmp_eq (skip_whitespace p) lit n = true →
      execute_iteration p out = quoted_literal ((skip_whitespace p).drop n) out →
      (∃ pc : echo_piece, pc.is_literal ∧ p = pc.text ++ (execute_iteration p out).1 ∧
        (execute_iteration p out).2 = out ++ pc.body) ∨
      ((execute_iteration p out).2 = out ∧
        ∃ a, p = a ++ (execute_iteration p out).1 ∧ NUL ∉ a) := by
    intro lit n hlit hn hl hm he
    subst hn
    obtain ⟨e, _⟩ := drop_lit_split lit (skip_whitespace p) hl hm
    rcases quoted_literal_cases ((skip_whitespace p).drop lit.length) out with
      ⟨blanks, q, body, h1, h2, h3, h4, h5, h6⟩ | ⟨h1, _⟩
    · left
      refine ⟨{ before := w, keyword := lit, blanks := blanks, quote := q, body := body },
        ⟨hlit, h2, h3, h4, h5⟩, ?_, by rw [he]; exact h6⟩
      rw [he]
      simp only [echo_piece.text]
      conv_lhs => rw [hw, e, h1]
      simp only [List.append_assoc, List.cons_append, List.nil_append]
    · right
      have h2 : (execute_iteration p out).2 = out := by rw [he]; exact h1
      exact ⟨h2, silent hshape h2⟩
  by_cases c0 : (cur (skip_whitespace p) == NUL) = true
  · right
    have : (execute_iteration p out).2 = out := by
      simp only [execute_iteration, c0, if_true]
    exact ⟨this, silent hshape this⟩
  by_cases c1 : strncmp_eq (skip_whitespace p) "<?php".toList 5 = true
  · right
    have : (execute_iteration p out).2 = out := by
      simp only [execute_iteration, c0, c1, if_true, Bool.false_eq_true, if_false]
    exact ⟨this, silent hshape this⟩
  by_cases c2 : strncmp_eq (skip_whitespace p) "<?".toList 2 = true
  · right
    have : (execute_iteration p out).2 = out := by
      simp only [execute_iteration, c0, c1, c2, if_true, Bool.false_eq_true, if_false]
    exact ⟨this, silent hshape this⟩
  by_cases c3 : strncmp_eq (skip_whitespace p) "?>".toList 2 = true
  · right
    have : (execute_iteration p out).2 = out := by
      simp only [execute_iteration, c0, c1, c2, c3, if_true, Bool.false_eq_true, if_false]
    exact ⟨this, silent hshape this⟩
  by_cases c4 : strncmp_eq (skip_whitespace p) "echo".toList 4 = true
  · apply key "echo".toList 4 (Or.inl rfl) rfl lit_no_nul_echo c4
    simp only [execute_iteration, c0, c1, c2, c3, c4, if_true, Bool.false_eq_true, if_false]
  by_cases c5 : strncmp_eq (skip_whitespace p) "print".toList 5 = true
  · apply key "print".toList 5 (Or.inr rfl) rfl lit_no_nul_print c5
    simp only [execute_iteration, c0, c1, c2, c3, c4, c5, if_true, Bool.false_eq_true, if_false]
  · right
    have : (execute_iteration p out).2 = out := by
      simp only [execute_iteration, c0, c1, c2, c3, c4, c5, Bool.false_eq_true, if_false]
      split <;> rfl
    exact ⟨this, silent hshape this⟩

theorem pieces_text_nil (tail : List Char) : pieces_text [] tail = tail := by
  simp [pieces_text]

theorem pieces_text_cons (pc : echo_piece) (pieces : List echo_piece) (tail : List Char) :
    pieces_text (pc :: pieces) tail = pc.text ++ pieces_text pieces tail := by
  simp [pieces_text]

theorem pieces_bodies_cons (pc : echo_piece) (pieces : List echo_piece) :
    pieces_bodies (pc :: pieces) = pc.body ++ pieces_bodies pieces := by
  simp [pieces_bodies]

theorem pieces_prepend (a : List Char) (pieces : List echo_piece) (tail : List Char)
    (hp : ∀ pc ∈ pieces, pc.is_literal) :
    ∃ pieces2 tail2, a ++ pieces_text pieces tail = pieces_text pieces2 tail2 ∧
      pieces_bodies pieces2 = pieces_bodies pieces ∧ ∀ pc ∈ pieces2, pc.is_literal := by
  cases pieces with
  | nil =>
    exact ⟨[], a ++ tail, by simp [pieces_text], rfl, by simp⟩
  | cons pc rest =>
    refine ⟨{ pc with before := a ++ pc.before } :: rest, tail, ?_, ?_, ?_⟩
    · rw [pieces_text_cons, pieces_text_cons]
      simp only [echo_piece.text, List.append_assoc]
    · rw [pieces_bodies_cons, pieces_bodies_cons]
    · intro x hx
      rcases List.mem_cons.mp hx with e | e
      · rw [e]
        exact hp pc (by simp)
      · exact hp x (by simp [e])

theorem body_sublist_text (pc : echo_piece) : pc.body.Sublist pc.text := by
  simp only [echo_piece.text]
  have h1 : pc.body.Sublist (pc.body ++ [pc.quote]) := List.sublist_append_left _ _
  have h2 : (pc.body ++ [pc.quote]).Sublist (pc.quote :: (pc.body ++ [pc.quote])) :=
    List.sublist_cons_self _ _
  have h3 : (pc.quote :: (pc.body ++ [pc.quote])).Sublist
      ((pc.before ++ pc.keyword ++ pc.blanks) ++ pc.quote :: (pc.body ++ [pc.quote])) :=
    List.sublist_append_right _ _
  have := (h1.trans h2).trans h3
  simpa [List.append_assoc] using this

theorem pieces_bodies_sublist (pieces : List echo_piece) (tail : List Char) :
    (pieces_bodies pieces).Sublist (pieces_text pieces tail) := by
  induction pieces with
  | nil => simp [pieces_bodies]
  | cons pc rest ih =>
    rw [pieces_bodies_cons, pieces_text_cons]
    exact (body_sublist_text pc).append ih

/-- What the outer loop writes is, in source order, the bodies of quoted literals that
follow `echo` or `print` in the text it scans. -/
theorem execute_loop_pieces (f : Nat) : ∀ (p out r : List Char),
    execute_loop f p out = some r →
    ∃ pieces tail, p = pieces_text pieces tail ∧ (∀ pc ∈ pieces, pc.is_literal) ∧
      r = out ++ pieces_bodies pieces := by
  induction f with
  | zero => intro p out r h; simp [execute_loop] at h
  | succ n ih =>
    intro p out r h
    by_cases hc : cur p = NUL
    · have : execute_loop (n + 1) p out = some out := by simp [execute_loop, hc]
      rw [this] at h
      refine ⟨[], p, (pieces_text_nil p).symm, by simp, ?_⟩
      have := Option.some.inj h
      simp [pieces_bodies, ← this]
    · rw [execute_loop_step n p out hc] at h
      obtain ⟨pieces, tail, h3, h4, h5⟩ := ih _ _ r h
      rcases execute_iteration_cases p out hc with ⟨pc, hpc, h1, h2⟩ | ⟨h2, a, h1, _⟩
      · refine ⟨pc :: pieces, tail, ?_, ?_, ?_⟩
        · rw [pieces_text_cons, ← h3]
          exact h1
        · intro x hx
          rcases List.mem_cons.mp hx with e | e
          · rw [e]; exact hpc
          · exact h4 x e
        · rw [h5, h2, pieces_bodies_cons, List.append_assoc]
      · obtain ⟨pieces2, tail2, h6, h7, h8⟩ := pieces_prepend a pieces tail h4
        refine ⟨pieces2, tail2, ?_, h8, ?_⟩
        · rw [← h6, ← h3]
          exact h1
        · rw [h5, h2, h7]

/-- Claim C38. For every engine and every source text the call returns, and the bytes
it has written are, in source order, the bodies of quoted literals of the source: the
source is a row of pieces followed by a tail, each piece being some text, then `echo`
or `print`, spaces and tabs, a quote character, a body that holds neither that quote
nor the terminator, and the same quote again; what is written is the bodies of these
pieces one after the other. The bodies are pairwise disjoint contiguous parts of the
source, so what is written is a subsequence of the source and no longer than it. -/
theorem execute_string_echoes_source (e : Engine) (code : List Char) :
    ∃ ok e2 pieces tail, php_engine_execute_string e code = some (ok, e2) ∧
      code = pieces_text pieces tail ∧ (∀ pc ∈ pieces, pc.is_literal) ∧
      e2.stdout = e.stdout ++ pieces_bodies pieces ∧
      (pieces_bodies pieces).Sublist code ∧ (pieces_bodies pieces).length ≤ code.length := by
  by_cases hinit : e.engine_state = .PHP_ENGINE_INITIALIZED
  · obtain ⟨r, hr⟩ := execute_loop_total (code.length + 1) code e.stdout (by omega)
    obtain ⟨pieces, tail, h1, h2, h3⟩ := execute_loop_pieces _ _ _ r hr
    have hs : (pieces_bodies pieces).Sublist code := by
      conv_rhs => rw [h1]
      exact pieces_bodies_sublist pieces tail
    exact ⟨true, { e with engine_state := .PHP_ENGINE_INITIALIZED, stdout := r }, pieces, tail,
      execute_string_run e code r hinit hr, h1, h2, h3, hs, hs.length_le⟩
  · exact ⟨false, e, [], code, by simp [php_engine_execute_string, hinit],
      (pieces_text_nil code).symm, by simp, by simp [pieces_bodies], by simp [pieces_bodies],
      by simp [pieces_bodies]⟩

/-! ## Duplicate registrations behind an earlier one -/

/-- Claim C17, counterexample. On the registry that `php_engine_init` builds, two
registrations named `strlen` are made in a row, the first with the bounds (0, 0) and
the callback `probe_callback`. Both succeed and the registry grows from three entries
to five; a later call of `strlen` with no argument returns the absent result and
writes nothing, as the builtin `strlen` (at least one argument) decides it, whereas
the first of the two registrations accepts no argument and its callback would return
`Int(0)` and write `called`. -/
theorem register_duplicate_behind_builtin :
    ((php_engine_register_function (Engine.initialized (fun _ => []))
        (some { name := some "strlen".toList, callback := some probe_callback,
                min_args := 0, max_args := 0 })).bind
      (fun r1 => (php_engine_register_function r1.2
        (some { name := some "strlen".toList, callback := some php_function_strlen,
                min_args := 1, max_args := 1 })).map
        (fun r2 => (r1.1, r2.1, r2.2.registered_functions.length)))) = some (true, true, 5) ∧
    ((php_engine_register_function (Engine.initialized (fun _ => []))
        (some { name := some "strlen".toList, callback := some probe_callback,
                min_args := 0, max_args := 0 })).bind
      (fun r1 => (php_engine_register_function r1.2
        (some { name := some "strlen".toList, callback := some php_function_strlen,
                min_args := 1, max_args := 1 })).bind
        (fun r2 => (php_engine_call_function r2.2 (some "strlen".toList) 0 []).map
          (fun r => (r.1, r.2.stdout))))) = some (none, []) ∧
    probe_callback 0 [] [] = (some (php_value_create_int 0), "called".toList) := by
  refine ⟨by decide, by decide, by decide⟩

/-! ## The variable table over a store: lemmas -/

theorem stored_entries_split (name : List Char) (l : List stored_entry_t) :
    (∀ g ∈ l, stored_named name g = false) ∨
    ∃ pre x post, l = pre ++ x :: post ∧ stored_named name x = true ∧
      ∀ g ∈ pre, stored_named name g = false := by
  induction l with
  | nil => left; simp
  | cons e rest ih =>
    by_cases he : stored_named name e = true
    · right
      exact ⟨[], e, rest, rfl, he, by simp⟩
    · have he2 : stored_named name e = false := by simpa using he
      rcases ih with h | ⟨pre, x, post, hl, hx, hpre⟩
      · left
        intro g hg
        rcases List.mem_cons.mp hg with e1 | e1
        · rw [e1]; exact he2
        · exact h g e1
      · right
        refine ⟨e :: pre, x, post, by rw [hl]; rfl, hx, ?_⟩
        intro g hg
        rcases List.mem_cons.mp hg with e1 | e1
        · rw [e1]; exact he2
        · exact hpre g e1

theorem store_set_existing_split (name : List Char) (v : Nat) (x : stored_entry_t)
    (post : List stored_entry_t) (hx : stored_named name x = true) :
    ∀ pre : List stored_entry_t, (∀ g ∈ pre, stored_named name g = false) →
      Store.set_existing name v (pre ++ x :: post) =
        some (x.value, pre ++ { x with value := v } :: post) := by
  intro pre
  induction pre with
  | nil => intro _; simp [Store.set_existing, hx]
  | cons e rest ih =>
    intro h
    have he := h e (by simp)
    have := ih (fun g hg => h g (by simp [hg]))
    simp [Store.set_existing, he, this]

theorem store_set_existing_none (name : List Char) (v : Nat) :
    ∀ l : List stored_entry_t, (∀ g ∈ l, stored_named name g = false) →
      Store.set_existing name v l = none := by
  intro l
  induction l with
  | nil => intro _; rfl
  | cons e rest ih =>
    intro h
    have he := h e (by simp)
    have := ih (fun g hg => h g (by simp [hg]))
    simp [Store.set_existing, he, this]

theorem store_get_scan_split (name : List Char) (x : stored_entry_t)
    (post : List stored_entry_t) (hx : stored_named name x = true) :
    ∀ pre : List stored_entry_t, (∀ g ∈ pre, stored_named name g = false) →
      Store.get_scan name (pre ++ x :: post) = x.value := by
  intro pre
  induction pre with
  | nil => intro _; simp [Store.get_scan, hx]
  | cons e rest ih =>
    intro h
    have he := h e (by simp)
    have := ih (fun g hg => h g (by simp [hg]))
    simp [Store.get_scan, he, this]

theorem store_get_scan_skip (m : List Char) (a : stored_entry_t) (post : List stored_entry_t)
    (ha : stored_named m a = false) :
    ∀ pre : List stored_entry_t,
      Store.get_scan m (pre ++ a :: post) = Store.get_scan m (pre ++ post) := by
  intro pre
  induction pre with
  | nil => simp [Store.get_scan, ha]
  | cons e rest ih => simp only [List.cons_append, Store.get_scan, List.append_eq, ih]

theorem store_find_entry_split (name : List Char) (x : stored_entry_t)
    (post : List stored_entry_t) (hx : stored_named name x = true) :
    ∀ pre : List stored_entry_t, (∀ g ∈ pre, stored_named name g = false) →
      Store.find_entry name (pre ++ x :: post) = some pre.length := by
  intro pre
  induction pre with
  | nil => intro _; simp [Store.find_entry, hx]
  | cons e rest ih =>
    intro h
    have he := h e (by simp)
    have := ih (fun g hg => h g (by simp [hg]))
    simp [Store.find_entry, he, this]

theorem store_find_entry_none (name : List Char) :
    ∀ l : List stored_entry_t, (∀ g ∈ l, stored_named name g = false) →
      Store.find_entry name l = none := by
  intro l
  induction l with
  | nil => intro _; rfl
  | cons e rest ih =>
    intro h
    have he := h e (by simp)
    have := ih (fun g hg => h g (by simp [hg]))
    simp [Store.find_entry, he, this]

theorem stored_named_other (name m : List Char) (x : stored_entry_t)
    (hx : stored_named name x = true) (hm : strcmp_eq m name = false) :
    stored_named m x = false := by
  cases hxn : x.name with
  | none => simp [stored_named, hxn]
  | some n =>
    simp only [stored_named, hxn, strcmp_eq, beq_iff_eq, beq_eq_false_iff_ne, ne_eq] at hx hm ⊢
    intro h
    exact hm (h.symm.trans hx)

theorem stored_same_name (name : List Char) (x g : stored_entry_t)
    (hx : stored_named name x = true) (hg : stored_named name g = true) :
    same_name x.name g.name = true := by
  cases hxn : x.name with
  | none => simp [stored_named, hxn] at hx
  | some a =>
    cases hgn : g.name with
    | none => simp [stored_named, hgn] at hg
    | some b =>
      simp only [stored_named, hxn, hgn, strcmp_eq_iff, same_name] at hx hg ⊢
      rw [hx, hg]

theorem stored_unique_after (name : List Char) (pre post : List stored_entry_t)
    (x : stored_entry_t) (hx : stored_named name x = true)
    (hu : ((pre ++ x :: post).map (fun e => e.name)).Pairwise
      (fun a b => same_name a b = false)) :
    ∀ g ∈ post, stored_named name g = false := by
  intro g hg
  rw [List.map_append, List.pairwise_append] at hu
  have h2 := hu.2.1
  rw [List.map_cons, List.pairwise_cons] at h2
  have := h2.1 g.name (List.mem_map_of_mem _ hg)
  cases hgn : stored_named name g with
  | false => rfl
  | true => rw [stored_same_name name x g hx hgn] at this; cases this

/-- The call `php_value_destroy(value)` is defined on a null pointer and on a pointer to
a live value, and changes the store at that address only. -/
theorem destroy_at_defined (store : value_store) (value : Nat)
    (h : value = 0 ∨ (store value).isSome = true) :
    ∃ store2, destroy_at store value = some store2 ∧ ∀ a, a ≠ value → store2 a = store a := by
  by_cases h0 : value = 0
  · refine ⟨store, ?_, fun _ _ => rfl⟩
    simp [destroy_at, deref, h0, php_value_destroy]
  · rcases h with h | h
    · exact absurd h h0
    · cases hv : store value with
      | none => rw [hv] at h; cases h
      | some w =>
        by_cases hz : ((w.refcount + (2 ^ 32 - 1)) % 2 ^ 32 == 0) = true
        · refine ⟨fun a => if a = value then none else store a, ?_, ?_⟩
          · simp only [destroy_at, deref, h0, if_false, hv, php_value_destroy, hz, if_true]
          · intro a ha
            simp only [ha, if_false]
        · refine ⟨fun a => if a = value then
              some { w with refcount := (w.refcount + (2 ^ 32 - 1)) % 2 ^ 32 } else store a,
            ?_, ?_⟩
          · simp only [destroy_at, deref, h0, if_false, hv, php_value_destroy, hz,
              Bool.false_eq_true]
          · intro a ha
            simp only [ha, if_false]

theorem destroy_at_frame (store store2 : value_store) (value : Nat)
    (h : destroy_at store value = some store2) : ∀ a, a ≠ value → store2 a = store a := by
  by_cases h0 : value = 0
  · obtain ⟨s, hs, hf⟩ := destroy_at_defined store value (Or.inl h0)
    rw [hs] at h
    cases h
    exact hf
  · cases hv : store value with
    | none =>
      simp [destroy_at, deref, h0, hv, php_value_destroy] at h
    | some w =>
      obtain ⟨s, hs, hf⟩ := destroy_at_defined store value (Or.inr (by rw [hv]; rfl))
      rw [hs] at h
      cases h
      exact hf

/-! ## The variable table over a store: set and get -/

/-- Claim C8, counterexample. The table holds `x`, pointing at the value `Int(1)` with
reference count 1 at address 1. `php_variable_set("x", v)` with `v` that very pointer
succeeds and `php_variable_get("x")` returns the pointer, but no live value stands at
it any more: the set has handed the old value, which is `v`, to `php_value_destroy`. -/
theorem set_stored_value_releases_it :
    store_two 1 1 = some (php_value_create_int 1) ∧
    (Store.php_variable_set (store_two 1) pointers_x (some "x".toList) 1).map
      (fun r => (r.1, Store.php_variable_get r.2.2 (some "x".toList), r.2.1 1)) =
      some (true, 1, none) := by
  refine ⟨by decide, by decide⟩

/-- Claim C8, amended. For every table with spare or growable capacity, every name and
every pointer `value` to a live value `v`: when the entry that the scan for `name`
finds, if there is one, holds another pointer than `value`, null or to a live value,
`php_variable_set(name, value)` succeeds, `php_variable_get(name)` on the table it
leaves returns `value`, and `v` still stands at it unchanged. -/
theorem store_set_then_get (store : value_store) (t : stored_table_t) (name : List Char)
    (value : Nat) (v : php_value_t)
    (hcap : t.entries.length < t.capacity ∨ t.entries.length < 2 * t.capacity)
    (hv0 : value ≠ 0) (hlive : store value = some v)
    (hold : ∀ (i : Nat) (x : stored_entry_t), Store.find_entry name t.entries = some i →
      t.entries[i]? = some x →
      x.value ≠ value ∧ (x.value = 0 ∨ (store x.value).isSome = true)) :
    ∃ store2 t2, Store.php_variable_set store t (some name) value = some (true, store2, t2) ∧
      Store.php_variable_get t2 (some name) = value ∧ store2 value = some v := by
  rcases stored_entries_split name t.entries with hnone | ⟨pre, x, post, hl, hx, hpre⟩
  · have hs := store_set_existing_none name value t.entries hnone
    have hroom : t.entries.length <
        (if t.entries.length ≥ t.capacity then t.capacity * 2 else t.capacity) := by
      split <;> omega
    have hnew : stored_named name
        { name := some (cstr name), value := value, scope := .SCOPE_GLOBAL } = true := by
      simp [stored_named, strcmp_eq_cstr_self]
    refine ⟨store,
      { entries := t.entries ++
          [{ name := some (cstr name), value := value, scope := .SCOPE_GLOBAL }],
        capacity := if t.entries.length ≥ t.capacity then t.capacity * 2 else t.capacity },
      ?_, ?_, hlive⟩
    · simp only [Store.php_variable_set, hv0, if_false, hs, hroom, if_true]
    · exact store_get_scan_split name _ [] hnew t.entries hnone
  · have hs := store_set_existing_split name value x post hx pre hpre
    have hxo := hold pre.length x
      (by rw [hl]; exact store_find_entry_split name x post hx pre hpre)
      (by rw [hl, List.getElem?_append_right (Nat.le_refl _)]; simp)
    obtain ⟨store2, hd, hf⟩ := destroy_at_defined store x.value hxo.2
    have hx2 : stored_named name { x with value := value } = true := hx
    refine ⟨store2, { t with entries := pre ++ { x with value := value } :: post }, ?_, ?_, ?_⟩
    · simp only [Store.php_variable_set, hv0, if_false, hl, hs, hd]
    · exact store_get_scan_split name _ post hx2 pre hpre
    · rw [hf value (fun e => hxo.1 e.symm)]
      exact hlive

theorem store_set_then_get_witness :
    ∃ store2 t2, Store.php_variable_set (store_two 1) pointers_x (some "x".toList) 2 =
        some (true, store2, t2) ∧
      Store.php_variable_get t2 (some "x".toList) = 2 ∧
      store2 2 = some (php_value_create_int 2) :=
  store_set_then_get (store_two 1) pointers_x "x".toList 2 (php_value_create_int 2)
    (by decide) (by decide) (by decide)
    (by
      intro i x hi hx
      have h0 : i = 0 := by
        have : Store.find_entry "x".toList pointers_x.entries = some 0 := by decide
        rw [this] at hi
        cases hi
        rfl
      subst h0
      have hx1 : x = pointer_entry "x" 1 := by
        have : pointers_x.entries[0]? = some (pointer_entry "x" 1) := by decide
        rw [this] at hx
        cases hx
        rfl
      subst hx1
      decide)

/-- The table that a successful `php_variable_set(name, value)` leaves splits at one
entry of that name, which holds `value`; in a table with unique names no other entry
carries the name. -/
theorem store_set_result_split (store store1 : value_store) (t t1 : stored_table_t)
    (name : List Char) (value : Nat) (hu : stored_names_unique t)
    (h : Store.php_variable_set store t (some name) value = some (true, store1, t1)) :
    ∃ pre x post, t1.entries = pre ++ x :: post ∧ stored_named name x = true ∧
      x.value = value ∧ (∀ g ∈ pre, stored_named name g = false) ∧
      (∀ g ∈ post, stored_named name g = false) := by
  have hv0 : value ≠ 0 := by
    intro e
    simp [Store.php_variable_set, e] at h
  rcases stored_entries_split name t.entries with hnone | ⟨pre, x, post, hl, hx, hpre⟩
  · have hs := store_set_existing_none name value t.entries hnone
    simp only [Store.php_variable_set, hv0, if_false, hs] at h
    by_cases hroom : t.entries.length <
        (if t.entries.length ≥ t.capacity then t.capacity * 2 else t.capacity)
    · rw [if_pos hroom] at h
      simp only [Option.some.injEq, Prod.mk.injEq, true_and] at h
      refine ⟨t.entries, { name := some (cstr name), value := value, scope := .SCOPE_GLOBAL },
        [], by rw [← h.2], by simp [stored_named, strcmp_eq_cstr_self], rfl, hnone, by simp⟩
    · rw [if_neg hroom] at h
      cases h
  · have hs := store_set_existing_split name value x post hx pre hpre
    have hpost : ∀ g ∈ post, stored_named name g = false := by
      unfold stored_names_unique at hu
      rw [hl] at hu
      exact stored_unique_after name pre post x hx hu
    simp only [Store.php_variable_set, hv0, if_false, hl, hs] at h
    cases hd : destroy_at store x.value with
    | none => rw [hd] at h; cases h
    | some s2 =>
      rw [hd] at h
      simp only [Option.some.injEq, Prod.mk.injEq, true_and] at h
      exact ⟨pre, { x with value := value }, post, by rw [← h.2], hx, rfl, hpre, hpost⟩

/-- Claim C9, counterexample. On the table without entries, `php_variable_set("x", v)`
made twice with the same pointer `v`, to the value `Int(1)` with reference count 1,
succeeds both times and leaves one entry named `x` that holds `v`; but no live value
stands at `v` any more, the second set having released it. -/
theorem set_same_value_twice_releases_it :
    ((Store.php_variable_set (store_two 1) pointers_none (some "x".toList) 1).bind
      (fun r1 => (Store.php_variable_set r1.2.1 r1.2.2 (some "x".toList) 1).map
        (fun r2 => (r1.1, r2.1, r2.2.2.entries, r2.2.1 1)))) =
      some (true, true, [pointer_entry "x" 1], none) := by
  decide

/-- Claim C9, amended. For every table with unique names, every name and all pointers
`v1`, `v2`: when `php_variable_set(name, v1)` has succeeded and left `v1` and `v2`
pointing at live values, `v2` being non-null and another pointer than `v1`,
`php_variable_set(name, v2)` succeeds, does not change the entry count, leaves exactly
one entry named `name`, which holds `v2`, and leaves the value at `v2` as it was. -/
theorem store_set_twice (store store1 : value_store) (t t1 : stored_table_t)
    (name : List Char) (v1 v2 : Nat) (w2 : php_value_t) (hu : stored_names_unique t)
    (h1 : Store.php_variable_set store t (some name) v1 = some (true, store1, t1))
    (hv2 : v2 ≠ 0) (hne : v2 ≠ v1) (hl1 : (store1 v1).isSome = true)
    (hl2 : store1 v2 = some w2) :
    ∃ store2 t2, Store.php_variable_set store1 t1 (some name) v2 = some (true, store2, t2) ∧
      t2.entries.length = t1.entries.length ∧
      (t2.entries.filter (stored_named name)).map (fun e => e.value) = [v2] ∧
      store2 v2 = some w2 := by
  obtain ⟨pre, x, post, hl, hx, hxv, hpre, hpost⟩ :=
    store_set_result_split store store1 t t1 name v1 hu h1
  have hs := store_set_existing_split name v2 x post hx pre hpre
  obtain ⟨store2, hd, hf⟩ := destroy_at_defined store1 x.value (Or.inr (by rw [hxv]; exact hl1))
  have hx2 : stored_named name { x with value := v2 } = true := hx
  refine ⟨store2, { t1 with entries := pre ++ { x with value := v2 } :: post }, ?_, ?_, ?_, ?_⟩
  · simp only [Store.php_variable_set, hv2, if_false, hl, hs, hd]
  · simp [hl]
  · have h1 : pre.filter (stored_named name) = [] := by
      rw [List.filter_eq_nil_iff]
      intro g hg
      simp [hpre g hg]
    have h2 : post.filter (stored_named name) = [] := by
      rw [List.filter_eq_nil_iff]
      intro g hg
      simp [hpost g hg]
    simp only [List.filter_append, List.filter_cons, hx2, if_true, h1, h2, List.nil_append,
      List.map_cons, List.map_nil]
  · rw [hf v2 (by rw [hxv]; exact hne)]
    exact hl2

theorem store_set_twice_witness :
    stored_names_unique pointers_none ∧
    Store.php_variable_set (store_two 1) pointers_none (some "x".toList) 1 =
      some (true, store_two 1, pointers_x) ∧
    ∃ store2 t2, Store.php_variable_set (store_two 1) pointers_x (some "x".toList) 2 =
        some (true, store2, t2) ∧
      t2.entries.length = pointers_x.entries.length ∧
      (t2.entries.filter (stored_named "x".toList)).map (fun e => e.value) = [2] ∧
      store2 2 = some (php_value_create_int 2) :=
  ⟨by simp [stored_names_unique, pointers_none], rfl,
    store_set_twice (store_two 1) (store_two 1) pointers_none pointers_x "x".toList 1 2
      (php_value_create_int 2) (by simp [stored_names_unique, pointers_none]) rfl
      (by decide) (by decide) (by decide) (by decide)⟩

/-- Claim C34, counterexample. The table holds `a` and `b`, both pointing at the value
`Int(1)` at address 1. With that value held twice (reference count 2),
`php_variable_set("a", w)` leaves `b` pointing at address 1, where the value now has
the reference count 1; with the value held once (reference count 1) it leaves `b`
pointing at address 1 with no live value there. -/
theorem set_changes_shared_value :
    Store.php_variable_get pointers_ab (some "b".toList) = 1 ∧
    store_two 2 1 = some { payload := .PHP_TYPE_INT 1, refcount := 2 } ∧
    (Store.php_variable_set (store_two 2) pointers_ab (some "a".toList) 2).map
      (fun r => (r.1, Store.php_variable_get r.2.2 (some "b".toList), r.2.1 1)) =
      some (true, 1, some { payload := .PHP_TYPE_INT 1, refcount := 1 }) ∧
    (Store.php_variable_set (store_two 1) pointers_ab (some "a".toList) 2).map
      (fun r => (r.1, Store.php_variable_get r.2.2 (some "b".toList), r.2.1 1)) =
      some (true, 1, none) := by
  refine ⟨by decide, by decide, by decide, by decide⟩

/-- Claim C34, amended. After a successful `php_variable_set(name, value)` every entry
that does not carry `name` stands at its former index with the pointer it held, and
`php_variable_get` of every other name returns the pointer it returned before; the
only value that the call touches is the one the overwritten entry pointed at, which is
handed to `php_value_destroy`. When no entry carried `name` the new entry is appended
behind all others and the store is not touched; when an entry carried it, the first
such entry keeps its index and its name, holds `value`, the table keeps its length, and
the store is the former one after `php_value_destroy` of the pointer the entry held,
the same at every other address. -/
theorem store_set_frames (store store2 : value_store) (t t2 : stored_table_t)
    (name : List Char) (value : Nat)
    (h : Store.php_variable_set store t (some name) value = some (true, store2, t2)) :
    (∀ (j : Nat) (e : stored_entry_t), t.entries[j]? = some e →
      stored_named name e = false → t2.entries[j]? = some e) ∧
    (∀ m, strcmp_eq m name = false →
      Store.php_variable_get t2 (some m) = Store.php_variable_get t (some m)) ∧
    (t.entries.any (stored_named name) = false →
      t2.entries = t.entries ++
        [{ name := some (cstr name), value := value, scope := .SCOPE_GLOBAL }] ∧
      ∀ a, store2 a = store a) ∧
    (∀ (i : Nat) (x : stored_entry_t), Store.find_entry name t.entries = some i →
      t.entries[i]? = some x →
      Store.find_entry name t2.entries = some i ∧ t2.entries.length = t.entries.length ∧
      t2.entries[i]? = some { x with value := value } ∧
      destroy_at store x.value = some store2 ∧
      ∀ a, a ≠ x.value → store2 a = store a) := by
  have hv0 : value ≠ 0 := by
    intro e
    simp [Store.php_variable_set, e] at h
  rcases stored_entries_split name t.entries with hnone | ⟨pre, x, post, hl, hx, hpre⟩
  · have hs := store_set_existing_none name value t.entries hnone
    have hf := store_find_entry_none name t.entries hnone
    simp only [Store.php_variable_set, hv0, if_false, hs] at h
    by_cases hroom : t.entries.length <
        (if t.entries.length ≥ t.capacity then t.capacity * 2 else t.capacity)
    · rw [if_pos hroom] at h
      simp only [Option.some.injEq, Prod.mk.injEq, true_and] at h
      obtain ⟨hst, ht⟩ := h
      subst hst
      subst ht
      refine ⟨?_, ?_, fun _ => ⟨rfl, fun _ => rfl⟩, ?_⟩
      · intro j e hj _
        simp only
        have hlt : j < t.entries.length := by
          by_contra hge
          rw [List.getElem?_eq_none (by omega)] at hj
          cases hj
        rw [List.getElem?_append_left hlt]
        exact hj
      · intro m hm
        simp only [Store.php_variable_get]
        have hne : stored_named m
            { name := some (cstr name), value := value, scope := .SCOPE_GLOBAL } = false :=
          stored_named_other name m _ (by simp [stored_named, strcmp_eq_cstr_self]) hm
        have := store_get_scan_skip m _ [] hne t.entries
        rw [List.append_nil] at this
        exact this
      · intro i x hi
        rw [hf] at hi
        cases hi
    · rw [if_neg hroom] at h
      cases h
  · have hs := store_set_existing_split name value x post hx pre hpre
    have hf := store_find_entry_split name x post hx pre hpre
    rw [← hl] at hs hf
    simp only [Store.php_variable_set, hv0, if_false, hs] at h
    cases hd : destroy_at store x.value with
    | none => rw [hd] at h; cases h
    | some s2 =>
      rw [hd] at h
      simp only [Option.some.injEq, Prod.mk.injEq, true_and] at h
      obtain ⟨hst, ht⟩ := h
      subst hst
      subst ht
      have hx2 : stored_named name { x with value := value } = true := hx
      refine ⟨?_, ?_, ?_, ?_⟩
      · intro j e hj he
        simp only
        rw [hl] at hj
        by_cases hjp : j = pre.length
        · subst hjp
          rw [List.getElem?_append_right (Nat.le_refl _)] at hj
          simp only [Nat.sub_self, List.getElem?_cons_zero, Option.some.injEq] at hj
          subst hj
          rw [hx] at he
          cases he
        · have hset : pre ++ { x with value := value } :: post =
              (pre ++ x :: post).set pre.length { x with value := value } := by
            simp
          rw [hset, List.getElem?_set_ne (fun e => hjp e.symm)]
          exact hj
      · intro m hm
        simp only [Store.php_variable_get]
        rw [hl, store_get_scan_skip m _ post (stored_named_other name m _ hx2 hm) pre,
          store_get_scan_skip m _ post (stored_named_other name m _ hx hm) pre]
      · intro hany
        rw [List.any_eq_false] at hany
        have := hany x (by rw [hl]; simp)
        rw [hx] at this
        exact absurd rfl this
      · intro i y hi hy
        rw [hf] at hi
        cases hi
        have hxy : y = x := by
          rw [hl, List.getElem?_append_right (Nat.le_refl _)] at hy
          simp only [Nat.sub_self, List.getElem?_cons_zero, Option.some.injEq] at hy
          exact hy.symm
        subst hxy
        simp only
        refine ⟨store_find_entry_split name _ post hx2 pre hpre, by simp [hl], ?_, hd,
          destroy_at_frame store s2 y.value hd⟩
        rw [List.getElem?_append_right (Nat.le_refl _)]
        simp

theorem store_set_frames_witness :
    ∃ store2 t2, Store.php_variable_set (store_two 2) pointers_ab (some "a".toList) 2 =
        some (true, store2, t2) ∧
      Store.php_variable_get t2 (some "b".toList) =
        Store.php_variable_get pointers_ab (some "b".toList) ∧
      store2 2 = store_two 2 2 := by
  have h : Store.php_variable_set (store_two 2) pointers_ab (some "a".toList) 2 =
      some (true,
        (fun a => if a = 1 then some { payload := .PHP_TYPE_INT 1, refcount := 1 }
          else store_two 2 a),
        { entries := [pointer_entry "a" 2, pointer_entry "b" 1], capacity := 64 }) := by
    rfl
  exact ⟨_, _, h,
    (store_set_frames _ _ _ _ "a".toList 2 h).2.1 "b".toList (by decide),
    ((store_set_frames _ _ _ _ "a".toList 2 h).2.2.2 0 (pointer_entry "a" 1) (by decide)
      (by decide)).2.2.2.2 2 (by decide)⟩

/-! ## The table by content and the table over a store -/

theorem content_entry_named (store : value_store) (name : List Char) (e : stored_entry_t) :
    entry_named name (content_entry store e) = stored_named name e := rfl

theorem unshared_split (value : Nat) (t : stored_table_t) (pre post : List stored_entry_t)
    (x : stored_entry_t) (hl : t.entries = pre ++ x :: post) (hv0 : value ≠ 0)
    (hx0 : x.value ≠ 0) (hs : unshared value t) :
    value ≠ x.value ∧ (∀ y ∈ pre, y.value ≠ x.value) ∧ (∀ y ∈ post, y.value ≠ x.value) := by
  unfold unshared at hs
  rw [hl] at hs
  have hv : (value != 0) = true := by simp [hv0]
  have hx : (x.value != 0) = true := by simp [hx0]
  simp only [List.map_append, List.map_cons, List.filter_cons, List.filter_append, hv, hx,
    if_true] at hs
  rw [List.nodup_cons] at hs
  obtain ⟨h1, h2⟩ := hs
  rw [List.nodup_append] at h2
  obtain ⟨_, h3, h4⟩ := h2
  rw [List.nodup_cons] at h3
  refine ⟨?_, ?_, ?_⟩
  · intro e
    apply h1
    rw [e]
    simp
  · intro y hy e
    have hm : x.value ∈ List.filter (fun a => a != 0) (List.map (fun e => e.value) pre) := by
      rw [List.mem_filter]
      refine ⟨?_, hx⟩
      rw [List.mem_map]
      exact ⟨y, hy, e⟩
    exact h4 hm (by simp)
  · intro y hy e
    apply h3.1
    rw [List.mem_filter]
    refine ⟨?_, hx⟩
    rw [List.mem_map]
    exact ⟨y, hy, e⟩

theorem destroy_at_null (store : value_store) : destroy_at store 0 = some store := by
  simp [destroy_at, deref, php_value_destroy]

/-- The table by content is the table over a store where no value is shared: when
`php_variable_set(name, value)` succeeds on a store in which `value` points at the
live value `v`, and no non-null pointer is held twice, `php_variable_set` by content
takes the table seen by content before the call to the table seen by content after
it. -/
theorem store_set_by_content (store store2 : value_store) (t t2 : stored_table_t)
    (name : List Char) (value : Nat) (v : php_value_t)
    (h : Store.php_variable_set store t (some name) value = some (true, store2, t2))
    (hlive : store value = some v) (hs : unshared value t) :
    php_variable_set (by_content store t) (some name) (some v) =
      some (true, by_content store2 t2) := by
  have hv0 : value ≠ 0 := by
    intro e
    simp [Store.php_variable_set, e] at h
  rcases stored_entries_split name t.entries with hnone | ⟨pre, x, post, hl, hx, hpre⟩
  · have hse := store_set_existing_none name value t.entries hnone
    have hse2 : set_existing name v (t.entries.map (content_entry store)) = none := by
      apply set_existing_all_false
      intro g hg
      rw [List.mem_map] at hg
      obtain ⟨y, hy, rfl⟩ := hg
      rw [content_entry_named]
      exact hnone y hy
    simp only [Store.php_variable_set, hv0, if_false, hse] at h
    by_cases hroom : t.entries.length <
        (if t.entries.length ≥ t.capacity then t.capacity * 2 else t.capacity)
    · rw [if_pos hroom] at h
      simp only [Option.some.injEq, Prod.mk.injEq, true_and] at h
      obtain ⟨hst, ht⟩ := h
      subst hst
      subst ht
      simp only [php_variable_set, by_content, hse2, List.length_map, hroom, if_true,
        List.map_append, List.map_cons, List.map_nil, content_entry, hv0, if_false, hlive]
    · rw [if_neg hroom] at h
      cases h
  · have hse := store_set_existing_split name value x post hx pre hpre
    rw [← hl] at hse
    simp only [Store.php_variable_set, hv0, if_false, hse] at h
    cases hd : destroy_at store x.value with
    | none => rw [hd] at h; cases h
    | some s2 =>
      rw [hd] at h
      simp only [Option.some.injEq, Prod.mk.injEq, true_and] at h
      obtain ⟨hst, ht⟩ := h
      subst hst
      subst ht
      have hframe := destroy_at_frame store s2 x.value hd
      have hkeep : ∀ y : stored_entry_t, (x.value ≠ 0 → y.value ≠ x.value) →
          content_entry s2 y = content_entry store y := by
        intro y hy
        by_cases hx0 : x.value = 0
        · rw [hx0, destroy_at_null] at hd
          cases hd
          rfl
        · simp only [content_entry]
          rw [hframe y.value (hy hx0)]
      have hnew : content_entry s2 { x with value := value } =
          { content_entry store x with value := some v } := by
        have e := hkeep { x with value := value }
          (fun hx0 => (unshared_split value t pre post x hl hv0 hx0 hs).1)
        rw [e]
        simp only [content_entry, hv0, if_false, hlive]
      have hpre2 : pre.map (content_entry s2) = pre.map (content_entry store) := by
        apply List.map_congr_left
        intro y hy
        exact hkeep y (fun hx0 => (unshared_split value t pre post x hl hv0 hx0 hs).2.1 y hy)
      have hpost2 : post.map (content_entry s2) = post.map (content_entry store) := by
        apply List.map_congr_left
        intro y hy
        exact hkeep y (fun hx0 => (unshared_split value t pre post x hl hv0 hx0 hs).2.2 y hy)
      have hse2 := set_existing_split name v (content_entry store x)
        (post.map (content_entry store)) hx (pre.map (content_entry store))
        (by
          intro g hg
          rw [List.mem_map] at hg
          obtain ⟨y, hy, rfl⟩ := hg
          rw [content_entry_named]
          exact hpre y hy)
      simp only [php_variable_set, by_content, hl, List.map_append, List.map_cons, hse2,
        hnew, hpre2, hpost2]

end Php2Wasm
